import Mathlib

/-!
# Quadtree image decomposition: embedding and verified properties

Shallow embedding of the decomposition core of `src/src/temp.cpp` (the same
functions appear verbatim in `src/src/simple.cpp`): `clamp0`, `calcStdDevRGB`,
`averageRGB`, `buildQT`, `blitRect`, `rasterizeQT`.

Modelling conventions.

* C++ `int` is `Int`; `/` on `int` is truncating division `Int.tdiv`.  The one
  product the code forms, `cnt = w*h`, is checked against the 32-bit range
  (signed overflow is undefined behaviour, modelled as `none`).
* `uint8_t` is `Fin 256`; the cast `(uint8_t)v` is `v % 256`.
* `uint64_t` and `size_t` are `Nat` reduced `% 2^64` after every operation.
* `double` is an abstract carrier `F` with the operations the program uses
  (`DoubleOps F`).  Theorems that do not depend on rounding hold for every
  `DoubleOps`; the others name the arithmetic facts they use.
* Undefined behaviour (out-of-range `operator[]`, integer division by zero,
  signed overflow) is `none`.  For the claim on zero-area regions the division
  by zero is also read as a machine runs it: `averageRGBDz` and `buildQTDz`
  take the quotient it delivers as a parameter.
* Claims that depend on rounding name the IEEE-754 facts they use
  (`ExactOnInts`, `RoundedOps`).
* `rasterizeQTLogged` is `rasterizeQT` run on a vector that records every
  store made into it; it is used to count the stores.
* `Node` is the type of `Node*` values: `Node.null` is `nullptr`.
-/

namespace QuadTree

/-! ## Data model -/

/-- An 8-bit RGB triple: `struct Color { uint8_t r,g,b; }`. -/
structure Color where
  r : Fin 256
  g : Fin 256
  b : Fin 256
deriving DecidableEq, Repr

/-- Value-initialised colour `Color{}`. -/
def Color.zero : Color := ⟨0, 0, 0⟩

/-- The image: `std::vector<std::vector<Color>>`, a list of rows. -/
abbrev Grid := List (List Color)

/-- A value of type `Node*`: either `nullptr` or a node owning its four child pointers. -/
inductive Node where
  | null : Node
  | node (x y w h : Int) (leaf : Bool) (avg : Color) (ch0 ch1 ch2 ch3 : Node) : Node
deriving DecidableEq, Repr

/-- Operations of the C++ `double` type used by the program. -/
structure DoubleOps (F : Type) where
  ofInt : Int → F
  add : F → F → F
  sub : F → F → F
  mul : F → F → F
  div : F → F → F
  sqrt : F → F
  lt : F → F → Bool
  le : F → F → Bool

/-- Counters of one build: `struct BuildStats { size_t nodes=0, leaves=0; double ms=0; }`. -/
structure BuildStats (F : Type) where
  nodes : Nat
  leaves : Nat
  ms : F

/-- Largest value of a 32-bit `int`. -/
def INT_MAX : Int := 2147483647

/-- Smallest value of a 32-bit `int`. -/
def INT_MIN : Int := -2147483648

/-- Number of values of `uint64_t` / `size_t`. -/
def U64 : Nat := 2 ^ 64

/-- Result of an `int` operation: defined only when it is representable. -/
def intChecked (v : Int) : Option Int :=
  if INT_MIN ≤ v ∧ v ≤ INT_MAX then some v else none

/-- Iteration space of `for (int k = a; k < b; ++k)`. -/
def intRange (a b : Int) : List Int :=
  (List.range (b - a).toNat).map (fun (k : Nat) => a + (k : Int))

/-- Row access `px[j]`. -/
def rowAt (px : Grid) (j : Int) : Option (List Color) :=
  if 0 ≤ j then px[j.toNat]? else none

/-- Pixel access `row[i]`. -/
def pixAt (row : List Color) (i : Int) : Option Color :=
  if 0 ≤ i then row[i.toNat]? else none

/-- All results of a list of fallible reads, in order; `none` as soon as one fails. -/
def allSome {α : Type} : List (Option α) → Option (List α)
  | [] => some []
  | none :: _ => none
  | some a :: rest =>
    match allSome rest with
    | none => none
    | some as => some (a :: as)

/-- Inner loop `for (int i=x; i<x+w; ++i) ... row[i] ...` of one row `j`:
    `px[j]` is taken first, then each `row[i]`. -/
def readRow (px : Grid) (x w j : Int) : Option (List Color) :=
  match rowAt px j with
  | none => none
  | some row => allSome ((intRange x (x + w)).map (pixAt row))

/-- The pixels visited by the double loop shared by `calcStdDevRGB` and `averageRGB`
    (`for j in [y, y+h)`, `for i in [x, x+w)`), in visiting order. -/
def regionPixels (px : Grid) (x y w h : Int) : Option (List Color) :=
  match allSome ((intRange y (y + h)).map (readRow px x w)) with
  | none => none
  | some rows => some rows.flatten

/-! ## RegionStatistics -/

/-- The function `clamp0(double v) { return v < 0 ? 0 : v; }`. -/
def clamp0 {F : Type} (M : DoubleOps F) (v : F) : F :=
  if M.lt v (M.ofInt 0) then M.ofInt 0 else v

/-- The six running sums of `calcStdDevRGB`. -/
structure SdAcc (F : Type) where
  sumR : F
  sumG : F
  sumB : F
  sqR : F
  sqG : F
  sqB : F

/-- Loop body of `calcStdDevRGB`. -/
def sdStep {F : Type} (M : DoubleOps F) (a : SdAcc F) (c : Color) : SdAcc F :=
  let R := M.ofInt (c.r.val : Int)
  let G := M.ofInt (c.g.val : Int)
  let B := M.ofInt (c.b.val : Int)
  { sumR := M.add a.sumR R, sumG := M.add a.sumG G, sumB := M.add a.sumB B,
    sqR := M.add a.sqR (M.mul R R), sqG := M.add a.sqG (M.mul G G),
    sqB := M.add a.sqB (M.mul B B) }

/-- Initial sums `sumR=0,...,sqB=0`. -/
def sdInit {F : Type} (M : DoubleOps F) : SdAcc F :=
  { sumR := M.ofInt 0, sumG := M.ofInt 0, sumB := M.ofInt 0,
    sqR := M.ofInt 0, sqG := M.ofInt 0, sqB := M.ofInt 0 }

/-- One channel: `sqrt(clamp0(sq/cnt - m*m))` with `m = sum/cnt`. -/
def chanSd {F : Type} (M : DoubleOps F) (sum sq cnt : F) : F :=
  M.sqrt (clamp0 M (M.sub (M.div sq cnt) (M.mul (M.div sum cnt) (M.div sum cnt))))

/-- The function `calcStdDevRGB(px, x, y, w, h)`. -/
def calcStdDevRGB {F : Type} (M : DoubleOps F) (px : Grid) (x y w h : Int) : Option F :=
  match intChecked (w * h) with
  | none => none
  | some cnt =>
    match regionPixels px x y w h with
    | none => none
    | some ps =>
      let a := ps.foldl (sdStep M) (sdInit M)
      let n := M.ofInt cnt
      let sdR := chanSd M a.sumR a.sqR n
      let sdG := chanSd M a.sumG a.sqG n
      let sdB := chanSd M a.sumB a.sqB n
      some (M.div (M.add (M.add sdR sdG) sdB) (M.ofInt 3))

/-- The three `uint64_t` sums of `averageRGB`. -/
structure AvgAcc where
  sumR : Nat
  sumG : Nat
  sumB : Nat

/-- Loop body of `averageRGB`: `sumR += row[i].r; ...` on `uint64_t`. -/
def avgStep (a : AvgAcc) (c : Color) : AvgAcc :=
  { sumR := (a.sumR + c.r.val) % U64, sumG := (a.sumG + c.g.val) % U64,
    sumB := (a.sumB + c.b.val) % U64 }

/-- The cast `(uint8_t)v`. -/
def toU8 (v : Nat) : Fin 256 := ⟨v % 256, Nat.mod_lt _ (by decide)⟩

/-- The function `averageRGB(px, x, y, w, h)`.  In `sumR / cnt` the `int` divisor is
    converted to `uint64_t` (reduction modulo `2^64`); division by zero is undefined. -/
def averageRGB (px : Grid) (x y w h : Int) : Option Color :=
  match intChecked (w * h) with
  | none => none
  | some cnt =>
    match regionPixels px x y w h with
    | none => none
    | some ps =>
      let a := ps.foldl avgStep ⟨0, 0, 0⟩
      let d := (cnt % (U64 : Int)).toNat
      if d = 0 then none
      else some ⟨toU8 (a.sumR / d), toU8 (a.sumG / d), toU8 (a.sumB / d)⟩

/-! ## DecompositionEngine -/

/-- The leaf block of `buildQT` (it occurs twice in the source):
    `n->leaf = true; n->avg = averageRGB(px,x,y,w,h); stats.leaves++; return n;`. -/
def leafNode {F : Type} (px : Grid) (x y w h : Int) (stats : BuildStats F) :
    Option (Node × BuildStats F) :=
  match averageRGB px x y w h with
  | none => none
  | some avg =>
    some (Node.node x y w h true avg Node.null Node.null Node.null Node.null,
          { stats with leaves := (stats.leaves + 1) % U64 })

/-- The function `buildQT(px, x, y, w, h, minLeaf, sdThresh, stats)`; the statistics
    passed by reference are returned next to the node. -/
def buildQT {F : Type} (M : DoubleOps F) (px : Grid) (x y w h minLeaf : Int) (sdThresh : F)
    (stats : BuildStats F) : Option (Node × BuildStats F) :=
  if w ≤ minLeaf ∨ h ≤ minLeaf then
    leafNode px x y w h { stats with nodes := (stats.nodes + 1) % U64 }
  else
    match calcStdDevRGB M px x y w h with
    | none => none
    | some sd =>
      if M.le sd sdThresh = true then
        leafNode px x y w h { stats with nodes := (stats.nodes + 1) % U64 }
      else if hz : w.tdiv 2 = 0 ∨ h.tdiv 2 = 0 then
        leafNode px x y w h { stats with nodes := (stats.nodes + 1) % U64 }
      else
        match buildQT M px x y (w.tdiv 2) (h.tdiv 2) minLeaf sdThresh
            { stats with nodes := (stats.nodes + 1) % U64 } with
        | none => none
        | some (c0, s0) =>
          match buildQT M px (x + w.tdiv 2) y (w - w.tdiv 2) (h.tdiv 2) minLeaf sdThresh s0 with
          | none => none
          | some (c1, s1) =>
            match buildQT M px x (y + h.tdiv 2) (w.tdiv 2) (h - h.tdiv 2) minLeaf sdThresh s1 with
            | none => none
            | some (c2, s2) =>
              match buildQT M px (x + w.tdiv 2) (y + h.tdiv 2) (w - w.tdiv 2) (h - h.tdiv 2)
                  minLeaf sdThresh s2 with
              | none => none
              | some (c3, s3) =>
                some (Node.node x y w h false Color.zero c0 c1 c2 c3, s3)
termination_by w.natAbs
decreasing_by
  all_goals
    have hw : w.tdiv 2 ≠ 0 := fun e => hz (Or.inl e)
    rcases Int.le_total 0 w with hs | hs
    · rw [Int.tdiv_eq_ediv hs (by decide)] at hw ⊢
      omega
    · have h2 : (-w).tdiv 2 = (-w) / 2 := Int.tdiv_eq_ediv (by omega) (by decide)
      rw [Int.neg_tdiv] at h2
      omega

/-- The function `averageRGB` as a machine runs it whose unsigned division delivers a
    quotient also for the divisor 0, namely `dz s` for the dividend `s` (the AArch64
    instruction `udiv` delivers 0).  The C++ standard leaves `sum / cnt` with `cnt = 0`
    undefined, which is the `none` of `averageRGB`; every other step is that of
    `averageRGB`. -/
def averageRGBDz (dz : Nat → Nat) (px : Grid) (x y w h : Int) : Option Color :=
  match intChecked (w * h) with
  | none => none
  | some cnt =>
    match regionPixels px x y w h with
    | none => none
    | some ps =>
      let a := ps.foldl avgStep ⟨0, 0, 0⟩
      let d := (cnt % (U64 : Int)).toNat
      if d = 0 then some ⟨toU8 (dz a.sumR), toU8 (dz a.sumG), toU8 (dz a.sumB)⟩
      else some ⟨toU8 (a.sumR / d), toU8 (a.sumG / d), toU8 (a.sumB / d)⟩

/-- The leaf block of `buildQT` on such a machine. -/
def leafNodeDz {F : Type} (dz : Nat → Nat) (px : Grid) (x y w h : Int) (stats : BuildStats F) :
    Option (Node × BuildStats F) :=
  match averageRGBDz dz px x y w h with
  | none => none
  | some avg =>
    some (Node.node x y w h true avg Node.null Node.null Node.null Node.null,
          { stats with leaves := (stats.leaves + 1) % U64 })

/-- The function `buildQT` on such a machine: the text of `buildQT` with `averageRGBDz` for
    `averageRGB`. -/
def buildQTDz {F : Type} (dz : Nat → Nat) (M : DoubleOps F) (px : Grid) (x y w h minLeaf : Int)
    (sdThresh : F) (stats : BuildStats F) : Option (Node × BuildStats F) :=
  if w ≤ minLeaf ∨ h ≤ minLeaf then
    leafNodeDz dz px x y w h { stats with nodes := (stats.nodes + 1) % U64 }
  else
    match calcStdDevRGB M px x y w h with
    | none => none
    | some sd =>
      if M.le sd sdThresh = true then
        leafNodeDz dz px x y w h { stats with nodes := (stats.nodes + 1) % U64 }
      else if hz : w.tdiv 2 = 0 ∨ h.tdiv 2 = 0 then
        leafNodeDz dz px x y w h { stats with nodes := (stats.nodes + 1) % U64 }
      else
        match buildQTDz dz M px x y (w.tdiv 2) (h.tdiv 2) minLeaf sdThresh
            { stats with nodes := (stats.nodes + 1) % U64 } with
        | none => none
        | some (c0, s0) =>
          match buildQTDz dz M px (x + w.tdiv 2) y (w - w.tdiv 2) (h.tdiv 2) minLeaf sdThresh
              s0 with
          | none => none
          | some (c1, s1) =>
            match buildQTDz dz M px x (y + h.tdiv 2) (w.tdiv 2) (h - h.tdiv 2) minLeaf sdThresh
                s1 with
            | none => none
            | some (c2, s2) =>
              match buildQTDz dz M px (x + w.tdiv 2) (y + h.tdiv 2) (w - w.tdiv 2)
                  (h - h.tdiv 2) minLeaf sdThresh s2 with
              | none => none
              | some (c3, s3) =>
                some (Node.node x y w h false Color.zero c0 c1 c2 c3, s3)
termination_by w.natAbs
decreasing_by
  all_goals
    have hw : w.tdiv 2 ≠ 0 := fun e => hz (Or.inl e)
    rcases Int.le_total 0 w with hs | hs
    · rw [Int.tdiv_eq_ediv hs (by decide)] at hw ⊢
      omega
    · have h2 : (-w).tdiv 2 = (-w) / 2 := Int.tdiv_eq_ediv (by omega) (by decide)
      rw [Int.neg_tdiv] at h2
      omega

/-! ## Reconstructor -/

/-- The store `buf[k] = c` into a `std::vector<Color>`; undefined outside the vector. -/
def store (buf : List Color) (k : Int) (c : Color) : Option (List Color) :=
  if 0 ≤ k ∧ k.toNat < buf.length then some (buf.set k.toNat c) else none

/-- The buffer indices `j*W + i` written by `blitRect`, in the order of its two loops
    (`j` from `max(0,y)` to `min(H,y+h)`, `i` from `max(0,x)` to `min(W,x+w)`).  Forming
    the row pointer `&buf[j*W]` stores nothing and is not part of the list. -/
def blitIdx (W H x y w h : Int) : List Int :=
  (intRange (max 0 y) (min H (y + h))).flatMap
    (fun j => (intRange (max 0 x) (min W (x + w))).map (fun i => j * W + i))

/-- A sequence of stores, aborted by the first undefined one. -/
def storeAll (buf : List Color) : List (Int × Color) → Option (List Color)
  | [] => some buf
  | (k, c) :: rest =>
    match store buf k c with
    | none => none
    | some buf1 => storeAll buf1 rest

/-- The function `blitRect(buf, W, H, x, y, w, h, c)`. -/
def blitRect (buf : List Color) (W H x y w h : Int) (c : Color) : Option (List Color) :=
  storeAll buf ((blitIdx W H x y w h).map (fun k => (k, c)))

/-- The function `rasterizeQT(n, W, H, out)`. -/
def rasterizeQT (n : Node) (W H : Int) (out : List Color) : Option (List Color) :=
  match n with
  | Node.null => some out
  | Node.node x y w h leaf avg c0 c1 c2 c3 =>
    if leaf = true then blitRect out W H x y w h avg
    else
      match rasterizeQT c0 W H out with
      | none => none
      | some o0 =>
        match rasterizeQT c1 W H o0 with
        | none => none
        | some o1 =>
          match rasterizeQT c2 W H o1 with
          | none => none
          | some o2 => rasterizeQT c3 W H o2

/-- The stores performed by `rasterizeQT(n, W, H, out)`, in execution order:
    buffer index and colour of every assignment `row[i] = c`. -/
def rasterWrites (n : Node) (W H : Int) : List (Int × Color) :=
  match n with
  | Node.null => []
  | Node.node x y w h leaf avg c0 c1 c2 c3 =>
    if leaf = true then (blitIdx W H x y w h).map (fun k => (k, avg))
    else rasterWrites c0 W H ++ rasterWrites c1 W H ++ rasterWrites c2 W H ++ rasterWrites c3 W H

/-- The store `buf[k] = c` on a vector that carries the record of the stores made into it
    (index and colour of each, oldest first): the store is done by `store`, and a store
    that is done is appended to the record. -/
def storeLogged (m : List Color × List (Int × Color)) (k : Int) (c : Color) :
    Option (List Color × List (Int × Color)) :=
  match store m.1 k c with
  | none => none
  | some buf1 => some (buf1, m.2 ++ [(k, c)])

/-- A sequence of recorded stores, aborted by the first undefined one. -/
def storeAllLogged (m : List Color × List (Int × Color)) :
    List (Int × Color) → Option (List Color × List (Int × Color))
  | [] => some m
  | (k, c) :: rest =>
    match storeLogged m k c with
    | none => none
    | some m1 => storeAllLogged m1 rest

/-- The function `blitRect(buf, W, H, x, y, w, h, c)` run on a vector with its record of
    stores. -/
def blitRectLogged (m : List Color × List (Int × Color)) (W H x y w h : Int) (c : Color) :
    Option (List Color × List (Int × Color)) :=
  storeAllLogged m ((blitIdx W H x y w h).map (fun k => (k, c)))

/-- The function `rasterizeQT(n, W, H, out)` run on a vector with its record of stores:
    the same traversal as `rasterizeQT`, every assignment `row[i] = c` going through
    `storeLogged`. -/
def rasterizeQTLogged (n : Node) (W H : Int) (m : List Color × List (Int × Color)) :
    Option (List Color × List (Int × Color)) :=
  match n with
  | Node.null => some m
  | Node.node x y w h leaf avg c0 c1 c2 c3 =>
    if leaf = true then blitRectLogged m W H x y w h avg
    else
      match rasterizeQTLogged c0 W H m with
      | none => none
      | some m0 =>
        match rasterizeQTLogged c1 W H m0 with
        | none => none
        | some m1 =>
          match rasterizeQTLogged c2 W H m1 with
          | none => none
          | some m2 => rasterizeQTLogged c3 W H m2

/-! ## Exact arithmetic and the fallback image -/

/-- Arithmetic of an ordered field used in place of `double`: every operation is exact and
    `sqrt` is supplied by the caller. -/
def exactOps (F : Type) [LinearOrderedField F] (sqrt : F → F) : DoubleOps F :=
  { ofInt := fun n => (n : F)
    add := fun a b => a + b
    sub := fun a b => a - b
    mul := fun a b => a * b
    div := fun a b => a / b
    sqrt := sqrt
    lt := fun a b => decide (a < b)
    le := fun a b => decide (a ≤ b) }

/-- Square root on the rationals through the integer square root: exact on squares. -/
def ratSqrt (q : ℚ) : ℚ :=
  (Nat.sqrt (q.num.toNat * q.den) : ℚ) / (q.den : ℚ)

/-- Rational arithmetic, an executable instance of `DoubleOps`. -/
def ratOps : DoubleOps ℚ := exactOps ℚ ratSqrt

/-- The fallback image built in `main` when no file is loaded: a 64x64 checkerboard
    of 8x8 cells (`((x/8 + y/8) & 1)==0 ? Color{220,220,220} : Color{40,40,40}`). -/
def checkerboard : Grid :=
  (List.range 64).map (fun y => (List.range 64).map (fun x =>
    if (x / 8 + y / 8) % 2 = 0 then (⟨220, 220, 220⟩ : Color) else ⟨40, 40, 40⟩))

/-- Zeroed statistics: `stats = {}`. -/
def BuildStats.zero {F : Type} (M : DoubleOps F) : BuildStats F :=
  { nodes := 0, leaves := 0, ms := M.ofInt 0 }

/-! ## Vocabulary of the properties -/

/-- A grid of `H` rows of `W` pixels each (the PixelGrid invariant). -/
def GridWF (px : Grid) (W H : Int) : Prop :=
  (px.length : Int) = H ∧ ∀ row ∈ px, (row.length : Int) = W

instance (px : Grid) (W H : Int) : Decidable (GridWF px W H) := by
  unfold GridWF; infer_instance

/-- The rectangle `(x, y, w, h)` lies inside a `W` by `H` grid. -/
def RectIn (W H x y w h : Int) : Prop :=
  0 ≤ x ∧ 0 ≤ y ∧ x + w ≤ W ∧ y + h ≤ H

instance (W H x y w h : Int) : Decidable (RectIn W H x y w h) := by
  unfold RectIn; infer_instance

/-- The pixel in column `i` of row `j` (black outside the grid). -/
def pixel (px : Grid) (i j : Int) : Color :=
  match rowAt px j with
  | none => Color.zero
  | some row => (pixAt row i).getD Color.zero

/-- The pixels of the rectangle `(x, y, w, h)`, row by row. -/
def rectPixels (px : Grid) (x y w h : Int) : List Color :=
  (intRange y (y + h)).flatMap (fun j => (intRange x (x + w)).map (fun i => pixel px i j))

/-- Exact sum of one channel (`f` selects it) over a list of pixels. -/
def chanSum (f : Color → Fin 256) (ps : List Color) : Nat :=
  (ps.map (fun c => (f c).val)).sum

/-- Exact sum of the squares of one channel over a list of pixels. -/
def chanSq (f : Color → Fin 256) (ps : List Color) : Nat :=
  (ps.map (fun c => (f c).val * (f c).val)).sum

/-- The bound `2^53`: every integer in `[0, 2^53]` is a `double`. -/
def DBL_EXACT : Int := 9007199254740992

/-- The IEEE-754 facts about `double` the value-dependent claims rely on: on integers in
    `[0, 2^53]` conversion is exact, so a correctly rounded operation whose exact result is
    such an integer returns it, and comparisons agree with the integers. -/
structure ExactOnInts {F : Type} (M : DoubleOps F) : Prop where
  add_exact : ∀ a b : Int, 0 ≤ a → 0 ≤ b → a + b ≤ DBL_EXACT →
    M.add (M.ofInt a) (M.ofInt b) = M.ofInt (a + b)
  sub_exact : ∀ a b : Int, 0 ≤ b → b ≤ a → a ≤ DBL_EXACT →
    M.sub (M.ofInt a) (M.ofInt b) = M.ofInt (a - b)
  mul_exact : ∀ a b : Int, 0 ≤ a → 0 ≤ b → a * b ≤ DBL_EXACT →
    M.mul (M.ofInt a) (M.ofInt b) = M.ofInt (a * b)
  div_exact : ∀ a b : Int, 0 ≤ a → 0 < b → a * b ≤ DBL_EXACT →
    M.div (M.ofInt (a * b)) (M.ofInt b) = M.ofInt a
  sqrt_exact : ∀ a : Int, 0 ≤ a → a * a ≤ DBL_EXACT →
    M.sqrt (M.ofInt (a * a)) = M.ofInt a
  lt_exact : ∀ a b : Int, 0 ≤ a → a ≤ DBL_EXACT → 0 ≤ b → b ≤ DBL_EXACT →
    M.lt (M.ofInt a) (M.ofInt b) = decide (a < b)
  le_exact : ∀ a b : Int, 0 ≤ a → a ≤ DBL_EXACT → 0 ≤ b → b ≤ DBL_EXACT →
    M.le (M.ofInt a) (M.ofInt b) = decide (a ≤ b)

/-- The real numbers `a / 2^e` with `|a| ≤ 2^53` and `e ≤ 1022`.  Every one of them is a
    `double`: the significand has at most 53 bits and the exponent lies in the normal
    range. -/
def Dyadic53 (q : ℝ) : Prop :=
  ∃ (a : Int) (e : Nat), |a| ≤ DBL_EXACT ∧ e ≤ 1022 ∧ q = (a : ℝ) / 2 ^ e

/-- The IEEE-754 facts about `double` that the claim on lossless reconstruction relies on.
    `val x` is the real number a finite `double` stands for (`none` for infinities and
    NaN).  Conversion of an integer of magnitude at most `2^53` is exact.  Every operation
    is correctly rounded, and rounding is monotone and leaves a `double` unchanged: when
    the exact result lies between two doubles `lo` and `hi`, so does the computed one.
    Comparisons of finite doubles are comparisons of their values. -/
structure RoundedOps {F : Type} (M : DoubleOps F) (val : F → Option ℝ) : Prop where
  val_ofInt : ∀ a : Int, |a| ≤ DBL_EXACT → val (M.ofInt a) = some (a : ℝ)
  add_between : ∀ (x y : F) (u v lo hi : ℝ), val x = some u → val y = some v →
    Dyadic53 lo → Dyadic53 hi → lo ≤ u + v → u + v ≤ hi →
    ∃ w, val (M.add x y) = some w ∧ lo ≤ w ∧ w ≤ hi
  sub_between : ∀ (x y : F) (u v lo hi : ℝ), val x = some u → val y = some v →
    Dyadic53 lo → Dyadic53 hi → lo ≤ u - v → u - v ≤ hi →
    ∃ w, val (M.sub x y) = some w ∧ lo ≤ w ∧ w ≤ hi
  mul_between : ∀ (x y : F) (u v lo hi : ℝ), val x = some u → val y = some v →
    Dyadic53 lo → Dyadic53 hi → lo ≤ u * v → u * v ≤ hi →
    ∃ w, val (M.mul x y) = some w ∧ lo ≤ w ∧ w ≤ hi
  div_between : ∀ (x y : F) (u v lo hi : ℝ), val x = some u → val y = some v → v ≠ 0 →
    Dyadic53 lo → Dyadic53 hi → lo ≤ u / v → u / v ≤ hi →
    ∃ w, val (M.div x y) = some w ∧ lo ≤ w ∧ w ≤ hi
  sqrt_between : ∀ (x : F) (u lo hi : ℝ), val x = some u →
    Dyadic53 lo → Dyadic53 hi → 0 ≤ lo → 0 ≤ hi → lo * lo ≤ u → u ≤ hi * hi →
    ∃ w, val (M.sqrt x) = some w ∧ lo ≤ w ∧ w ≤ hi
  lt_iff : ∀ (x y : F) (u v : ℝ), val x = some u → val y = some v →
    (M.lt x y = true ↔ u < v)
  le_iff : ∀ (x y : F) (u v : ℝ), val x = some u → val y = some v →
    (M.le x y = true ↔ u ≤ v)

/-- Mean of one channel over a list of pixels, in a field. -/
def chanMean (F : Type) [LinearOrderedField F] (f : Color → Fin 256) (ps : List Color) : F :=
  (chanSum f ps : F) / (ps.length : F)

/-- Population variance of one channel: the mean of the squared deviations from the mean. -/
def chanVar (F : Type) [LinearOrderedField F] (f : Color → Fin 256) (ps : List Color) : F :=
  (ps.map (fun p => (((f p).val : F) - chanMean F f ps) ^ 2)).sum / (ps.length : F)

/-- The per-channel expression of the specification,
    `sqrt(max(0, (sum of v^2)/n - ((sum of v)/n)^2))`, in a field with a square root. -/
def clampedSd (F : Type) [LinearOrderedField F] (sqrt : F → F) (f : Color → Fin 256)
    (ps : List Color) : F :=
  sqrt (max 0 ((chanSq f ps : F) / (ps.length : F) - ((chanSum f ps : F) / (ps.length : F)) ^ 2))

/-- Running sum `s += term(p)` over the pixels, in the arithmetic `M`, starting from 0. -/
def accF {F : Type} (M : DoubleOps F) (term : Color → F) (ps : List Color) : F :=
  ps.foldl (fun a p => M.add a (term p)) (M.ofInt 0)

/-- Position `(i, j)` lies in the rectangle `(x, y, w, h)`. -/
def inRect (x y w h i j : Int) : Prop :=
  x ≤ i ∧ i < x + w ∧ y ≤ j ∧ j < y + h

instance (x y w h i j : Int) : Decidable (inRect x y w h i j) := by
  unfold inRect; infer_instance

/-- The rectangle of a node, `(0,0,0,0)` for `nullptr`. -/
def Node.rect : Node → Int × Int × Int × Int
  | Node.null => (0, 0, 0, 0)
  | Node.node x y w h _ _ _ _ _ _ => (x, y, w, h)

/-- Number of pixels `w*h` of the rectangle of a node. -/
def Node.area (n : Node) : Int := n.rect.2.2.1 * n.rect.2.2.2

/-- Position `(i, j)` lies in the rectangle of the node. -/
def Node.covers (n : Node) (i j : Int) : Prop :=
  inRect n.rect.1 n.rect.2.1 n.rect.2.2.1 n.rect.2.2.2 i j

instance (n : Node) (i j : Int) : Decidable (n.covers i j) := by
  unfold Node.covers; infer_instance

/-- The pointer is not `nullptr`. -/
def Node.nonNull : Node → Bool
  | Node.null => false
  | Node.node _ _ _ _ _ _ _ _ _ _ => true

/-- The flag `n->leaf` (false for `nullptr`). -/
def Node.isLeaf : Node → Bool
  | Node.null => false
  | Node.node _ _ _ _ leaf _ _ _ _ _ => leaf

/-- The colour `n->avg`. -/
def Node.color : Node → Color
  | Node.null => Color.zero
  | Node.node _ _ _ _ _ avg _ _ _ _ => avg

/-- The four child pointers `n->ch[0..3]`. -/
def Node.children : Node → List Node
  | Node.null => []
  | Node.node _ _ _ _ _ _ c0 c1 c2 c3 => [c0, c1, c2, c3]

/-- Every node reachable from the pointer, the node itself first (pre-order). -/
def Node.nodes : Node → List Node
  | Node.null => []
  | Node.node x y w h leaf avg c0 c1 c2 c3 =>
    Node.node x y w h leaf avg c0 c1 c2 c3 :: (c0.nodes ++ c1.nodes ++ c2.nodes ++ c3.nodes)

/-- The leaves of the tree in the order `rasterizeQT` visits them. -/
def Node.leaves (n : Node) : List Node :=
  n.nodes.filter (fun m => m.isLeaf)

/-- How many of the rectangles of `ns` contain position `(i, j)`. -/
def coverCount (ns : List Node) (i j : Int) : Nat :=
  (ns.filter (fun m => decide (m.covers i j))).length

/-- The trees `buildQT` can return for parameters `minLeaf` and `sdThresh`, described node
    by node: a leaf is a node where one of the two leaf blocks ran, an internal node is one
    where both tests failed and whose four children were built on the four quadrants. -/
inductive Built {F : Type} (M : DoubleOps F) (px : Grid) (minLeaf : Int) (sdThresh : F) :
    Node → Prop
  | leaf (x y w h : Int) (avg : Color)
      (hstop : w ≤ minLeaf ∨ h ≤ minLeaf ∨
        ∃ sd, calcStdDevRGB M px x y w h = some sd ∧
          (M.le sd sdThresh = true ∨ w.tdiv 2 = 0 ∨ h.tdiv 2 = 0))
      (havg : averageRGB px x y w h = some avg) :
      Built M px minLeaf sdThresh
        (Node.node x y w h true avg Node.null Node.null Node.null Node.null)
  | split (x y w h : Int) (c0 c1 c2 c3 : Node)
      (hw : minLeaf < w) (hh : minLeaf < h)
      (hsd : ∃ sd, calcStdDevRGB M px x y w h = some sd ∧ M.le sd sdThresh = false)
      (hw2 : w.tdiv 2 ≠ 0) (hh2 : h.tdiv 2 ≠ 0)
      (r0 : c0.rect = (x, y, w.tdiv 2, h.tdiv 2))
      (r1 : c1.rect = (x + w.tdiv 2, y, w - w.tdiv 2, h.tdiv 2))
      (r2 : c2.rect = (x, y + h.tdiv 2, w.tdiv 2, h - h.tdiv 2))
      (r3 : c3.rect = (x + w.tdiv 2, y + h.tdiv 2, w - w.tdiv 2, h - h.tdiv 2))
      (b0 : Built M px minLeaf sdThresh c0) (b1 : Built M px minLeaf sdThresh c1)
      (b2 : Built M px minLeaf sdThresh c2) (b3 : Built M px minLeaf sdThresh c3) :
      Built M px minLeaf sdThresh (Node.node x y w h false Color.zero c0 c1 c2 c3)

/-- A 3x3 test image with pairwise different pixels. -/
def grid3 : Grid :=
  [[⟨1, 2, 3⟩, ⟨5, 6, 7⟩, ⟨0, 0, 0⟩],
   [⟨10, 20, 30⟩, ⟨50, 60, 70⟩, ⟨9, 9, 9⟩],
   [⟨11, 21, 31⟩, ⟨51, 61, 71⟩, ⟨8, 8, 8⟩]]

/-- A 64x64 image filled with one colour. -/
def uniformGrid (c : Color) : Grid := List.replicate 64 (List.replicate 64 c)

/-- The colour of the checkerboard cell containing position `(x, y)`. -/
def cellColor (x y : Int) : Color :=
  if (x.toNat / 8 + y.toNat / 8) % 2 = 0 then ⟨220, 220, 220⟩ else ⟨40, 40, 40⟩

/-- The complete quadtree of depth `k` on the square of side `s` at `(x, y)` whose leaves
    carry the checkerboard colour of their corner. -/
def checkerTree : Nat → Int → Int → Int → Node
  | 0, x, y, s =>
    Node.node x y s s true (cellColor x y) Node.null Node.null Node.null Node.null
  | k + 1, x, y, s =>
    Node.node x y s s false Color.zero
      (checkerTree k x y (s / 2)) (checkerTree k (x + s / 2) y (s / 2))
      (checkerTree k x (y + s / 2) (s / 2)) (checkerTree k (x + s / 2) (y + s / 2) (s / 2))

/-! ## Vocabulary of the later claims -/

/-- Every node reachable from the pointer together with its depth (the root has depth 0). -/
def Node.depths : Node → List (Nat × Node)
  | Node.null => []
  | Node.node x y w h leaf avg c0 c1 c2 c3 =>
    (0, Node.node x y w h leaf avg c0 c1 c2 c3) ::
      (c0.depths ++ c1.depths ++ c2.depths ++ c3.depths).map (fun p => (p.1 + 1, p.2))

/-- The function `buildQT` with its second test `if (w2==0 || h2==0) {...}` deleted.  The
    recursion of this variant need not end, so it is cut off after `fuel` nested calls
    (`none` when the fuel runs out). -/
def buildQTNoGuard {F : Type} (M : DoubleOps F) (px : Grid) (minLeaf : Int) (sdThresh : F) :
    Nat → Int → Int → Int → Int → BuildStats F → Option (Node × BuildStats F)
  | 0, _, _, _, _, _ => none
  | fuel + 1, x, y, w, h, stats =>
    if w ≤ minLeaf ∨ h ≤ minLeaf then
      leafNode px x y w h { stats with nodes := (stats.nodes + 1) % U64 }
    else
      match calcStdDevRGB M px x y w h with
      | none => none
      | some sd =>
        if M.le sd sdThresh = true then
          leafNode px x y w h { stats with nodes := (stats.nodes + 1) % U64 }
        else
          match buildQTNoGuard M px minLeaf sdThresh fuel x y (w.tdiv 2) (h.tdiv 2)
              { stats with nodes := (stats.nodes + 1) % U64 } with
          | none => none
          | some (c0, s0) =>
            match buildQTNoGuard M px minLeaf sdThresh fuel (x + w.tdiv 2) y (w - w.tdiv 2)
                (h.tdiv 2) s0 with
            | none => none
            | some (c1, s1) =>
              match buildQTNoGuard M px minLeaf sdThresh fuel x (y + h.tdiv 2) (w.tdiv 2)
                  (h - h.tdiv 2) s1 with
              | none => none
              | some (c2, s2) =>
                match buildQTNoGuard M px minLeaf sdThresh fuel (x + w.tdiv 2) (y + h.tdiv 2)
                    (w - w.tdiv 2) (h - h.tdiv 2) s2 with
                | none => none
                | some (c3, s3) =>
                  some (Node.node x y w h false Color.zero c0 c1 c2 c3, s3)

/-- The GUI binding `leafFromIdx(idx)`: `idx = std::clamp(idx,0,8); return 1<<idx;`, the
    only source of `minLeaf` in `main`. -/
def leafFromIdx (idx : Int) : Int :=
  2 ^ (if idx < 0 then (0 : Int) else if 8 < idx then 8 else idx).toNat

/-- A 2x2 test image with pairwise different pixels. -/
def grid2 : Grid :=
  [[⟨1, 2, 3⟩, ⟨5, 6, 7⟩],
   [⟨10, 20, 30⟩, ⟨50, 60, 70⟩]]

/-- A leaf node without children. -/
def mkLeaf (x y w h : Int) (avg : Color) : Node :=
  Node.node x y w h true avg Node.null Node.null Node.null Node.null

/-- The tree of the 3x3 test image for `minLeaf = 1` and threshold 0. -/
def tree3 : Node :=
  Node.node 0 0 3 3 false Color.zero
    (mkLeaf 0 0 1 1 ⟨1, 2, 3⟩)
    (mkLeaf 1 0 2 1 ⟨2, 3, 3⟩)
    (mkLeaf 0 1 1 2 ⟨10, 20, 30⟩)
    (Node.node 1 1 2 2 false Color.zero
      (mkLeaf 1 1 1 1 ⟨50, 60, 70⟩) (mkLeaf 2 1 1 1 ⟨9, 9, 9⟩)
      (mkLeaf 1 2 1 1 ⟨51, 61, 71⟩) (mkLeaf 2 2 1 1 ⟨8, 8, 8⟩))

/-! ## Reading a rectangle of the grid -/

theorem mem_intRange (a b k : Int) : k ∈ intRange a b ↔ a ≤ k ∧ k < b := by
  unfold intRange
  simp only [List.mem_map, List.mem_range]
  constructor
  · rintro ⟨n, hn, rfl⟩
    omega
  · intro hk
    exact ⟨(k - a).toNat, by omega, by omega⟩

theorem length_intRange (a b : Int) : (intRange a b).length = (b - a).toNat := by
  simp [intRange]

theorem allSome_map_eq {α β : Type} (l : List α) (g : α → Option β) (f : α → β)
    (hg : ∀ a ∈ l, g a = some (f a)) : allSome (l.map g) = some (l.map f) := by
  induction l with
  | nil => rfl
  | cons a rest ih =>
    have h1 : g a = some (f a) := hg a (List.mem_cons_self a rest)
    have h2 := ih (fun b hb => hg b (List.mem_cons_of_mem a hb))
    simp [allSome, h1, h2]

theorem allSome_length {α : Type} (l : List (Option α)) (r : List α)
    (h : allSome l = some r) : r.length = l.length := by
  induction l generalizing r with
  | nil => simp [allSome] at h; subst h; rfl
  | cons a rest ih =>
    cases a with
    | none => simp [allSome] at h
    | some v =>
      cases hr : allSome rest with
      | none => simp [allSome, hr] at h
      | some rs =>
        simp [allSome, hr] at h
        subst h
        simp [ih rs hr]

theorem readRow_eq (px : Grid) (W H x w j : Int) (hg : GridWF px W H)
    (hx : 0 ≤ x) (hxw : x + w ≤ W) (hj0 : 0 ≤ j) (hjH : j < H) :
    readRow px x w j = some ((intRange x (x + w)).map (fun i => pixel px i j)) := by
  obtain ⟨hlen, hrows⟩ := hg
  have hjlt : j.toNat < px.length := by omega
  have hrow : rowAt px j = some (px[j.toNat]) := by
    simp [rowAt, hj0, List.getElem?_eq_getElem hjlt]
  have hW : ((px[j.toNat]).length : Int) = W := hrows _ (List.getElem_mem hjlt)
  unfold readRow
  rw [hrow]
  apply allSome_map_eq
  intro i hi
  rw [mem_intRange] at hi
  have hilt : i.toNat < (px[j.toNat]).length := by omega
  have hpix : pixAt (px[j.toNat]) i = some ((px[j.toNat])[i.toNat]) := by
    have hi0 : 0 ≤ i := by omega
    simp [pixAt, hi0, List.getElem?_eq_getElem hilt]
  simp [pixel, hrow, hpix]

theorem regionPixels_eq (px : Grid) (W H x y w h : Int) (hg : GridWF px W H)
    (hr : RectIn W H x y w h) :
    regionPixels px x y w h = some (rectPixels px x y w h) := by
  obtain ⟨hx, hy, hxw, hyh⟩ := hr
  have hrows : allSome ((intRange y (y + h)).map (readRow px x w))
      = some ((intRange y (y + h)).map
          (fun j => (intRange x (x + w)).map (fun i => pixel px i j))) := by
    apply allSome_map_eq
    intro j hj
    rw [mem_intRange] at hj
    exact readRow_eq px W H x w j hg hx hxw (by omega) (by omega)
  unfold regionPixels
  rw [hrows]
  rfl

theorem length_rectPixels (px : Grid) (x y w h : Int) (hw : 0 ≤ w) (hh : 0 ≤ h) :
    ((rectPixels px x y w h).length : Int) = w * h := by
  unfold rectPixels
  rw [List.length_flatMap]
  simp [Function.comp_def, length_intRange]
  rw [max_eq_left hh, max_eq_left hw]
  ring

theorem mem_rectPixels (px : Grid) (x y w h : Int) (c : Color) :
    c ∈ rectPixels px x y w h ↔ ∃ i j, inRect x y w h i j ∧ pixel px i j = c := by
  unfold rectPixels inRect
  simp only [List.mem_flatMap, List.mem_map, mem_intRange]
  constructor
  · rintro ⟨j, hj, i, hi, rfl⟩
    exact ⟨i, j, ⟨hi.1, hi.2, hj.1, hj.2⟩, rfl⟩
  · rintro ⟨i, j, ⟨h1, h2, h3, h4⟩, rfl⟩
    exact ⟨j, ⟨h3, h4⟩, i, ⟨h1, h2⟩, rfl⟩

/-! ## averageRGB -/

theorem intChecked_of_bounds (v : Int) (h0 : 0 ≤ v) (h1 : v ≤ INT_MAX) :
    intChecked v = some v := by
  unfold intChecked
  rw [if_pos]
  refine ⟨?_, h1⟩
  unfold INT_MIN
  omega

theorem chanSum_nil (f : Color → Fin 256) : chanSum f [] = 0 := rfl

theorem chanSum_cons (f : Color → Fin 256) (c : Color) (ps : List Color) :
    chanSum f (c :: ps) = (f c).val + chanSum f ps := by
  simp [chanSum]

theorem chanSum_le (f : Color → Fin 256) (ps : List Color) (hi : Nat)
    (h : ∀ p ∈ ps, (f p).val ≤ hi) : chanSum f ps ≤ hi * ps.length := by
  induction ps with
  | nil => simp [chanSum]
  | cons c rest ih =>
    have h1 := h c (List.mem_cons_self c rest)
    have h2 := ih (fun p hp => h p (List.mem_cons_of_mem c hp))
    rw [chanSum_cons, List.length_cons, Nat.mul_succ]
    omega

theorem le_chanSum (f : Color → Fin 256) (ps : List Color) (lo : Nat)
    (h : ∀ p ∈ ps, lo ≤ (f p).val) : lo * ps.length ≤ chanSum f ps := by
  induction ps with
  | nil => simp [chanSum]
  | cons c rest ih =>
    have h1 := h c (List.mem_cons_self c rest)
    have h2 := ih (fun p hp => h p (List.mem_cons_of_mem c hp))
    rw [chanSum_cons, List.length_cons, Nat.mul_succ]
    omega

theorem chanSum_le_255 (f : Color → Fin 256) (ps : List Color) :
    chanSum f ps ≤ 255 * ps.length :=
  chanSum_le f ps 255 (fun p _ => by have := (f p).isLt; omega)

theorem foldl_avgStep (ps : List Color) (acc : AvgAcc)
    (hR : acc.sumR + 255 * ps.length < U64) (hG : acc.sumG + 255 * ps.length < U64)
    (hB : acc.sumB + 255 * ps.length < U64) :
    ps.foldl avgStep acc =
      ⟨acc.sumR + chanSum Color.r ps, acc.sumG + chanSum Color.g ps,
        acc.sumB + chanSum Color.b ps⟩ := by
  induction ps generalizing acc with
  | nil => simp [chanSum]
  | cons c rest ih =>
    have hr := c.r.isLt
    have hg := c.g.isLt
    have hb := c.b.isLt
    simp only [List.length_cons, Nat.mul_succ] at hR hG hB
    have e : avgStep acc c = ⟨acc.sumR + c.r.val, acc.sumG + c.g.val, acc.sumB + c.b.val⟩ := by
      unfold avgStep
      rw [Nat.mod_eq_of_lt (by omega), Nat.mod_eq_of_lt (by omega),
        Nat.mod_eq_of_lt (by omega)]
    rw [List.foldl_cons, e, ih _ (by simp only; omega) (by simp only; omega)
      (by simp only; omega)]
    simp only [chanSum_cons, Nat.add_assoc]

theorem toU8_val_of_le (v : Nat) (h : v ≤ 255) : (toU8 v).val = v := by
  unfold toU8
  simp only
  omega

/-- The value of `averageRGB` on a rectangle inside the grid: per channel the integer
    quotient of the exact channel sum by the pixel count. -/
theorem averageRGB_eq (px : Grid) (W H x y w h : Int) (hg : GridWF px W H)
    (hr : RectIn W H x y w h) (hw : 1 ≤ w) (hh : 1 ≤ h) (hc : w * h ≤ INT_MAX) :
    averageRGB px x y w h =
      some ⟨toU8 (chanSum Color.r (rectPixels px x y w h) / (w * h).toNat),
            toU8 (chanSum Color.g (rectPixels px x y w h) / (w * h).toNat),
            toU8 (chanSum Color.b (rectPixels px x y w h) / (w * h).toNat)⟩ := by
  have hpos : 1 ≤ w * h := by nlinarith
  have hlen := length_rectPixels px x y w h (by omega) (by omega)
  have hlenN : (rectPixels px x y w h).length = (w * h).toNat := by omega
  have hmax : (w * h).toNat ≤ 2147483647 := by unfold INT_MAX at hc; omega
  have hd : ((w * h) % (U64 : Int)).toNat = (w * h).toNat := by
    have : (w * h) % (U64 : Int) = w * h := by
      apply Int.emod_eq_of_lt (by omega)
      unfold U64; unfold INT_MAX at hc; push_cast; omega
    rw [this]
  unfold averageRGB
  rw [intChecked_of_bounds _ (by omega) hc, regionPixels_eq px W H x y w h hg hr]
  simp only [hd]
  rw [if_neg (by omega)]
  rw [foldl_avgStep _ _ (by simp only [hlenN]; unfold U64; omega)
    (by simp only [hlenN]; unfold U64; omega) (by simp only [hlenN]; unfold U64; omega)]
  simp

theorem chan_quot_bounds (f : Color → Fin 256) (ps : List Color) (n lo hi : Nat)
    (hn : ps.length = n) (hpos : 0 < n)
    (hb : ∀ p ∈ ps, lo ≤ (f p).val ∧ (f p).val ≤ hi) :
    lo ≤ chanSum f ps / n ∧ chanSum f ps / n ≤ hi := by
  have h1 := le_chanSum f ps lo (fun p hp => (hb p hp).1)
  have h2 := chanSum_le f ps hi (fun p hp => (hb p hp).2)
  rw [hn] at h1 h2
  constructor
  · exact (Nat.le_div_iff_mul_le hpos).2 h1
  · exact Nat.div_le_of_le_mul (by rw [Nat.mul_comm]; exact h2)

/-! ## buildQT: shape of the result -/

theorem leafNode_eq_some {F : Type} (px : Grid) (x y w h : Int) (s : BuildStats F)
    (r : Node) (s' : BuildStats F) (hl : leafNode px x y w h s = some (r, s')) :
    ∃ avg, averageRGB px x y w h = some avg ∧
      r = Node.node x y w h true avg Node.null Node.null Node.null Node.null ∧
      s' = { s with leaves := (s.leaves + 1) % U64 } := by
  unfold leafNode at hl
  cases ha : averageRGB px x y w h with
  | none => simp [ha] at hl
  | some avg =>
    simp only [ha, Option.some.injEq, Prod.mk.injEq] at hl
    exact ⟨avg, rfl, hl.1.symm, hl.2.symm⟩

theorem nodes_leaf (x y w h : Int) (avg : Color) :
    (Node.node x y w h true avg Node.null Node.null Node.null Node.null).nodes =
      [Node.node x y w h true avg Node.null Node.null Node.null Node.null] := by
  simp [Node.nodes]

theorem leaves_leaf (x y w h : Int) (avg : Color) :
    (Node.node x y w h true avg Node.null Node.null Node.null Node.null).leaves =
      [Node.node x y w h true avg Node.null Node.null Node.null Node.null] := by
  simp [Node.leaves, Node.nodes, Node.isLeaf]

theorem leaves_split (x y w h : Int) (avg : Color) (c0 c1 c2 c3 : Node) :
    (Node.node x y w h false avg c0 c1 c2 c3).leaves =
      c0.leaves ++ c1.leaves ++ c2.leaves ++ c3.leaves := by
  simp [Node.leaves, Node.nodes, Node.isLeaf]

theorem nodes_split_length (x y w h : Int) (leaf : Bool) (avg : Color) (c0 c1 c2 c3 : Node) :
    (Node.node x y w h leaf avg c0 c1 c2 c3).nodes.length =
      1 + c0.nodes.length + c1.nodes.length + c2.nodes.length + c3.nodes.length := by
  simp [Node.nodes]
  omega

/-- What a returned result looks like: the tree is `Built`, its root carries the requested
    rectangle, and the counters advanced by the numbers of nodes and leaves. -/
theorem buildQT_sound {F : Type} (M : DoubleOps F) (px : Grid) (minLeaf : Int) (t : F)
    (n : Nat) : ∀ (x y w h : Int) (s : BuildStats F) (r : Node) (s' : BuildStats F),
    w.natAbs = n → buildQT M px x y w h minLeaf t s = some (r, s') →
    Built M px minLeaf t r ∧ r.rect = (x, y, w, h) ∧
      s'.nodes = (s.nodes + r.nodes.length) % U64 ∧
      s'.leaves = (s.leaves + r.leaves.length) % U64 ∧ s'.ms = s.ms := by
  induction n using Nat.strong_induction_on with
  | _ n ih =>
    intro x y w h s r s' hn hb
    have leafCase : ∀ (hstop : w ≤ minLeaf ∨ h ≤ minLeaf ∨
          ∃ sd, calcStdDevRGB M px x y w h = some sd ∧
            (M.le sd t = true ∨ w.tdiv 2 = 0 ∨ h.tdiv 2 = 0))
        (hl : leafNode px x y w h { s with nodes := (s.nodes + 1) % U64 } = some (r, s')),
        Built M px minLeaf t r ∧ r.rect = (x, y, w, h) ∧
          s'.nodes = (s.nodes + r.nodes.length) % U64 ∧
          s'.leaves = (s.leaves + r.leaves.length) % U64 ∧ s'.ms = s.ms := by
      intro hstop hl
      obtain ⟨avg, ha, rfl, rfl⟩ := leafNode_eq_some px x y w h _ r s' hl
      refine ⟨Built.leaf x y w h avg hstop ha, rfl, ?_, ?_, rfl⟩
      · simp [nodes_leaf]
      · simp [leaves_leaf]
    rw [buildQT] at hb
    split at hb
    · rename_i hc
      rcases hc with hc | hc
      · exact leafCase (Or.inl hc) hb
      · exact leafCase (Or.inr (Or.inl hc)) hb
    · rename_i hc
      split at hb
      · exact absurd hb (by simp)
      · rename_i sd hsd
        split at hb
        · rename_i hle
          exact leafCase (Or.inr (Or.inr ⟨sd, hsd, Or.inl hle⟩)) hb
        · rename_i hle
          split at hb
          · rename_i hz
            exact leafCase (Or.inr (Or.inr ⟨sd, hsd, Or.inr hz⟩)) hb
          · rename_i hz
            have hw2 : w.tdiv 2 ≠ 0 := fun e => hz (Or.inl e)
            have hh2 : h.tdiv 2 ≠ 0 := fun e => hz (Or.inr e)
            have hlt1 : (w.tdiv 2).natAbs < n := by
              subst hn
              rcases Int.le_total 0 w with hs | hs
              · rw [Int.tdiv_eq_ediv hs (by decide)] at hw2 ⊢
                omega
              · have h2 : (-w).tdiv 2 = (-w) / 2 := Int.tdiv_eq_ediv (by omega) (by decide)
                rw [Int.neg_tdiv] at h2
                omega
            have hlt2 : (w - w.tdiv 2).natAbs < n := by
              subst hn
              rcases Int.le_total 0 w with hs | hs
              · rw [Int.tdiv_eq_ediv hs (by decide)] at hw2 ⊢
                omega
              · have h2 : (-w).tdiv 2 = (-w) / 2 := Int.tdiv_eq_ediv (by omega) (by decide)
                rw [Int.neg_tdiv] at h2
                omega
            split at hb
            · exact absurd hb (by simp)
            · rename_i c0 s0 e0
              split at hb
              · exact absurd hb (by simp)
              · rename_i c1 s1 e1
                split at hb
                · exact absurd hb (by simp)
                · rename_i c2 s2 e2
                  split at hb
                  · exact absurd hb (by simp)
                  · rename_i c3 s3 e3
                    simp only [Option.some.injEq, Prod.mk.injEq] at hb
                    obtain ⟨rfl, rfl⟩ := hb
                    obtain ⟨b0, r0, n0, l0, m0⟩ := ih _ hlt1 _ _ _ _ _ _ _ rfl e0
                    obtain ⟨b1, r1, n1, l1, m1⟩ := ih _ hlt2 _ _ _ _ _ _ _ rfl e1
                    obtain ⟨b2, r2, n2, l2, m2⟩ := ih _ hlt1 _ _ _ _ _ _ _ rfl e2
                    obtain ⟨b3, r3, n3, l3, m3⟩ := ih _ hlt2 _ _ _ _ _ _ _ rfl e3
                    have hle' : M.le sd t = false := by
                      cases hq : M.le sd t with
                      | true => exact absurd hq hle
                      | false => rfl
                    refine ⟨Built.split x y w h c0 c1 c2 c3 (by omega) (by omega)
                      ⟨sd, hsd, hle'⟩ hw2 hh2 r0 r1 r2 r3 b0 b1 b2 b3, rfl, ?_, ?_, ?_⟩
                    · rw [n3, n2, n1, n0, nodes_split_length]
                      simp only [Nat.mod_add_mod]
                      congr 1
                      omega
                    · rw [l3, l2, l1, l0, leaves_split]
                      simp only [List.length_append, Nat.mod_add_mod]
                      congr 1
                      omega
                    · rw [m3, m2, m1, m0]

/-! ## buildQT: one-step equations, completeness, totality -/

theorem buildQT_small {F : Type} (M : DoubleOps F) (px : Grid) (x y w h minLeaf : Int) (t : F)
    (s : BuildStats F) (hc : w ≤ minLeaf ∨ h ≤ minLeaf) :
    buildQT M px x y w h minLeaf t s =
      leafNode px x y w h { s with nodes := (s.nodes + 1) % U64 } := by
  rw [buildQT, if_pos hc]

theorem buildQT_stop {F : Type} (M : DoubleOps F) (px : Grid) (x y w h minLeaf : Int) (t : F)
    (s : BuildStats F) (sd : F) (hsd : calcStdDevRGB M px x y w h = some sd)
    (hle : M.le sd t = true ∨ w.tdiv 2 = 0 ∨ h.tdiv 2 = 0) :
    buildQT M px x y w h minLeaf t s =
      leafNode px x y w h { s with nodes := (s.nodes + 1) % U64 } := by
  by_cases hc : w ≤ minLeaf ∨ h ≤ minLeaf
  · exact buildQT_small M px x y w h minLeaf t s hc
  · rw [buildQT, if_neg hc]
    simp only [hsd]
    by_cases hq : M.le sd t = true
    · rw [if_pos hq]
    · rw [if_neg hq]
      have hz : w.tdiv 2 = 0 ∨ h.tdiv 2 = 0 := by
        rcases hle with h1 | h1
        · exact absurd h1 hq
        · exact h1
      rw [dif_pos hz]

theorem buildQT_split {F : Type} (M : DoubleOps F) (px : Grid) (x y w h minLeaf : Int) (t : F)
    (s s0 s1 s2 s3 : BuildStats F) (sd : F) (c0 c1 c2 c3 : Node)
    (hw : minLeaf < w) (hh : minLeaf < h)
    (hsd : calcStdDevRGB M px x y w h = some sd) (hle : M.le sd t = false)
    (hw2 : w.tdiv 2 ≠ 0) (hh2 : h.tdiv 2 ≠ 0)
    (e0 : buildQT M px x y (w.tdiv 2) (h.tdiv 2) minLeaf t
      { s with nodes := (s.nodes + 1) % U64 } = some (c0, s0))
    (e1 : buildQT M px (x + w.tdiv 2) y (w - w.tdiv 2) (h.tdiv 2) minLeaf t s0 = some (c1, s1))
    (e2 : buildQT M px x (y + h.tdiv 2) (w.tdiv 2) (h - h.tdiv 2) minLeaf t s1 = some (c2, s2))
    (e3 : buildQT M px (x + w.tdiv 2) (y + h.tdiv 2) (w - w.tdiv 2) (h - h.tdiv 2) minLeaf t s2
      = some (c3, s3)) :
    buildQT M px x y w h minLeaf t s =
      some (Node.node x y w h false Color.zero c0 c1 c2 c3, s3) := by
  have hc : ¬ (w ≤ minLeaf ∨ h ≤ minLeaf) := by omega
  have hz : ¬ (w.tdiv 2 = 0 ∨ h.tdiv 2 = 0) := by
    rintro (h1 | h1)
    · exact hw2 h1
    · exact hh2 h1
  rw [buildQT, if_neg hc]
  simp only [hsd, hle, Bool.false_eq_true, if_false, dif_neg hz, e0, e1, e2, e3]

/-- Every `Built` tree is what `buildQT` returns on the rectangle of its root, whatever the
    incoming statistics. -/
theorem buildQT_complete {F : Type} (M : DoubleOps F) (px : Grid) (minLeaf : Int) (t : F)
    (r : Node) (hb : Built M px minLeaf t r) : ∀ s : BuildStats F,
    buildQT M px r.rect.1 r.rect.2.1 r.rect.2.2.1 r.rect.2.2.2 minLeaf t s =
      some (r, { nodes := (s.nodes + r.nodes.length) % U64,
                 leaves := (s.leaves + r.leaves.length) % U64, ms := s.ms }) := by
  induction hb with
  | leaf x y w h avg hstop havg =>
    intro s
    have hl : buildQT M px x y w h minLeaf t s =
        leafNode px x y w h { s with nodes := (s.nodes + 1) % U64 } := by
      rcases hstop with h1 | h1 | ⟨sd, hsd, h1⟩
      · exact buildQT_small M px x y w h minLeaf t s (Or.inl h1)
      · exact buildQT_small M px x y w h minLeaf t s (Or.inr h1)
      · exact buildQT_stop M px x y w h minLeaf t s sd hsd h1
    simp only [Node.rect]
    rw [hl]
    simp [leafNode, havg, nodes_leaf, leaves_leaf]
  | split x y w h c0 c1 c2 c3 hw hh hsd hw2 hh2 r0 r1 r2 r3 b0 b1 b2 b3 ih0 ih1 ih2 ih3 =>
    intro s
    obtain ⟨sd, hsd, hle⟩ := hsd
    simp only [Node.rect]
    rw [r0] at ih0
    rw [r1] at ih1
    rw [r2] at ih2
    rw [r3] at ih3
    rw [buildQT_split M px x y w h minLeaf t s _ _ _ _ sd c0 c1 c2 c3 hw hh hsd hle hw2 hh2
      (ih0 _) (ih1 _) (ih2 _) (ih3 _)]
    simp only [Option.some.injEq, Prod.mk.injEq, true_and, BuildStats.mk.injEq, and_true]
    constructor
    · rw [nodes_split_length]
      simp only [Nat.mod_add_mod]
      congr 1
      omega
    · rw [leaves_split]
      simp only [List.length_append, Nat.mod_add_mod]
      congr 1
      omega

theorem tdiv_two_of_nonneg (w : Int) (hw : 0 ≤ w) : w.tdiv 2 = w / 2 :=
  Int.tdiv_eq_ediv hw (by decide)

theorem calcStdDevRGB_isSome {F : Type} (M : DoubleOps F) (px : Grid) (W H x y w h : Int)
    (hg : GridWF px W H) (hr : RectIn W H x y w h) (h0 : 0 ≤ w * h) (hc : w * h ≤ INT_MAX) :
    ∃ sd, calcStdDevRGB M px x y w h = some sd := by
  unfold calcStdDevRGB
  rw [intChecked_of_bounds _ h0 hc, regionPixels_eq px W H x y w h hg hr]
  exact ⟨_, rfl⟩

theorem area_le_of_rectIn (W H x y w h : Int) (hr : RectIn W H x y w h) (hw : 0 ≤ w)
    (hh : 0 ≤ h) : w * h ≤ W * H := by
  obtain ⟨hx, hy, hxw, hyh⟩ := hr
  have h1 : w ≤ W := by omega
  have h2 : h ≤ H := by omega
  have h3 : 0 ≤ W := by omega
  exact mul_le_mul h1 h2 hh h3

/-- On a rectangle with `w, h ≥ 1` inside a well-formed grid whose pixel count fits an
    `int`, `buildQT` returns a tree. -/
theorem buildQT_total {F : Type} (M : DoubleOps F) (px : Grid) (W H minLeaf : Int) (t : F)
    (hg : GridWF px W H) (hWH : W * H ≤ INT_MAX) (n : Nat) :
    ∀ (x y w h : Int) (s : BuildStats F), w.toNat = n → RectIn W H x y w h → 1 ≤ w → 1 ≤ h →
      ∃ r s', buildQT M px x y w h minLeaf t s = some (r, s') := by
  induction n using Nat.strong_induction_on with
  | _ n ih =>
    intro x y w h s hn hr hw hh
    have harea : w * h ≤ INT_MAX :=
      le_trans (area_le_of_rectIn W H x y w h hr (by omega) (by omega)) hWH
    have hleaf : ∀ s1 : BuildStats F, ∃ r s', leafNode px x y w h s1 = some (r, s') := by
      intro s1
      unfold leafNode
      rw [averageRGB_eq px W H x y w h hg hr hw hh harea]
      exact ⟨_, _, rfl⟩
    obtain ⟨sd, hsd⟩ := calcStdDevRGB_isSome M px W H x y w h hg hr (by nlinarith) harea
    by_cases hstop : (w ≤ minLeaf ∨ h ≤ minLeaf) ∨ M.le sd t = true ∨ w.tdiv 2 = 0 ∨ h.tdiv 2 = 0
    · rcases hstop with h1 | h1
      · rw [buildQT_small M px x y w h minLeaf t s h1]
        exact hleaf _
      · rw [buildQT_stop M px x y w h minLeaf t s sd hsd h1]
        exact hleaf _
    · have hw' : minLeaf < w := by
        by_contra hcon
        exact hstop (Or.inl (Or.inl (by omega)))
      have hh' : minLeaf < h := by
        by_contra hcon
        exact hstop (Or.inl (Or.inr (by omega)))
      have hle : M.le sd t = false := by
        cases hq : M.le sd t with
        | true => exact absurd (Or.inr (Or.inl hq)) hstop
        | false => rfl
      have hw2 : w.tdiv 2 ≠ 0 := fun e => hstop (Or.inr (Or.inr (Or.inl e)))
      have hh2 : h.tdiv 2 ≠ 0 := fun e => hstop (Or.inr (Or.inr (Or.inr e)))
      have ew := tdiv_two_of_nonneg w (by omega)
      have eh := tdiv_two_of_nonneg h (by omega)
      obtain ⟨hx0, hy0, hxw, hyh⟩ := hr
      have hw2' : 1 ≤ w / 2 := by rw [ew] at hw2; omega
      have hh2' : 1 ≤ h / 2 := by rw [eh] at hh2; omega
      obtain ⟨c0, s0, e0⟩ := ih (w.tdiv 2).toNat (by rw [ew]; omega) x y (w.tdiv 2) (h.tdiv 2)
        { s with nodes := (s.nodes + 1) % U64 } rfl
        (by rw [ew, eh]; exact ⟨by omega, by omega, by omega, by omega⟩)
        (by rw [ew]; omega) (by rw [eh]; omega)
      obtain ⟨c1, s1, e1⟩ := ih (w - w.tdiv 2).toNat (by rw [ew]; omega) (x + w.tdiv 2) y
        (w - w.tdiv 2) (h.tdiv 2) s0 rfl
        (by rw [ew, eh]; exact ⟨by omega, by omega, by omega, by omega⟩)
        (by rw [ew]; omega) (by rw [eh]; omega)
      obtain ⟨c2, s2, e2⟩ := ih (w.tdiv 2).toNat (by rw [ew]; omega) x (y + h.tdiv 2)
        (w.tdiv 2) (h - h.tdiv 2) s1 rfl
        (by rw [ew, eh]; exact ⟨by omega, by omega, by omega, by omega⟩)
        (by rw [ew]; omega) (by rw [eh]; omega)
      obtain ⟨c3, s3, e3⟩ := ih (w - w.tdiv 2).toNat (by rw [ew]; omega) (x + w.tdiv 2)
        (y + h.tdiv 2) (w - w.tdiv 2) (h - h.tdiv 2) s2 rfl
        (by rw [ew, eh]; exact ⟨by omega, by omega, by omega, by omega⟩)
        (by rw [ew]; omega) (by rw [eh]; omega)
      exact ⟨_, _, buildQT_split M px x y w h minLeaf t s s0 s1 s2 s3 sd c0 c1 c2 c3 hw' hh' hsd
        hle hw2 hh2 e0 e1 e2 e3⟩

/-! ## Geometry of the tree -/

theorem coverCount_cons (m : Node) (ns : List Node) (i j : Int) :
    coverCount (m :: ns) i j = (if m.covers i j then 1 else 0) + coverCount ns i j := by
  unfold coverCount
  by_cases hm : m.covers i j
  · simp [List.filter, hm]; omega
  · simp [List.filter, hm]

theorem coverCount_nil (i j : Int) : coverCount [] i j = 0 := rfl

theorem coverCount_append (a b : List Node) (i j : Int) :
    coverCount (a ++ b) i j = coverCount a i j + coverCount b i j := by
  simp [coverCount]

/-- The four quadrants of a rectangle with `w, h ≥ 1`: every position of the rectangle is
    in exactly one of them and no other position is in any. -/
theorem quadrants_partition (x y w h : Int) (c0 c1 c2 c3 : Node) (hw : 1 ≤ w) (hh : 1 ≤ h)
    (r0 : c0.rect = (x, y, w.tdiv 2, h.tdiv 2))
    (r1 : c1.rect = (x + w.tdiv 2, y, w - w.tdiv 2, h.tdiv 2))
    (r2 : c2.rect = (x, y + h.tdiv 2, w.tdiv 2, h - h.tdiv 2))
    (r3 : c3.rect = (x + w.tdiv 2, y + h.tdiv 2, w - w.tdiv 2, h - h.tdiv 2))
    (i j : Int) :
    coverCount [c0, c1, c2, c3] i j = if inRect x y w h i j then 1 else 0 := by
  have ew := tdiv_two_of_nonneg w (by omega)
  have eh := tdiv_two_of_nonneg h (by omega)
  simp only [coverCount_cons, coverCount_nil, Node.covers, r0, r1, r2, r3, inRect, ew, eh]
  split_ifs <;> omega

theorem built_nonNull {F : Type} {M : DoubleOps F} {px : Grid} {minLeaf : Int} {t : F}
    {r : Node} (hb : Built M px minLeaf t r) : r.nonNull = true := by
  cases hb <;> rfl

theorem mem_nodes_self (r : Node) (hr : r.nonNull = true) : r ∈ r.nodes := by
  cases r with
  | null => simp [Node.nonNull] at hr
  | node x y w h leaf avg c0 c1 c2 c3 => simp [Node.nodes]

/-- Every node of a `Built` tree whose root has `w, h ≥ 1` is itself `Built`, has
    `w, h ≥ 1`, and lies inside the rectangle of the root. -/
theorem built_nodes {F : Type} {M : DoubleOps F} {px : Grid} {minLeaf : Int} {t : F}
    {r : Node} (hb : Built M px minLeaf t r) :
    1 ≤ r.rect.2.2.1 → 1 ≤ r.rect.2.2.2 → ∀ m ∈ r.nodes,
      Built M px minLeaf t m ∧ 1 ≤ m.rect.2.2.1 ∧ 1 ≤ m.rect.2.2.2 ∧
      r.rect.1 ≤ m.rect.1 ∧ m.rect.1 + m.rect.2.2.1 ≤ r.rect.1 + r.rect.2.2.1 ∧
      r.rect.2.1 ≤ m.rect.2.1 ∧ m.rect.2.1 + m.rect.2.2.2 ≤ r.rect.2.1 + r.rect.2.2.2 := by
  induction hb with
  | leaf x y w h avg hstop havg =>
    intro hw hh m hm
    rw [nodes_leaf, List.mem_singleton] at hm
    subst hm
    exact ⟨Built.leaf x y w h avg hstop havg, hw, hh, le_refl _, le_refl _, le_refl _,
      le_refl _⟩
  | split x y w h c0 c1 c2 c3 hw0 hh0 hsd hw2 hh2 r0 r1 r2 r3 b0 b1 b2 b3 ih0 ih1 ih2 ih3 =>
    intro hw hh m hm
    have e : (Node.node x y w h false Color.zero c0 c1 c2 c3).rect = (x, y, w, h) := rfl
    rw [e] at hw hh ⊢
    dsimp only at hw hh ⊢
    have ew := tdiv_two_of_nonneg w (by omega)
    have eh := tdiv_two_of_nonneg h (by omega)
    rw [ew] at hw2
    rw [eh] at hh2
    simp only [r0, r1, r2, r3, ew, eh] at ih0 ih1 ih2 ih3
    simp only [Node.nodes, List.mem_cons, List.mem_append] at hm
    rcases hm with hm | ((hm | hm) | hm) | hm
    · subst hm
      rw [e]
      exact ⟨Built.split x y w h c0 c1 c2 c3 hw0 hh0 hsd (by rw [ew]; exact hw2)
        (by rw [eh]; exact hh2) r0 r1 r2 r3 b0 b1 b2 b3, hw, hh, le_refl _, le_refl _,
        le_refl _, le_refl _⟩
    · obtain ⟨a1, a2, a3, a4, a5, a6, a7⟩ := ih0 (by omega) (by omega) m hm
      exact ⟨a1, a2, a3, by omega, by omega, by omega, by omega⟩
    · obtain ⟨a1, a2, a3, a4, a5, a6, a7⟩ := ih1 (by omega) (by omega) m hm
      exact ⟨a1, a2, a3, by omega, by omega, by omega, by omega⟩
    · obtain ⟨a1, a2, a3, a4, a5, a6, a7⟩ := ih2 (by omega) (by omega) m hm
      exact ⟨a1, a2, a3, by omega, by omega, by omega, by omega⟩
    · obtain ⟨a1, a2, a3, a4, a5, a6, a7⟩ := ih3 (by omega) (by omega) m hm
      exact ⟨a1, a2, a3, by omega, by omega, by omega, by omega⟩

/-- The leaves of a `Built` tree whose root has `w, h ≥ 1` tile the rectangle of the root:
    each position of it lies in exactly one leaf rectangle, every other position in none. -/
theorem built_leaves_partition {F : Type} {M : DoubleOps F} {px : Grid} {minLeaf : Int} {t : F}
    {r : Node} (hb : Built M px minLeaf t r) :
    1 ≤ r.rect.2.2.1 → 1 ≤ r.rect.2.2.2 → ∀ i j : Int,
      coverCount r.leaves i j = if r.covers i j then 1 else 0 := by
  induction hb with
  | leaf x y w h avg hstop havg =>
    intro hw hh i j
    rw [leaves_leaf, coverCount_cons, coverCount_nil, Nat.add_zero]
  | split x y w h c0 c1 c2 c3 hw0 hh0 hsd hw2 hh2 r0 r1 r2 r3 b0 b1 b2 b3 ih0 ih1 ih2 ih3 =>
    intro hw hh i j
    have e : (Node.node x y w h false Color.zero c0 c1 c2 c3).rect = (x, y, w, h) := rfl
    rw [e] at hw hh
    dsimp only at hw hh
    have ew := tdiv_two_of_nonneg w (by omega)
    have eh := tdiv_two_of_nonneg h (by omega)
    have hq := quadrants_partition x y w h c0 c1 c2 c3 hw hh r0 r1 r2 r3 i j
    rw [ew] at hw2
    rw [eh] at hh2
    simp only [r0, r1, r2, r3, ew, eh] at ih0 ih1 ih2 ih3
    rw [leaves_split]
    simp only [coverCount_append]
    rw [ih0 (by omega) (by omega) i j, ih1 (by omega) (by omega) i j,
      ih2 (by omega) (by omega) i j, ih3 (by omega) (by omega) i j]
    simp only [coverCount_cons, coverCount_nil] at hq
    simp only [Node.covers, e] at hq ⊢
    omega

/-! ## Claims on the shape of the tree -/

theorem built_mem {F : Type} {M : DoubleOps F} {px : Grid} {minLeaf : Int} {t : F}
    {r : Node} (hb : Built M px minLeaf t r) : ∀ m ∈ r.nodes, Built M px minLeaf t m := by
  induction hb with
  | leaf x y w h avg hstop havg =>
    intro m hm
    rw [nodes_leaf, List.mem_singleton] at hm
    subst hm
    exact Built.leaf x y w h avg hstop havg
  | split x y w h c0 c1 c2 c3 hw0 hh0 hsd hw2 hh2 r0 r1 r2 r3 b0 b1 b2 b3 ih0 ih1 ih2 ih3 =>
    intro m hm
    simp only [Node.nodes, List.mem_cons, List.mem_append] at hm
    rcases hm with hm | ((hm | hm) | hm) | hm
    · subst hm
      exact Built.split x y w h c0 c1 c2 c3 hw0 hh0 hsd hw2 hh2 r0 r1 r2 r3 b0 b1 b2 b3
    · exact ih0 m hm
    · exact ih1 m hm
    · exact ih2 m hm
    · exact ih3 m hm

/-- C1: for every grid, every root rectangle with `w ≥ 1` and `h ≥ 1` and all parameters,
    every internal node of the tree returned by `buildQT` has four non-null children with
    the rectangles `(x,y,w2,h2)`, `(x+w2,y,w-w2,h2)`, `(x,y+h2,w2,h-h2)`,
    `(x+w2,y+h2,w-w2,h-h2)` for `w2 = w/2`, `h2 = h/2`; every position of the parent lies
    in exactly one child, positions outside the parent in none, and the four areas sum to
    `w*h` (odd sizes included).  On a rectangle inside a well-formed grid the call does
    return a tree. -/
theorem buildQT_children_tile {F : Type} (M : DoubleOps F) (px : Grid)
    (x y w h minLeaf : Int) (t : F) (s : BuildStats F) (hw : 1 ≤ w) (hh : 1 ≤ h) :
    (∀ r s', buildQT M px x y w h minLeaf t s = some (r, s') →
      ∀ m ∈ r.nodes, m.isLeaf = false →
        ∃ mx my mw mh c0 c1 c2 c3,
          m = Node.node mx my mw mh false Color.zero c0 c1 c2 c3 ∧
          c0.nonNull = true ∧ c1.nonNull = true ∧ c2.nonNull = true ∧ c3.nonNull = true ∧
          c0.rect = (mx, my, mw.tdiv 2, mh.tdiv 2) ∧
          c1.rect = (mx + mw.tdiv 2, my, mw - mw.tdiv 2, mh.tdiv 2) ∧
          c2.rect = (mx, my + mh.tdiv 2, mw.tdiv 2, mh - mh.tdiv 2) ∧
          c3.rect = (mx + mw.tdiv 2, my + mh.tdiv 2, mw - mw.tdiv 2, mh - mh.tdiv 2) ∧
          (∀ i j : Int,
            coverCount [c0, c1, c2, c3] i j = if inRect mx my mw mh i j then 1 else 0) ∧
          c0.area + c1.area + c2.area + c3.area = mw * mh) ∧
    (∀ W H : Int, GridWF px W H → RectIn W H x y w h → W * H ≤ INT_MAX →
      ∃ r s', buildQT M px x y w h minLeaf t s = some (r, s')) := by
  refine ⟨?_, fun W H hg hr hWH =>
    buildQT_total M px W H minLeaf t hg hWH _ x y w h s rfl hr hw hh⟩
  intro r s' hb m hm hleaf
  obtain ⟨hB, hrect, -⟩ := buildQT_sound M px minLeaf t _ x y w h s r s' rfl hb
  obtain ⟨hBm, hmw, hmh, -⟩ := built_nodes hB (by rw [hrect]; exact hw)
    (by rw [hrect]; exact hh) m hm
  cases hBm with
  | leaf mx my mw mh avg hstop havg => simp [Node.isLeaf] at hleaf
  | split mx my mw mh c0 c1 c2 c3 hw0 hh0 hsd hw2 hh2 r0 r1 r2 r3 b0 b1 b2 b3 =>
    refine ⟨mx, my, mw, mh, c0, c1, c2, c3, rfl, built_nonNull b0, built_nonNull b1,
      built_nonNull b2, built_nonNull b3, r0, r1, r2, r3, ?_, ?_⟩
    · exact quadrants_partition mx my mw mh c0 c1 c2 c3 hmw hmh r0 r1 r2 r3
    · simp only [Node.area, r0, r1, r2, r3]
      ring

/-- C4: in a tree returned by `buildQT`, a node with rectangle `(x, y, w, h)` is a leaf
    exactly when `w ≤ minLeaf`, or `h ≤ minLeaf`, or `calcStdDevRGB(x,y,w,h) ≤ threshold`,
    or `w/2 = 0`, or `h/2 = 0`; in every other case it is internal with four (non-null)
    children. -/
theorem buildQT_leaf_iff {F : Type} (M : DoubleOps F) (px : Grid) (x y w h minLeaf : Int)
    (t : F) (s : BuildStats F) (r : Node) (s' : BuildStats F)
    (hb : buildQT M px x y w h minLeaf t s = some (r, s')) :
    ∀ m ∈ r.nodes,
      (m.isLeaf = true ↔
        (m.rect.2.2.1 ≤ minLeaf ∨ m.rect.2.2.2 ≤ minLeaf ∨
          (∃ sd, calcStdDevRGB M px m.rect.1 m.rect.2.1 m.rect.2.2.1 m.rect.2.2.2 = some sd ∧
            M.le sd t = true) ∨
          m.rect.2.2.1.tdiv 2 = 0 ∨ m.rect.2.2.2.tdiv 2 = 0)) ∧
      (m.isLeaf = false →
        m.children.length = 4 ∧ ∀ c ∈ m.children, c.nonNull = true) := by
  intro m hm
  obtain ⟨hB, -⟩ := buildQT_sound M px minLeaf t _ x y w h s r s' rfl hb
  have hBm := built_mem hB m hm
  cases hBm with
  | leaf mx my mw mh avg hstop havg =>
    refine ⟨?_, fun hf => by simp [Node.isLeaf] at hf⟩
    simp only [Node.isLeaf, Node.rect, true_iff]
    rcases hstop with h1 | h1 | ⟨sd, hsd, h1 | h1 | h1⟩
    · exact Or.inl h1
    · exact Or.inr (Or.inl h1)
    · exact Or.inr (Or.inr (Or.inl ⟨sd, hsd, h1⟩))
    · exact Or.inr (Or.inr (Or.inr (Or.inl h1)))
    · exact Or.inr (Or.inr (Or.inr (Or.inr h1)))
  | split mx my mw mh c0 c1 c2 c3 hw0 hh0 hsd hw2 hh2 r0 r1 r2 r3 b0 b1 b2 b3 =>
    constructor
    · simp only [Node.isLeaf, Node.rect, Bool.false_eq_true, false_iff]
      obtain ⟨sd, hsd, hle⟩ := hsd
      rintro (h1 | h1 | ⟨sd', hsd', hle'⟩ | h1 | h1)
      · omega
      · omega
      · rw [hsd] at hsd'
        cases hsd'
        rw [hle] at hle'
        exact absurd hle' (by decide)
      · exact hw2 h1
      · exact hh2 h1
    · intro _
      refine ⟨rfl, ?_⟩
      intro c hc
      simp only [Node.children, List.mem_cons, List.mem_singleton, List.not_mem_nil,
        or_false] at hc
      rcases hc with rfl | rfl | rfl | rfl
      · exact built_nonNull b0
      · exact built_nonNull b1
      · exact built_nonNull b2
      · exact built_nonNull b3

/-! ## rasterizeQT: the stores it performs -/

theorem nodup_intRange (a b : Int) : (intRange a b).Nodup := by
  unfold intRange
  apply List.Nodup.map _ (List.nodup_range _)
  intro k1 k2 hk
  simp only at hk
  omega

theorem lin_index_inj (W i j i' j' : Int) (hi : 0 ≤ i) (hiW : i < W) (hi' : 0 ≤ i')
    (hiW' : i' < W) (e : j * W + i = j' * W + i') : j = j' ∧ i = i' := by
  have hj : j = j' := by
    rcases lt_trichotomy j j' with hlt | heq | hgt
    · exfalso
      have : (j' - j) * W ≥ 1 * W := Int.mul_le_mul_of_nonneg_right (by omega) (by omega)
      nlinarith
    · exact heq
    · exfalso
      have : (j - j') * W ≥ 1 * W := Int.mul_le_mul_of_nonneg_right (by omega) (by omega)
      nlinarith
  subst hj
  exact ⟨rfl, by omega⟩

theorem lin_index_bounds (W H i j : Int) (hi : 0 ≤ i) (hiW : i < W) (hj : 0 ≤ j) (hjH : j < H) :
    0 ≤ j * W + i ∧ j * W + i < W * H := by
  have h1 : 0 ≤ j * W := Int.mul_nonneg hj (by omega)
  have h2 : (j + 1) * W ≤ H * W := Int.mul_le_mul_of_nonneg_right (by omega) (by omega)
  constructor
  · omega
  · nlinarith

theorem blitIdx_eq_product (W H x y w h : Int) :
    blitIdx W H x y w h =
      ((intRange (max 0 y) (min H (y + h))).product
        (intRange (max 0 x) (min W (x + w)))).map (fun p => p.1 * W + p.2) := by
  unfold blitIdx List.product
  rw [List.map_flatMap]
  simp [List.map_map, Function.comp_def]

theorem mem_blitIdx (W H x y w h k : Int) :
    k ∈ blitIdx W H x y w h ↔
      ∃ i j, inRect x y w h i j ∧ 0 ≤ i ∧ i < W ∧ 0 ≤ j ∧ j < H ∧ k = j * W + i := by
  rw [blitIdx_eq_product]
  simp only [List.mem_map, Prod.exists, List.pair_mem_product, mem_intRange, inRect]
  constructor
  · rintro ⟨j, i, ⟨⟨h1, h2⟩, h3, h4⟩, rfl⟩
    exact ⟨i, j, ⟨by omega, by omega, by omega, by omega⟩, by omega, by omega, by omega,
      by omega, rfl⟩
  · rintro ⟨i, j, ⟨h1, h2, h3, h4⟩, h5, h6, h7, h8, rfl⟩
    exact ⟨j, i, ⟨⟨by omega, by omega⟩, by omega, by omega⟩, rfl⟩

theorem nodup_blitIdx (W H x y w h : Int) : (blitIdx W H x y w h).Nodup := by
  rw [blitIdx_eq_product]
  apply List.Nodup.map_on
  · rintro ⟨j, i⟩ hp ⟨j', i'⟩ hp' e
    simp only [List.pair_mem_product, mem_intRange] at hp hp'
    simp only at e
    obtain ⟨e1, e2⟩ := lin_index_inj W i j i' j' (by omega) (by omega) (by omega) (by omega) e
    rw [e1, e2]
  · exact List.Nodup.product (nodup_intRange _ _) (nodup_intRange _ _)

/-- How often `blitRect` stores to the buffer index of position `(i, j)`: once when the
    position is in the rectangle, never otherwise. -/
theorem count_blitIdx (W H x y w h i j : Int) (hi : 0 ≤ i) (hiW : i < W) (hj : 0 ≤ j)
    (hjH : j < H) :
    List.count (j * W + i) (blitIdx W H x y w h) = if inRect x y w h i j then 1 else 0 := by
  by_cases hin : inRect x y w h i j
  · rw [if_pos hin]
    apply List.count_eq_one_of_mem (nodup_blitIdx W H x y w h)
    rw [mem_blitIdx]
    exact ⟨i, j, hin, hi, hiW, hj, hjH, rfl⟩
  · rw [if_neg hin]
    apply List.count_eq_zero_of_not_mem
    rw [mem_blitIdx]
    rintro ⟨i', j', hin', h1, h2, h3, h4, e⟩
    obtain ⟨e1, e2⟩ := lin_index_inj W i j i' j' hi hiW h1 h2 e
    subst e1 e2
    exact hin hin'

/-- The stores of `rasterizeQT` on a `Built` tree, leaf by leaf. -/
theorem rasterWrites_eq_leaves {F : Type} {M : DoubleOps F} {px : Grid} {minLeaf : Int} {t : F}
    {r : Node} (hb : Built M px minLeaf t r) (W H : Int) :
    rasterWrites r W H =
      r.leaves.flatMap (fun m =>
        (blitIdx W H m.rect.1 m.rect.2.1 m.rect.2.2.1 m.rect.2.2.2).map
          (fun k => (k, m.color))) := by
  induction hb with
  | leaf x y w h avg hstop havg =>
    rw [leaves_leaf, List.flatMap_singleton]
    simp [rasterWrites, Node.rect, Node.color]
  | split x y w h c0 c1 c2 c3 hw0 hh0 hsd hw2 hh2 r0 r1 r2 r3 b0 b1 b2 b3 ih0 ih1 ih2 ih3 =>
    rw [leaves_split]
    simp only [List.flatMap_append]
    rw [← ih0, ← ih1, ← ih2, ← ih3]
    simp [rasterWrites]

theorem count_leafWrites (ls : List Node) (W H i j : Int) (hi : 0 ≤ i) (hiW : i < W)
    (hj : 0 ≤ j) (hjH : j < H) :
    List.count (j * W + i)
      ((ls.flatMap (fun m =>
        (blitIdx W H m.rect.1 m.rect.2.1 m.rect.2.2.1 m.rect.2.2.2).map
          (fun k => (k, m.color)))).map Prod.fst) = coverCount ls i j := by
  induction ls with
  | nil => simp [coverCount]
  | cons m rest ih =>
    rw [List.flatMap_cons, List.map_append, List.count_append, ih, coverCount_cons]
    congr 1
    rw [List.map_map]
    have e : (Prod.fst ∘ fun k => (k, m.color)) = (id : Int → Int) := by
      funext k; rfl
    rw [e, List.map_id, count_blitIdx W H _ _ _ _ i j hi hiW hj hjH]
    rfl

/-! ## storeAll -/

theorem storeAll_append (buf : List Color) (a b : List (Int × Color)) :
    storeAll buf (a ++ b) =
      match storeAll buf a with
      | none => none
      | some buf1 => storeAll buf1 b := by
  induction a generalizing buf with
  | nil => simp [storeAll]
  | cons p rest ih =>
    obtain ⟨k, c⟩ := p
    simp only [List.cons_append, storeAll]
    cases hs : store buf k c with
    | none => simp
    | some buf1 => simp [ih]

theorem store_eq_some (buf : List Color) (k : Int) (c : Color) (out : List Color)
    (h : store buf k c = some out) :
    0 ≤ k ∧ k.toNat < buf.length ∧ out = buf.set k.toNat c := by
  unfold store at h
  split at h
  · rename_i hc
    simp only [Option.some.injEq] at h
    exact ⟨hc.1, hc.2, h.symm⟩
  · exact absurd h (by simp)

theorem storeAll_length (ws : List (Int × Color)) : ∀ (buf out : List Color),
    storeAll buf ws = some out → out.length = buf.length := by
  induction ws with
  | nil =>
    intro buf out h
    simp only [storeAll, Option.some.injEq] at h
    rw [h]
  | cons p rest ih =>
    intro buf out h
    obtain ⟨k, c⟩ := p
    simp only [storeAll] at h
    cases hs : store buf k c with
    | none => simp [hs] at h
    | some buf1 =>
      simp only [hs] at h
      obtain ⟨-, -, e⟩ := store_eq_some buf k c buf1 hs
      rw [ih buf1 out h, e, List.length_set]

theorem storeAll_isSome (ws : List (Int × Color)) : ∀ (buf : List Color),
    (∀ p ∈ ws, 0 ≤ p.1 ∧ p.1 < (buf.length : Int)) → ∃ out, storeAll buf ws = some out := by
  induction ws with
  | nil => intro buf _; exact ⟨buf, rfl⟩
  | cons p rest ih =>
    intro buf hall
    obtain ⟨k, c⟩ := p
    have hk := hall (k, c) (List.mem_cons_self _ _)
    simp only at hk
    have hs : store buf k c = some (buf.set k.toNat c) := by
      unfold store
      rw [if_pos ⟨hk.1, by omega⟩]
    simp only [storeAll, hs]
    apply ih
    intro p hp
    rw [List.length_set]
    exact hall p (List.mem_cons_of_mem _ hp)

theorem storeAll_get_of_not_mem (ws : List (Int × Color)) : ∀ (buf out : List Color) (k : Int),
    storeAll buf ws = some out → 0 ≤ k → k ∉ ws.map Prod.fst →
      out[k.toNat]? = buf[k.toNat]? := by
  induction ws with
  | nil =>
    intro buf out k h _ _
    simp only [storeAll, Option.some.injEq] at h
    rw [h]
  | cons p rest ih =>
    intro buf out k h hk hnot
    obtain ⟨k1, c1⟩ := p
    simp only [List.map_cons, List.mem_cons, not_or] at hnot
    simp only [storeAll] at h
    cases hs : store buf k1 c1 with
    | none => simp [hs] at h
    | some buf1 =>
      simp only [hs] at h
      obtain ⟨h0, -, e⟩ := store_eq_some buf k1 c1 buf1 hs
      rw [ih buf1 out k h hk hnot.2, e, List.getElem?_set_ne]
      omega

/-- After a sequence of stores that writes index `k` exactly once, with colour `c`, the
    buffer holds `c` at `k`. -/
theorem storeAll_get_of_count_one (ws : List (Int × Color)) :
    ∀ (buf out : List Color) (k : Int) (c : Color),
    storeAll buf ws = some out → (k, c) ∈ ws → List.count k (ws.map Prod.fst) = 1 →
      out[k.toNat]? = some c := by
  induction ws with
  | nil => intro buf out k c _ hm; simp at hm
  | cons p rest ih =>
    intro buf out k c h hm hcount
    obtain ⟨k1, c1⟩ := p
    simp only [storeAll] at h
    cases hs : store buf k1 c1 with
    | none => simp [hs] at h
    | some buf1 =>
      simp only [hs] at h
      obtain ⟨h0, hlt, e⟩ := store_eq_some buf k1 c1 buf1 hs
      simp only [List.map_cons, List.count_cons] at hcount
      by_cases hk : k1 = k
      · subst hk
        simp only [beq_self_eq_true, if_true] at hcount
        have hzero : List.count k1 (rest.map Prod.fst) = 0 := by omega
        have hnot : k1 ∉ rest.map Prod.fst := List.count_eq_zero.1 hzero
        have hc : c = c1 := by
          rcases List.mem_cons.1 hm with hh | hh
          · exact (Prod.mk.inj hh).2
          · exact absurd (List.mem_map_of_mem Prod.fst hh) hnot
        rw [storeAll_get_of_not_mem rest buf1 out k1 h h0 hnot, e, hc,
          List.getElem?_set_self hlt]
      · have hne : (k1 == k) = false := by simpa using hk
        simp only [hne, Bool.false_eq_true, if_false, Nat.add_zero] at hcount
        have hm' : (k, c) ∈ rest := by
          rcases List.mem_cons.1 hm with hh | hh
          · exact absurd (Prod.mk.inj hh).1.symm hk
          · exact hh
        exact ih buf1 out k c h hm' hcount

theorem rasterizeQT_eq_storeAll (n : Node) (W H : Int) : ∀ out : List Color,
    rasterizeQT n W H out = storeAll out (rasterWrites n W H) := by
  induction n with
  | null => intro out; simp [rasterizeQT, rasterWrites, storeAll]
  | node x y w h leaf avg c0 c1 c2 c3 ih0 ih1 ih2 ih3 =>
    intro out
    cases leaf with
    | true => simp [rasterizeQT, rasterWrites, blitRect]
    | false =>
      simp only [rasterizeQT, rasterWrites, Bool.false_eq_true, if_false]
      rw [storeAll_append, storeAll_append, storeAll_append, ← ih0]
      cases rasterizeQT c0 W H out with
      | none => rfl
      | some o0 =>
        simp only
        rw [← ih1]
        cases rasterizeQT c1 W H o0 with
        | none => rfl
        | some o1 =>
          simp only
          rw [← ih2]
          cases rasterizeQT c2 W H o1 with
          | none => rfl
          | some o2 =>
            simp only
            rw [← ih3]

/-! ## Claims on reconstruction -/

theorem mem_leafWrites_index (ls : List Node) (W H k : Int)
    (hk : k ∈ (ls.flatMap (fun m =>
        (blitIdx W H m.rect.1 m.rect.2.1 m.rect.2.2.1 m.rect.2.2.2).map
          (fun k => (k, m.color)))).map Prod.fst) :
    ∃ i j, 0 ≤ i ∧ i < W ∧ 0 ≤ j ∧ j < H ∧ k = j * W + i := by
  simp only [List.mem_map, List.mem_flatMap, Prod.exists, exists_and_right, exists_eq_right]
    at hk
  obtain ⟨c, m, -, k', hk', e⟩ := hk
  obtain ⟨rfl, -⟩ := Prod.mk.inj e
  rw [mem_blitIdx] at hk'
  obtain ⟨i, j, -, h1, h2, h3, h4, e⟩ := hk'
  exact ⟨i, j, h1, h2, h3, h4, e⟩

theorem unique_of_coverCount_one (ls : List Node) (i j : Int) (h : coverCount ls i j = 1) :
    ∃ leaf, leaf ∈ ls ∧ leaf.covers i j ∧ ∀ m ∈ ls, m.covers i j → m = leaf := by
  unfold coverCount at h
  obtain ⟨leaf, hleaf⟩ := List.length_eq_one.1 h
  have hmem : ∀ m, m ∈ ls ∧ m.covers i j ↔ m = leaf := by
    intro m
    have : m ∈ ls.filter (fun m => decide (m.covers i j)) ↔
        m ∈ ls ∧ decide (m.covers i j) = true := List.mem_filter
    rw [hleaf, List.mem_singleton] at this
    simp only [decide_eq_true_eq] at this
    exact this.symm
  exact ⟨leaf, ((hmem leaf).2 rfl).1, ((hmem leaf).2 rfl).2, fun m hm hc => (hmem m).1 ⟨hm, hc⟩⟩

/-- The facts about the stores of `rasterizeQT` on the tree of a whole `W` by `H` grid that
    the reconstruction claims share. -/
theorem raster_of_built {F : Type} {M : DoubleOps F} {px : Grid} {minLeaf : Int} {t : F}
    {r : Node} (W H : Int) (hb : Built M px minLeaf t r) (hrect : r.rect = (0, 0, W, H))
    (hW : 1 ≤ W) (hH : 1 ≤ H) :
    (∀ i j : Int, 0 ≤ i → i < W → 0 ≤ j → j < H →
      List.count (j * W + i) ((rasterWrites r W H).map Prod.fst) = 1 ∧
      coverCount r.leaves i j = 1) ∧
    (∀ k ∈ (rasterWrites r W H).map Prod.fst,
      ∃ i j, 0 ≤ i ∧ i < W ∧ 0 ≤ j ∧ j < H ∧ k = j * W + i) ∧
    (∀ out0 : List Color, (out0.length : Int) = W * H →
      ∃ out, rasterizeQT r W H out0 = some out ∧ out.length = out0.length) := by
  have hmemidx : ∀ k ∈ (rasterWrites r W H).map Prod.fst,
      ∃ i j, 0 ≤ i ∧ i < W ∧ 0 ≤ j ∧ j < H ∧ k = j * W + i := by
    intro k hk
    rw [rasterWrites_eq_leaves hb] at hk
    exact mem_leafWrites_index r.leaves W H k hk
  refine ⟨?_, hmemidx, ?_⟩
  · intro i j hi hiW hj hjH
    have hcov : coverCount r.leaves i j = 1 := by
      rw [built_leaves_partition hb (by rw [hrect]; exact hW) (by rw [hrect]; exact hH) i j]
      have : r.covers i j := by
        unfold Node.covers inRect
        rw [hrect]
        exact ⟨by simpa using hi, by simpa using hiW, by simpa using hj, by simpa using hjH⟩
      rw [if_pos this]
    rw [rasterWrites_eq_leaves hb, count_leafWrites r.leaves W H i j hi hiW hj hjH]
    exact ⟨hcov, hcov⟩
  · intro out0 hlen
    have hsome : ∃ out, storeAll out0 (rasterWrites r W H) = some out := by
      apply storeAll_isSome
      intro p hp
      obtain ⟨i, j, h1, h2, h3, h4, e⟩ := hmemidx p.1 (List.mem_map_of_mem Prod.fst hp)
      rw [e, hlen]
      exact lin_index_bounds W H i j h1 h2 h3 h4
    obtain ⟨out, hout⟩ := hsome
    refine ⟨out, ?_, storeAll_length _ _ _ hout⟩
    rw [rasterizeQT_eq_storeAll]
    exact hout

theorem storeAllLogged_eq (ws : List (Int × Color)) :
    ∀ (buf : List Color) (lg : List (Int × Color)),
      storeAllLogged (buf, lg) ws = (storeAll buf ws).map (fun o => (o, lg ++ ws)) := by
  induction ws with
  | nil => intro buf lg; simp [storeAllLogged, storeAll]
  | cons p rest ih =>
    intro buf lg
    obtain ⟨k, c⟩ := p
    simp only [storeAllLogged, storeAll, storeLogged]
    cases hs : store buf k c with
    | none => rfl
    | some buf1 =>
      simp only []
      rw [ih buf1 (lg ++ [(k, c)])]
      simp

/-- The run with the record of stores: its vector is the one `rasterizeQT` computes, and
    the stores it adds to the record are `rasterWrites`. -/
theorem rasterizeQTLogged_eq (n : Node) (W H : Int) :
    ∀ (buf : List Color) (lg : List (Int × Color)),
      rasterizeQTLogged n W H (buf, lg) =
        (rasterizeQT n W H buf).map (fun o => (o, lg ++ rasterWrites n W H)) := by
  induction n with
  | null => intro buf lg; simp [rasterizeQTLogged, rasterizeQT, rasterWrites]
  | node x y w h leaf avg c0 c1 c2 c3 ih0 ih1 ih2 ih3 =>
    intro buf lg
    unfold rasterizeQTLogged rasterizeQT rasterWrites
    cases leaf with
    | true =>
      simp only [if_true]
      unfold blitRectLogged blitRect
      exact storeAllLogged_eq _ buf lg
    | false =>
      simp only [Bool.false_eq_true, if_false]
      rw [ih0 buf lg]
      cases h0 : rasterizeQT c0 W H buf with
      | none => rfl
      | some o0 =>
        simp only [Option.map_some']
        rw [ih1]
        cases h1 : rasterizeQT c1 W H o0 with
        | none => rfl
        | some o1 =>
          simp only [Option.map_some']
          rw [ih2]
          cases h2 : rasterizeQT c2 W H o1 with
          | none => rfl
          | some o2 =>
            simp only [Option.map_some']
            rw [ih3]
            simp only [List.append_assoc]

/-- A list of buffer indices that holds the index of every grid position once, and no
    other index, has `W*H` entries. -/
theorem length_of_grid_indices (L : List Int) (W H : Int) (hW : 1 ≤ W) (hH : 1 ≤ H)
    (h1 : ∀ i j : Int, 0 ≤ i → i < W → 0 ≤ j → j < H → List.count (j * W + i) L = 1)
    (h2 : ∀ k ∈ L, ∃ i j, 0 ≤ i ∧ i < W ∧ 0 ≤ j ∧ j < H ∧ k = j * W + i) :
    (L.length : Int) = W * H := by
  have hpos : 0 < W * H := by nlinarith
  have hnd : L.Nodup := by
    rw [List.nodup_iff_count_le_one]
    intro k
    by_cases hk : k ∈ L
    · obtain ⟨i, j, a1, a2, a3, a4, rfl⟩ := h2 k hk
      rw [h1 i j a1 a2 a3 a4]
    · rw [List.count_eq_zero_of_not_mem hk]
      omega
  have hset : L.toFinset =
      (Finset.range (W * H).toNat).image (fun n : Nat => (n : Int)) := by
    ext k
    simp only [List.mem_toFinset, Finset.mem_image, Finset.mem_range]
    constructor
    · intro hk
      obtain ⟨i, j, a1, a2, a3, a4, rfl⟩ := h2 k hk
      have hb := lin_index_bounds W H i j a1 a2 a3 a4
      exact ⟨(j * W + i).toNat, by omega, by omega⟩
    · rintro ⟨n, hn, rfl⟩
      have hnlt : (n : Int) < W * H := by omega
      have hi0 : 0 ≤ (n : Int) % W := Int.emod_nonneg _ (by omega)
      have hiW : (n : Int) % W < W := Int.emod_lt_of_pos _ (by omega)
      have hj0 : 0 ≤ (n : Int) / W := Int.ediv_nonneg (by omega) (by omega)
      have hjH : (n : Int) / W < H := by
        apply Int.ediv_lt_of_lt_mul (by omega)
        rw [Int.mul_comm] at hnlt
        exact hnlt
      have hc := h1 ((n : Int) % W) ((n : Int) / W) hi0 hiW hj0 hjH
      have e : (n : Int) / W * W + (n : Int) % W = (n : Int) := Int.ediv_add_emod' _ _
      rw [e] at hc
      exact List.count_pos_iff.1 (by omega)
  have hcard := congrArg Finset.card hset
  rw [List.toFinset_card_of_nodup hnd,
    Finset.card_image_of_injective _ Nat.cast_injective, Finset.card_range] at hcard
  omega

/-- C2: for `W, H ≥ 1`, an `H`-by-`W` grid and all parameters, `rasterizeQT` on the tree
    `buildQT(grid, 0, 0, W, H, minLeaf, threshold)` with any buffer of `W*H` pixels runs
    without an out-of-range store and writes the buffer position of every `(i, j)` with
    `0 ≤ i < W`, `0 ≤ j < H` exactly once.  The run is made with the record of its stores
    (`rasterizeQTLogged`): it ends, its vector is the one `rasterizeQT` returns, the
    record holds exactly one store to index `j*W + i`, the value of that store is what
    the vector holds there at the end, exactly one leaf rectangle contains `(i, j)`, and
    the record holds `W*H` stores, none to any other index. -/
theorem rasterizeQT_writes_once {F : Type} (M : DoubleOps F) (px : Grid) (W H minLeaf : Int)
    (t : F) (s : BuildStats F) (out0 : List Color) (hW : 1 ≤ W) (hH : 1 ≤ H)
    (hg : GridWF px W H) (hWH : W * H ≤ INT_MAX) (hlen : (out0.length : Int) = W * H) :
    ∃ r s', buildQT M px 0 0 W H minLeaf t s = some (r, s') ∧
      ∃ out log, rasterizeQTLogged r W H (out0, []) = some (out, log) ∧
        rasterizeQT r W H out0 = some out ∧
        out.length = out0.length ∧
        (log.length : Int) = W * H ∧
        (∀ i j : Int, 0 ≤ i → i < W → 0 ≤ j → j < H →
          List.count (j * W + i) (log.map Prod.fst) = 1 ∧
          coverCount r.leaves i j = 1 ∧
          ∃ c, (j * W + i, c) ∈ log ∧ out[(j * W + i).toNat]? = some c) ∧
        (∀ k ∈ log.map Prod.fst,
          ∃ i j, 0 ≤ i ∧ i < W ∧ 0 ≤ j ∧ j < H ∧ k = j * W + i) := by
  obtain ⟨r, s', e⟩ := buildQT_total M px W H minLeaf t hg hWH _ 0 0 W H s rfl
    ⟨le_refl _, le_refl _, by omega, by omega⟩ hW hH
  obtain ⟨hB, hrect, -⟩ := buildQT_sound M px minLeaf t _ 0 0 W H s r s' rfl e
  obtain ⟨h1, h2, h3⟩ := raster_of_built W H hB hrect hW hH
  obtain ⟨out, hout, hlen'⟩ := h3 out0 hlen
  refine ⟨r, s', e, out, rasterWrites r W H, ?_, hout, hlen', ?_, ?_, h2⟩
  · rw [rasterizeQTLogged_eq, hout]
    simp
  · rw [← List.length_map (rasterWrites r W H) Prod.fst]
    exact length_of_grid_indices _ W H hW hH (fun i j a1 a2 a3 a4 => (h1 i j a1 a2 a3 a4).1) h2
  · intro i j hi hiW hj hjH
    obtain ⟨hcount, hcov⟩ := h1 i j hi hiW hj hjH
    refine ⟨hcount, hcov, ?_⟩
    have hmem : j * W + i ∈ (rasterWrites r W H).map Prod.fst :=
      List.count_pos_iff.1 (by omega)
    rw [List.mem_map] at hmem
    obtain ⟨⟨k, c⟩, hp, hk⟩ := hmem
    simp only at hk
    subst hk
    refine ⟨c, hp, ?_⟩
    rw [rasterizeQT_eq_storeAll] at hout
    exact storeAll_get_of_count_one _ _ _ _ _ hout hp hcount

/-- Witness of C2: the 3x3 image rasterised into a zeroed buffer of 9 pixels. -/
theorem rasterizeQT_writes_once_witness :
    ∃ r s', buildQT ratOps grid3 0 0 3 3 1 0 (BuildStats.zero ratOps) = some (r, s') ∧
      ∃ out log, rasterizeQTLogged r 3 3 (List.replicate 9 Color.zero, []) = some (out, log) ∧
        rasterizeQT r 3 3 (List.replicate 9 Color.zero) = some out ∧
        out.length = (List.replicate 9 Color.zero).length ∧
        (log.length : Int) = 3 * 3 ∧
        (∀ i j : Int, 0 ≤ i → i < 3 → 0 ≤ j → j < 3 →
          List.count (j * 3 + i) (log.map Prod.fst) = 1 ∧
          coverCount r.leaves i j = 1 ∧
          ∃ c, (j * 3 + i, c) ∈ log ∧ out[(j * 3 + i).toNat]? = some c) ∧
        (∀ k ∈ log.map Prod.fst,
          ∃ i j, 0 ≤ i ∧ i < 3 ∧ 0 ≤ j ∧ j < 3 ∧ k = j * 3 + i) :=
  rasterizeQT_writes_once ratOps grid3 3 3 1 0 (BuildStats.zero ratOps)
    (List.replicate 9 Color.zero) (by decide) (by decide) (by decide) (by decide) (by decide)

/-- C3: for the tree built over a `W` by `H` grid (`W, H ≥ 1`) and rasterised into any
    buffer of `W*H` pixels, the output pixel at index `j*W + i` is the `avg` colour of the
    unique leaf whose rectangle contains `(i, j)`, whatever the buffer held before. -/
theorem rasterizeQT_pixel_exact {F : Type} (M : DoubleOps F) (px : Grid) (W H minLeaf : Int)
    (t : F) (s : BuildStats F) (hW : 1 ≤ W) (hH : 1 ≤ H)
    (hg : GridWF px W H) (hWH : W * H ≤ INT_MAX) :
    ∃ r s', buildQT M px 0 0 W H minLeaf t s = some (r, s') ∧
      ∀ i j : Int, 0 ≤ i → i < W → 0 ≤ j → j < H →
        ∃ leaf, leaf ∈ r.leaves ∧ leaf.covers i j ∧
          (∀ m ∈ r.leaves, m.covers i j → m = leaf) ∧
          ∀ out0 : List Color, (out0.length : Int) = W * H →
            ∃ out, rasterizeQT r W H out0 = some out ∧ out.length = out0.length ∧
              out[(j * W + i).toNat]? = some leaf.color := by
  obtain ⟨r, s', e⟩ := buildQT_total M px W H minLeaf t hg hWH _ 0 0 W H s rfl
    ⟨le_refl _, le_refl _, by omega, by omega⟩ hW hH
  obtain ⟨hB, hrect, -⟩ := buildQT_sound M px minLeaf t _ 0 0 W H s r s' rfl e
  obtain ⟨h1, h2, h3⟩ := raster_of_built W H hB hrect hW hH
  refine ⟨r, s', e, ?_⟩
  intro i j hi hiW hj hjH
  obtain ⟨hcount, hcov⟩ := h1 i j hi hiW hj hjH
  obtain ⟨leaf, hmem, hcovers, huniq⟩ := unique_of_coverCount_one r.leaves i j hcov
  refine ⟨leaf, hmem, hcovers, huniq, ?_⟩
  intro out0 hlen
  obtain ⟨out, hout, hlen'⟩ := h3 out0 hlen
  refine ⟨out, hout, hlen', ?_⟩
  rw [rasterizeQT_eq_storeAll] at hout
  apply storeAll_get_of_count_one _ _ _ _ _ hout _ hcount
  rw [rasterWrites_eq_leaves hB]
  simp only [List.mem_flatMap, List.mem_map, Prod.mk.injEq]
  refine ⟨leaf, hmem, j * W + i, ?_, rfl, rfl⟩
  rw [mem_blitIdx]
  exact ⟨i, j, hcovers, hi, hiW, hj, hjH, rfl⟩

/-- Witness of C3: the 3x3 image, `minLeaf = 1`, threshold 0. -/
theorem rasterizeQT_pixel_exact_witness :
    ∃ r s', buildQT ratOps grid3 0 0 3 3 1 0 (BuildStats.zero ratOps) = some (r, s') ∧
      ∀ i j : Int, 0 ≤ i → i < 3 → 0 ≤ j → j < 3 →
        ∃ leaf, leaf ∈ r.leaves ∧ leaf.covers i j ∧
          (∀ m ∈ r.leaves, m.covers i j → m = leaf) ∧
          ∀ out0 : List Color, (out0.length : Int) = 3 * 3 →
            ∃ out, rasterizeQT r 3 3 out0 = some out ∧ out.length = out0.length ∧
              out[(j * 3 + i).toNat]? = some leaf.color :=
  rasterizeQT_pixel_exact ratOps grid3 3 3 1 0 (BuildStats.zero ratOps)
    (by decide) (by decide) (by decide) (by decide)

/-! ## Claim on the leaf colour -/

theorem built_leaf_color {F : Type} {M : DoubleOps F} {px : Grid} {minLeaf : Int} {t : F}
    {m : Node} (hb : Built M px minLeaf t m) (hl : m.isLeaf = true) :
    averageRGB px m.rect.1 m.rect.2.1 m.rect.2.2.1 m.rect.2.2.2 = some m.color := by
  cases hb with
  | leaf x y w h avg hstop havg => exact havg
  | split x y w h c0 c1 c2 c3 hw0 hh0 hsd hw2 hh2 r0 r1 r2 r3 b0 b1 b2 b3 =>
    simp [Node.isLeaf] at hl

theorem mem_leaves (r m : Node) : m ∈ r.leaves ↔ m ∈ r.nodes ∧ m.isLeaf = true := by
  unfold Node.leaves
  exact List.mem_filter

/-- C5: on a rectangle with `w, h ≥ 1` inside the grid (pixel count within `int`),
    `averageRGB` returns a colour whose every channel is the integer quotient
    `S / (w*h)` of the exact channel sum `S` over the rectangle; the quotient is at most
    255 (the 8-bit cast does not wrap) and lies between any lower and upper bound of the
    channel values in the rectangle.  Every leaf produced by `buildQT` carries the value
    of `averageRGB` on its own rectangle, which is such a rectangle. -/
theorem averageRGB_floor_mean (px : Grid) (W H x y w h : Int) (hg : GridWF px W H)
    (hr : RectIn W H x y w h) (hw : 1 ≤ w) (hh : 1 ≤ h) (hWH : W * H ≤ INT_MAX) :
    (∃ c, averageRGB px x y w h = some c ∧
      ∀ f : Color → Fin 256, f = Color.r ∨ f = Color.g ∨ f = Color.b →
        ((f c).val = chanSum f (rectPixels px x y w h) / (w * h).toNat ∧
         chanSum f (rectPixels px x y w h) / (w * h).toNat ≤ 255 ∧
         ∀ lo hi : Nat,
           (∀ p ∈ rectPixels px x y w h, lo ≤ (f p).val ∧ (f p).val ≤ hi) →
           lo ≤ (f c).val ∧ (f c).val ≤ hi)) ∧
    (∀ (F : Type) (M : DoubleOps F) (minLeaf : Int) (t : F) (s : BuildStats F),
      ∃ r s', buildQT M px x y w h minLeaf t s = some (r, s') ∧
        ∀ leaf ∈ r.leaves,
          averageRGB px leaf.rect.1 leaf.rect.2.1 leaf.rect.2.2.1 leaf.rect.2.2.2
            = some leaf.color ∧
          RectIn W H leaf.rect.1 leaf.rect.2.1 leaf.rect.2.2.1 leaf.rect.2.2.2 ∧
          1 ≤ leaf.rect.2.2.1 ∧ 1 ≤ leaf.rect.2.2.2) := by
  have harea : w * h ≤ INT_MAX :=
    le_trans (area_le_of_rectIn W H x y w h hr (by omega) (by omega)) hWH
  constructor
  · have hpos : 1 ≤ w * h := by nlinarith
    have hlen := length_rectPixels px x y w h (by omega) (by omega)
    have hlenN : (rectPixels px x y w h).length = (w * h).toNat := by omega
    have hq : ∀ f : Color → Fin 256,
        chanSum f (rectPixels px x y w h) / (w * h).toNat ≤ 255 := fun f =>
      (chan_quot_bounds f _ _ 0 255 hlenN (by omega)
        (fun p _ => ⟨Nat.zero_le _, by have := (f p).isLt; omega⟩)).2
    refine ⟨_, averageRGB_eq px W H x y w h hg hr hw hh harea, ?_⟩
    intro f hf
    have hval : (f ⟨toU8 (chanSum Color.r (rectPixels px x y w h) / (w * h).toNat),
        toU8 (chanSum Color.g (rectPixels px x y w h) / (w * h).toNat),
        toU8 (chanSum Color.b (rectPixels px x y w h) / (w * h).toNat)⟩).val =
        chanSum f (rectPixels px x y w h) / (w * h).toNat := by
      rcases hf with rfl | rfl | rfl
      · exact toU8_val_of_le _ (hq _)
      · exact toU8_val_of_le _ (hq _)
      · exact toU8_val_of_le _ (hq _)
    refine ⟨hval, hq f, ?_⟩
    intro lo hi hb
    rw [hval]
    exact chan_quot_bounds f _ _ lo hi hlenN (by omega) hb
  · intro F M minLeaf t s
    obtain ⟨r, s', e⟩ := buildQT_total M px W H minLeaf t hg hWH _ x y w h s rfl hr hw hh
    obtain ⟨hB, hrect, -⟩ := buildQT_sound M px minLeaf t _ x y w h s r s' rfl e
    refine ⟨r, s', e, ?_⟩
    intro leaf hleaf
    rw [mem_leaves] at hleaf
    obtain ⟨hBm, hmw, hmh, a1, a2, a3, a4⟩ := built_nodes hB (by rw [hrect]; exact hw)
      (by rw [hrect]; exact hh) leaf hleaf.1
    rw [hrect] at a1 a2 a3 a4
    dsimp only at a1 a2 a3 a4
    obtain ⟨hx, hy, hxw, hyh⟩ := hr
    exact ⟨built_leaf_color hBm hleaf.2, ⟨by omega, by omega, by omega, by omega⟩, hmw, hmh⟩

/-- Witness of C5: the whole 3x3 image. -/
theorem averageRGB_floor_mean_witness :
    (∃ c, averageRGB grid3 0 0 3 3 = some c ∧
      ∀ f : Color → Fin 256, f = Color.r ∨ f = Color.g ∨ f = Color.b →
        ((f c).val = chanSum f (rectPixels grid3 0 0 3 3) / ((3 : Int) * 3).toNat ∧
         chanSum f (rectPixels grid3 0 0 3 3) / ((3 : Int) * 3).toNat ≤ 255 ∧
         ∀ lo hi : Nat,
           (∀ p ∈ rectPixels grid3 0 0 3 3, lo ≤ (f p).val ∧ (f p).val ≤ hi) →
           lo ≤ (f c).val ∧ (f c).val ≤ hi)) ∧
    (∀ (F : Type) (M : DoubleOps F) (minLeaf : Int) (t : F) (s : BuildStats F),
      ∃ r s', buildQT M grid3 0 0 3 3 minLeaf t s = some (r, s') ∧
        ∀ leaf ∈ r.leaves,
          averageRGB grid3 leaf.rect.1 leaf.rect.2.1 leaf.rect.2.2.1 leaf.rect.2.2.2
            = some leaf.color ∧
          RectIn 3 3 leaf.rect.1 leaf.rect.2.1 leaf.rect.2.2.1 leaf.rect.2.2.2 ∧
          1 ≤ leaf.rect.2.2.1 ∧ 1 ≤ leaf.rect.2.2.2) :=
  averageRGB_floor_mean grid3 3 3 0 0 3 3 (by decide) (by decide) (by decide) (by decide)
    (by decide)

/-! ## Claims on the stopping rule -/

theorem built_one_le_leaves {F : Type} {M : DoubleOps F} {px : Grid} {minLeaf : Int} {t : F}
    {r : Node} (hb : Built M px minLeaf t r) : 1 ≤ r.leaves.length := by
  induction hb with
  | leaf x y w h avg hstop havg => rw [leaves_leaf]; simp
  | split x y w h c0 c1 c2 c3 hw0 hh0 hsd hw2 hh2 r0 r1 r2 r3 b0 b1 b2 b3 ih0 ih1 ih2 ih3 =>
    rw [leaves_split]
    simp only [List.length_append]
    omega

/-- Raising the threshold cannot add leaves: trees built on the same rectangle with
    thresholds `t1` and `t2`, where everything `≤ t1` is `≤ t2`. -/
theorem built_leaves_mono {F : Type} {M : DoubleOps F} {px : Grid} {minLeaf : Int} {t1 t2 : F}
    (hmono : ∀ a, M.le a t1 = true → M.le a t2 = true)
    {r1 : Node} (hb1 : Built M px minLeaf t1 r1) :
    ∀ r2 : Node, Built M px minLeaf t2 r2 → r2.rect = r1.rect →
      r2.leaves.length ≤ r1.leaves.length := by
  induction hb1 with
  | leaf x y w h avg hstop havg =>
    intro r2 hb2 hrect
    cases hb2 with
    | leaf x2 y2 w2 h2 avg2 hstop2 havg2 => simp [leaves_leaf]
    | split x2 y2 w2 h2 c0 c1 c2 c3 hw0 hh0 hsd hw2 hh2 r0 r1 r2 r3 b0 b1 b2 b3 =>
      exfalso
      simp only [Node.rect, Prod.mk.injEq] at hrect
      obtain ⟨rfl, rfl, rfl, rfl⟩ := hrect
      obtain ⟨sd, hsd, hle⟩ := hsd
      rcases hstop with h1 | h1 | ⟨sd', hsd', h1 | h1 | h1⟩
      · omega
      · omega
      · rw [hsd] at hsd'
        cases hsd'
        rw [hmono sd h1] at hle
        exact absurd hle (by decide)
      · exact hw2 h1
      · exact hh2 h1
  | split x y w h c0 c1 c2 c3 hw0 hh0 hsd hw2 hh2 r0 r1 r2 r3 b0 b1 b2 b3 ih0 ih1 ih2 ih3 =>
    intro q hq hrect
    have hone := built_one_le_leaves b0
    cases hq with
    | leaf x2 y2 w2 h2 avg2 hstop2 havg2 =>
      rw [leaves_leaf, leaves_split]
      simp only [List.length_append, List.length_singleton]
      omega
    | split x2 y2 w2 h2 d0 d1 d2 d3 hw0' hh0' hsd' hw2' hh2' q0 q1 q2 q3 e0 e1 e2 e3 =>
      simp only [Node.rect, Prod.mk.injEq] at hrect
      obtain ⟨rfl, rfl, rfl, rfl⟩ := hrect
      have l0 := ih0 d0 e0 (by rw [q0, r0])
      have l1 := ih1 d1 e1 (by rw [q1, r1])
      have l2 := ih2 d2 e2 (by rw [q2, r2])
      have l3 := ih3 d3 e3 (by rw [q3, r3])
      rw [leaves_split, leaves_split]
      simp only [List.length_append]
      omega

/-- C7: for a fixed grid, root rectangle with `w, h ≥ 1` and `minLeaf`, and two
    thresholds `t1 ≤ t2` (for a transitive comparison `≤` on `double`), both calls of
    `buildQT` return a tree and the tree for `t2` has at most as many leaves as the tree
    for `t1`. -/
theorem buildQT_leaves_antitone {F : Type} (M : DoubleOps F) (px : Grid)
    (W H x y w h minLeaf : Int) (t1 t2 : F) (s1 s2 : BuildStats F)
    (hg : GridWF px W H) (hr : RectIn W H x y w h) (hWH : W * H ≤ INT_MAX)
    (hw : 1 ≤ w) (hh : 1 ≤ h)
    (htrans : ∀ a b c : F, M.le a b = true → M.le b c = true → M.le a c = true)
    (h12 : M.le t1 t2 = true) :
    ∃ r1 s1' r2 s2',
      buildQT M px x y w h minLeaf t1 s1 = some (r1, s1') ∧
      buildQT M px x y w h minLeaf t2 s2 = some (r2, s2') ∧
      r2.leaves.length ≤ r1.leaves.length := by
  obtain ⟨r1, s1', e1⟩ := buildQT_total M px W H minLeaf t1 hg hWH _ x y w h s1 rfl hr hw hh
  obtain ⟨r2, s2', e2⟩ := buildQT_total M px W H minLeaf t2 hg hWH _ x y w h s2 rfl hr hw hh
  obtain ⟨hB1, hrect1, -⟩ := buildQT_sound M px minLeaf t1 _ x y w h s1 r1 s1' rfl e1
  obtain ⟨hB2, hrect2, -⟩ := buildQT_sound M px minLeaf t2 _ x y w h s2 r2 s2' rfl e2
  refine ⟨r1, s1', r2, s2', e1, e2, ?_⟩
  exact built_leaves_mono (fun a ha => htrans a t1 t2 ha h12) hB1 r2 hB2
    (by rw [hrect1, hrect2])

/-- Witness of C7: the 3x3 image with thresholds 0 and 1 in rational arithmetic. -/
theorem buildQT_leaves_antitone_witness :
    ∃ r1 s1' r2 s2',
      buildQT ratOps grid3 0 0 3 3 1 0 (BuildStats.zero ratOps) = some (r1, s1') ∧
      buildQT ratOps grid3 0 0 3 3 1 1 (BuildStats.zero ratOps) = some (r2, s2') ∧
      r2.leaves.length ≤ r1.leaves.length :=
  buildQT_leaves_antitone ratOps grid3 3 3 0 0 3 3 1 0 1 (BuildStats.zero ratOps)
    (BuildStats.zero ratOps) (by decide) (by decide) (by decide) (by decide) (by decide)
    (by
      intro a b c hab hbc
      simp only [ratOps, exactOps, decide_eq_true_eq] at hab hbc ⊢
      exact le_trans hab hbc)
    (by simp [ratOps, exactOps])

/-- C10: when `w ≤ minLeaf` or `h ≤ minLeaf` at a root rectangle with `w, h ≥ 1` inside
    the grid, `buildQT` returns, for every threshold, the root as a single leaf on the whole
    rectangle with no children and the colour `averageRGB` gives; `stats.nodes` and
    `stats.leaves` are each incremented once (by exactly 1 unless the `size_t` counter
    was at its maximum) and `stats.ms` is untouched. -/
theorem buildQT_small_is_leaf {F : Type} (M : DoubleOps F) (px : Grid)
    (W H x y w h minLeaf : Int) (t : F) (s : BuildStats F)
    (hg : GridWF px W H) (hr : RectIn W H x y w h) (hWH : W * H ≤ INT_MAX)
    (hw : 1 ≤ w) (hh : 1 ≤ h) (hsmall : w ≤ minLeaf ∨ h ≤ minLeaf) :
    ∃ avg, averageRGB px x y w h = some avg ∧
      buildQT M px x y w h minLeaf t s =
        some (Node.node x y w h true avg Node.null Node.null Node.null Node.null,
              { nodes := (s.nodes + 1) % U64, leaves := (s.leaves + 1) % U64, ms := s.ms }) ∧
      (s.nodes + 1 < U64 → (s.nodes + 1) % U64 = s.nodes + 1) ∧
      (s.leaves + 1 < U64 → (s.leaves + 1) % U64 = s.leaves + 1) := by
  have harea : w * h ≤ INT_MAX :=
    le_trans (area_le_of_rectIn W H x y w h hr (by omega) (by omega)) hWH
  have havg := averageRGB_eq px W H x y w h hg hr hw hh harea
  refine ⟨_, havg, ?_, fun h1 => Nat.mod_eq_of_lt h1, fun h1 => Nat.mod_eq_of_lt h1⟩
  rw [buildQT_small M px x y w h minLeaf t s hsmall]
  simp only [leafNode, havg]

theorem checkerboard_wf : GridWF checkerboard 64 64 := by
  constructor
  · simp [checkerboard]
  · intro row hrow
    simp only [checkerboard, List.mem_map] at hrow
    obtain ⟨y, -, rfl⟩ := hrow
    simp

/-- Witness of C10: the 64x64 fallback image with `minLeaf = 256`, threshold 0. -/
theorem buildQT_small_is_leaf_witness :
    ∃ avg, averageRGB checkerboard 0 0 64 64 = some avg ∧
      buildQT ratOps checkerboard 0 0 64 64 256 0 (BuildStats.zero ratOps) =
        some (Node.node 0 0 64 64 true avg Node.null Node.null Node.null Node.null,
              { nodes := (0 + 1) % U64, leaves := (0 + 1) % U64, ms := 0 }) ∧
      (0 + 1 < U64 → (0 + 1) % U64 = 0 + 1) ∧
      (0 + 1 < U64 → (0 + 1) % U64 = 0 + 1) :=
  buildQT_small_is_leaf ratOps checkerboard 64 64 0 0 64 64 256 0 (BuildStats.zero ratOps)
    checkerboard_wf (by decide) (by decide) (by decide) (by decide) (by decide)

/-! ## calcStdDevRGB when the arithmetic is exact on integers -/

theorem chanSq_cons (f : Color → Fin 256) (c : Color) (ps : List Color) :
    chanSq f (c :: ps) = (f c).val * (f c).val + chanSq f ps := by
  simp [chanSq]

theorem chanSq_le (f : Color → Fin 256) (ps : List Color) :
    chanSq f ps ≤ 65025 * ps.length := by
  induction ps with
  | nil => simp [chanSq]
  | cons c rest ih =>
    have h1 : (f c).val ≤ 255 := by have := (f c).isLt; omega
    have h2 : (f c).val * (f c).val ≤ 255 * 255 := Nat.mul_le_mul h1 h1
    rw [chanSq_cons, List.length_cons, Nat.mul_succ]
    omega

theorem foldl_sdStep_exact {F : Type} (M : DoubleOps F) (hM : ExactOnInts M)
    (ps : List Color) : ∀ a1 a2 a3 a4 a5 a6 : Int,
    0 ≤ a1 → 0 ≤ a2 → 0 ≤ a3 → 0 ≤ a4 → 0 ≤ a5 → 0 ≤ a6 →
    a1 + 65025 * (ps.length : Int) ≤ DBL_EXACT → a2 + 65025 * (ps.length : Int) ≤ DBL_EXACT →
    a3 + 65025 * (ps.length : Int) ≤ DBL_EXACT → a4 + 65025 * (ps.length : Int) ≤ DBL_EXACT →
    a5 + 65025 * (ps.length : Int) ≤ DBL_EXACT → a6 + 65025 * (ps.length : Int) ≤ DBL_EXACT →
    ps.foldl (sdStep M)
        ⟨M.ofInt a1, M.ofInt a2, M.ofInt a3, M.ofInt a4, M.ofInt a5, M.ofInt a6⟩ =
      ⟨M.ofInt (a1 + (chanSum Color.r ps : Int)), M.ofInt (a2 + (chanSum Color.g ps : Int)),
       M.ofInt (a3 + (chanSum Color.b ps : Int)), M.ofInt (a4 + (chanSq Color.r ps : Int)),
       M.ofInt (a5 + (chanSq Color.g ps : Int)), M.ofInt (a6 + (chanSq Color.b ps : Int))⟩ := by
  induction ps with
  | nil =>
    intro a1 a2 a3 a4 a5 a6 _ _ _ _ _ _ _ _ _ _ _ _
    simp [chanSum, chanSq]
  | cons c rest ih =>
    intro a1 a2 a3 a4 a5 a6 h1 h2 h3 h4 h5 h6 b1 b2 b3 b4 b5 b6
    simp only [List.length_cons, Nat.cast_succ] at b1 b2 b3 b4 b5 b6
    have hr : (c.r.val : Int) ≤ 255 := by have := c.r.isLt; omega
    have hgn : (c.g.val : Int) ≤ 255 := by have := c.g.isLt; omega
    have hbl : (c.b.val : Int) ≤ 255 := by have := c.b.isLt; omega
    have hr0 : (0 : Int) ≤ (c.r.val : Int) := Int.natCast_nonneg _
    have hg0 : (0 : Int) ≤ (c.g.val : Int) := Int.natCast_nonneg _
    have hb0 : (0 : Int) ≤ (c.b.val : Int) := Int.natCast_nonneg _
    have hrr : (c.r.val : Int) * (c.r.val : Int) ≤ 65025 := by nlinarith
    have hgg : (c.g.val : Int) * (c.g.val : Int) ≤ 65025 := by nlinarith
    have hbb : (c.b.val : Int) * (c.b.val : Int) ≤ 65025 := by nlinarith
    have hrr0 : 0 ≤ (c.r.val : Int) * (c.r.val : Int) := Int.mul_nonneg hr0 hr0
    have hgg0 : 0 ≤ (c.g.val : Int) * (c.g.val : Int) := Int.mul_nonneg hg0 hg0
    have hbb0 : 0 ≤ (c.b.val : Int) * (c.b.val : Int) := Int.mul_nonneg hb0 hb0
    have hlen : (0 : Int) ≤ (rest.length : Int) := Int.natCast_nonneg _
    have hD : DBL_EXACT = 9007199254740992 := rfl
    have e : sdStep M ⟨M.ofInt a1, M.ofInt a2, M.ofInt a3, M.ofInt a4, M.ofInt a5, M.ofInt a6⟩ c
        = ⟨M.ofInt (a1 + c.r.val), M.ofInt (a2 + c.g.val), M.ofInt (a3 + c.b.val),
           M.ofInt (a4 + (c.r.val : Int) * c.r.val), M.ofInt (a5 + (c.g.val : Int) * c.g.val),
           M.ofInt (a6 + (c.b.val : Int) * c.b.val)⟩ := by
      simp only [sdStep]
      rw [hM.mul_exact _ _ hr0 hr0 (by omega), hM.mul_exact _ _ hg0 hg0 (by omega),
        hM.mul_exact _ _ hb0 hb0 (by omega),
        hM.add_exact a1 _ h1 hr0 (by omega), hM.add_exact a2 _ h2 hg0 (by omega),
        hM.add_exact a3 _ h3 hb0 (by omega), hM.add_exact a4 _ h4 hrr0 (by omega),
        hM.add_exact a5 _ h5 hgg0 (by omega), hM.add_exact a6 _ h6 hbb0 (by omega)]
    rw [List.foldl_cons, e, ih _ _ _ _ _ _ (by omega) (by omega) (by omega) (by omega)
      (by omega) (by omega) (by omega) (by omega) (by omega) (by omega) (by omega) (by omega)]
    simp only [chanSum_cons, chanSq_cons, Nat.cast_add, Nat.cast_mul, Int.add_assoc]

theorem clamp0_exact {F : Type} (M : DoubleOps F) (hM : ExactOnInts M) (a : Int) (h0 : 0 ≤ a)
    (h1 : a ≤ DBL_EXACT) : clamp0 M (M.ofInt a) = M.ofInt a := by
  unfold clamp0
  rw [hM.lt_exact a 0 h0 h1 (le_refl _) (by decide)]
  have : decide (a < 0) = false := by simpa using h0
  rw [this]
  rfl

/-- One channel of `calcStdDevRGB` when sum and sum of squares are `m*n` and
    `(m*m + d*d)*n`: the result is `d`. -/
theorem chanSd_exact {F : Type} (M : DoubleOps F) (hM : ExactOnInts M) (n m d : Int)
    (hn : 1 ≤ n) (hm : 0 ≤ m) (hd : 0 ≤ d) (hb : (m * m + d * d) * n ≤ DBL_EXACT) :
    chanSd M (M.ofInt (m * n)) (M.ofInt ((m * m + d * d) * n)) (M.ofInt n) = M.ofInt d := by
  have hmm : 0 ≤ m * m := Int.mul_nonneg hm hm
  have hdd : 0 ≤ d * d := Int.mul_nonneg hd hd
  have hq : m * m + d * d ≤ (m * m + d * d) * n := by nlinarith
  have hmle : m ≤ m * m := by
    rcases lt_or_le m 1 with h1 | h1
    · have : m = 0 := by omega
      subst this
      decide
    · nlinarith
  have hmn : m * n ≤ (m * m + d * d) * n :=
    Int.mul_le_mul_of_nonneg_right (by omega) (by omega)
  unfold chanSd
  rw [hM.div_exact m n hm (by omega) (by omega),
    hM.div_exact (m * m + d * d) n (by omega) (by omega) hb,
    hM.mul_exact m m hm hm (by omega),
    hM.sub_exact (m * m + d * d) (m * m) hmm (by omega) (by omega)]
  have e : m * m + d * d - m * m = d * d := by ring
  rw [e, clamp0_exact M hM (d * d) hdd (by omega), hM.sqrt_exact d hd (by omega)]

/-- The value of `calcStdDevRGB` on a rectangle whose channel sums are multiples of the
    pixel count with perfect-square variances: the mean `e` of the three deviations. -/
theorem calcStdDevRGB_exact {F : Type} (M : DoubleOps F) (hM : ExactOnInts M) (px : Grid)
    (W H x y w h : Int) (hg : GridWF px W H) (hr : RectIn W H x y w h) (hw : 1 ≤ w)
    (hh : 1 ≤ h) (harea : w * h ≤ INT_MAX) (mR mG mB dR dG dB e : Int)
    (hmR : 0 ≤ mR) (hmG : 0 ≤ mG) (hmB : 0 ≤ mB) (hdR : 0 ≤ dR) (hdG : 0 ≤ dG) (hdB : 0 ≤ dB)
    (hsR : (chanSum Color.r (rectPixels px x y w h) : Int) = mR * (w * h))
    (hsG : (chanSum Color.g (rectPixels px x y w h) : Int) = mG * (w * h))
    (hsB : (chanSum Color.b (rectPixels px x y w h) : Int) = mB * (w * h))
    (hqR : (chanSq Color.r (rectPixels px x y w h) : Int) = (mR * mR + dR * dR) * (w * h))
    (hqG : (chanSq Color.g (rectPixels px x y w h) : Int) = (mG * mG + dG * dG) * (w * h))
    (hqB : (chanSq Color.b (rectPixels px x y w h) : Int) = (mB * mB + dB * dB) * (w * h))
    (he : dR + dG + dB = e * 3) (hsmall : e * 3 ≤ DBL_EXACT) :
    calcStdDevRGB M px x y w h = some (M.ofInt e) := by
  have hpos : 1 ≤ w * h := by nlinarith
  have hlen := length_rectPixels px x y w h (by omega) (by omega)
  have hD : DBL_EXACT = 9007199254740992 := rfl
  have hI : INT_MAX = 2147483647 := rfl
  have hbq : ∀ f : Color → Fin 256,
      (chanSq f (rectPixels px x y w h) : Int) ≤ DBL_EXACT := by
    intro f
    have := chanSq_le f (rectPixels px x y w h)
    have h2 : (chanSq f (rectPixels px x y w h) : Int) ≤
        65025 * ((rectPixels px x y w h).length : Int) := by exact_mod_cast this
    omega
  unfold calcStdDevRGB
  rw [intChecked_of_bounds _ (by omega) harea, regionPixels_eq px W H x y w h hg hr]
  simp only [sdInit]
  rw [foldl_sdStep_exact M hM _ 0 0 0 0 0 0 (le_refl _) (le_refl _) (le_refl _) (le_refl _)
    (le_refl _) (le_refl _) (by omega) (by omega) (by omega) (by omega) (by omega) (by omega)]
  simp only [Int.zero_add, hsR, hsG, hsB, hqR, hqG, hqB]
  rw [chanSd_exact M hM (w * h) mR dR hpos hmR hdR (by rw [← hqR]; exact hbq _),
    chanSd_exact M hM (w * h) mG dG hpos hmG hdG (by rw [← hqG]; exact hbq _),
    chanSd_exact M hM (w * h) mB dB hpos hmB hdB (by rw [← hqB]; exact hbq _),
    hM.add_exact dR dG hdR hdG (by omega), hM.add_exact (dR + dG) dB (by omega) hdB (by omega),
    he, hM.div_exact e 3 (by omega) (by decide) hsmall]

/-! ## Rational arithmetic satisfies the exactness facts -/

theorem ratSqrt_sq (a : Int) (ha : 0 ≤ a) : ratSqrt ((a * a : Int) : ℚ) = (a : ℚ) := by
  unfold ratSqrt
  have hnum : ((a * a : Int) : ℚ).num = a * a := Rat.num_intCast (a * a)
  have hden : ((a * a : Int) : ℚ).den = 1 := Rat.den_intCast (a * a)
  rw [hnum, hden]
  have h1 : (a * a).toNat * 1 = a.toNat * a.toNat := by
    rw [Nat.mul_one]
    have : ((a.toNat * a.toNat : Nat) : Int) = a * a := by
      push_cast
      rw [Int.toNat_of_nonneg ha]
    omega
  rw [h1, Nat.sqrt_eq]
  have h2 : ((a.toNat : Nat) : ℚ) = (a : ℚ) := by
    have : ((a.toNat : Nat) : Int) = a := Int.toNat_of_nonneg ha
    exact_mod_cast this
  rw [h2]
  simp

theorem ratOps_exact : ExactOnInts ratOps where
  add_exact := by intro a b _ _ _; simp [ratOps, exactOps]
  sub_exact := by intro a b _ _ _; simp [ratOps, exactOps]
  mul_exact := by intro a b _ _ _; simp [ratOps, exactOps]
  div_exact := by
    intro a b _ hb _
    have hb' : (b : ℚ) ≠ 0 := by exact_mod_cast (ne_of_gt hb)
    simp [ratOps, exactOps, hb']
  sqrt_exact := by
    intro a ha _
    simp only [ratOps, exactOps]
    exact ratSqrt_sq a ha
  lt_exact := by intro a b _ _ _ _; simp [ratOps, exactOps]
  le_exact := by intro a b _ _ _ _; simp [ratOps, exactOps]

/-! ## Uniform images -/

theorem pixel_mem (px : Grid) (W H i j : Int) (hg : GridWF px W H) (hi : 0 ≤ i) (hiW : i < W)
    (hj : 0 ≤ j) (hjH : j < H) : ∃ row ∈ px, pixel px i j ∈ row := by
  obtain ⟨hlen, hrows⟩ := hg
  have hjlt : j.toNat < px.length := by omega
  have hrow : rowAt px j = some (px[j.toNat]) := by
    simp [rowAt, hj, List.getElem?_eq_getElem hjlt]
  have hW : ((px[j.toNat]).length : Int) = W := hrows _ (List.getElem_mem hjlt)
  have hilt : i.toNat < (px[j.toNat]).length := by omega
  have hpix : pixAt (px[j.toNat]) i = some ((px[j.toNat])[i.toNat]) := by
    simp [pixAt, hi, List.getElem?_eq_getElem hilt]
  refine ⟨px[j.toNat], List.getElem_mem hjlt, ?_⟩
  simp only [pixel, hrow, hpix, Option.getD_some]
  exact List.getElem_mem hilt

theorem rectPixels_uniform (px : Grid) (W H x y w h : Int) (c : Color) (hg : GridWF px W H)
    (hr : RectIn W H x y w h) (huni : ∀ row ∈ px, ∀ p ∈ row, p = c) :
    ∀ p ∈ rectPixels px x y w h, p = c := by
  intro p hp
  rw [mem_rectPixels] at hp
  obtain ⟨i, j, ⟨h1, h2, h3, h4⟩, rfl⟩ := hp
  obtain ⟨hx, hy, hxw, hyh⟩ := hr
  obtain ⟨row, hrow, hmem⟩ := pixel_mem px W H i j hg (by omega) (by omega) (by omega)
    (by omega)
  exact huni row hrow _ hmem

theorem chanSum_uniform (f : Color → Fin 256) (ps : List Color) (c : Color)
    (h : ∀ p ∈ ps, p = c) : chanSum f ps = (f c).val * ps.length := by
  induction ps with
  | nil => simp [chanSum]
  | cons p rest ih =>
    have hp : p = c := h p (List.mem_cons_self p rest)
    rw [chanSum_cons, ih (fun q hq => h q (List.mem_cons_of_mem p hq)), hp, List.length_cons,
      Nat.mul_succ]
    omega

theorem chanSq_uniform (f : Color → Fin 256) (ps : List Color) (c : Color)
    (h : ∀ p ∈ ps, p = c) : chanSq f ps = (f c).val * (f c).val * ps.length := by
  induction ps with
  | nil => simp [chanSq]
  | cons p rest ih =>
    have hp : p = c := h p (List.mem_cons_self p rest)
    rw [chanSq_cons, ih (fun q hq => h q (List.mem_cons_of_mem p hq)), hp, List.length_cons,
      Nat.mul_succ]
    omega

theorem averageRGB_uniform_rect (px : Grid) (W H x y w h : Int) (c : Color)
    (hg : GridWF px W H) (hr : RectIn W H x y w h) (hw : 1 ≤ w) (hh : 1 ≤ h)
    (harea : w * h ≤ INT_MAX) (hu : ∀ p ∈ rectPixels px x y w h, p = c) :
    averageRGB px x y w h = some c := by
  have hpos : 1 ≤ w * h := by nlinarith
  have hlen := length_rectPixels px x y w h (by omega) (by omega)
  have hlenN : (rectPixels px x y w h).length = (w * h).toNat := by omega
  have hq : ∀ f : Color → Fin 256,
      toU8 (chanSum f (rectPixels px x y w h) / (w * h).toNat) = f c := by
    intro f
    rw [chanSum_uniform f _ c hu, hlenN, Nat.mul_div_cancel _ (by omega)]
    apply Fin.ext
    rw [toU8_val_of_le _ (by have := (f c).isLt; omega)]
  rw [averageRGB_eq px W H x y w h hg hr hw hh harea, hq, hq, hq]

theorem averageRGB_uniform (px : Grid) (W H x y w h : Int) (c : Color) (hg : GridWF px W H)
    (hr : RectIn W H x y w h) (hw : 1 ≤ w) (hh : 1 ≤ h) (harea : w * h ≤ INT_MAX)
    (huni : ∀ row ∈ px, ∀ p ∈ row, p = c) : averageRGB px x y w h = some c :=
  averageRGB_uniform_rect px W H x y w h c hg hr hw hh harea
    (rectPixels_uniform px W H x y w h c hg hr huni)

theorem calcStdDevRGB_uniform {F : Type} (M : DoubleOps F) (hM : ExactOnInts M) (px : Grid)
    (W H x y w h : Int) (c : Color) (hg : GridWF px W H) (hr : RectIn W H x y w h)
    (hw : 1 ≤ w) (hh : 1 ≤ h) (harea : w * h ≤ INT_MAX)
    (huni : ∀ row ∈ px, ∀ p ∈ row, p = c) :
    calcStdDevRGB M px x y w h = some (M.ofInt 0) := by
  have hlen := length_rectPixels px x y w h (by omega) (by omega)
  have hu := rectPixels_uniform px W H x y w h c hg hr huni
  have hs : ∀ f : Color → Fin 256, (chanSum f (rectPixels px x y w h) : Int) =
      ((f c).val : Int) * (w * h) := by
    intro f
    rw [chanSum_uniform f _ c hu, ← hlen]
    push_cast
    ring
  have hq : ∀ f : Color → Fin 256, (chanSq f (rectPixels px x y w h) : Int) =
      (((f c).val : Int) * ((f c).val : Int) + 0 * 0) * (w * h) := by
    intro f
    rw [chanSq_uniform f _ c hu, ← hlen]
    push_cast
    ring
  exact calcStdDevRGB_exact M hM px W H x y w h hg hr hw hh harea _ _ _ 0 0 0 0
    (Int.natCast_nonneg _) (Int.natCast_nonneg _) (Int.natCast_nonneg _) (le_refl _) (le_refl _)
    (le_refl _) (hs _) (hs _) (hs _) (hq _) (hq _) (hq _) (by decide) (by decide)

/-- C8: on a grid whose pixels all have the colour `c`, for every root rectangle with
    `w, h ≥ 1`, every `minLeaf` and every threshold `≥ 0`, `buildQT` started from zeroed
    statistics returns the root as a single leaf on the whole rectangle with colour `c`,
    and leaves `stats.nodes = 1`, `stats.leaves = 1` (for a `double` arithmetic that is
    exact on integers up to `2^53`). -/
theorem buildQT_uniform_single_leaf {F : Type} (M : DoubleOps F) (hM : ExactOnInts M)
    (px : Grid) (W H x y w h minLeaf : Int) (t : F) (c : Color)
    (hg : GridWF px W H) (hr : RectIn W H x y w h) (hWH : W * H ≤ INT_MAX)
    (hw : 1 ≤ w) (hh : 1 ≤ h) (huni : ∀ row ∈ px, ∀ p ∈ row, p = c)
    (ht : M.le (M.ofInt 0) t = true) :
    buildQT M px x y w h minLeaf t (BuildStats.zero M) =
      some (Node.node x y w h true c Node.null Node.null Node.null Node.null,
            { nodes := 1, leaves := 1, ms := M.ofInt 0 }) := by
  have harea : w * h ≤ INT_MAX :=
    le_trans (area_le_of_rectIn W H x y w h hr (by omega) (by omega)) hWH
  have hsd := calcStdDevRGB_uniform M hM px W H x y w h c hg hr hw hh harea huni
  have havg := averageRGB_uniform px W H x y w h c hg hr hw hh harea huni
  rw [buildQT_stop M px x y w h minLeaf t _ (M.ofInt 0) hsd (Or.inl ht)]
  simp only [leafNode, havg, BuildStats.zero]
  rfl

/-- Witness of C8: the 64x64 image of colour (7, 8, 9), `minLeaf = 1`, threshold 0. -/
theorem buildQT_uniform_single_leaf_witness :
    buildQT ratOps (uniformGrid ⟨7, 8, 9⟩) 0 0 64 64 1 (ratOps.ofInt 0) (BuildStats.zero ratOps) =
      some (Node.node 0 0 64 64 true ⟨7, 8, 9⟩ Node.null Node.null Node.null Node.null,
            { nodes := 1, leaves := 1, ms := ratOps.ofInt 0 }) :=
  buildQT_uniform_single_leaf ratOps ratOps_exact (uniformGrid ⟨7, 8, 9⟩) 64 64 0 0 64 64 1
    (ratOps.ofInt 0) ⟨7, 8, 9⟩
    (by
      constructor
      · simp [uniformGrid]
      · intro row hrow
        simp only [uniformGrid, List.mem_replicate] at hrow
        rw [hrow.2]
        simp)
    (by decide) (by decide) (by decide) (by decide)
    (by
      intro row hrow p hp
      simp only [uniformGrid, List.mem_replicate] at hrow
      rw [hrow.2] at hp
      exact (List.mem_replicate.1 hp).2)
    (by simp [ratOps, exactOps])

/-! ## The checkerboard image -/

theorem intRange_append (a b c : Int) (hab : a ≤ b) (hbc : b ≤ c) :
    intRange a c = intRange a b ++ intRange b c := by
  unfold intRange
  have e : (c - a).toNat = (b - a).toNat + (c - b).toNat := by omega
  rw [e, List.range_add, List.map_append, List.map_map]
  congr 1
  apply List.map_congr_left
  intro k _
  simp only [Function.comp]
  push_cast
  rw [Int.toNat_of_nonneg (by omega)]
  ring

theorem pixel_checkerboard (i j : Int) (hi : 0 ≤ i) (hi' : i < 64) (hj : 0 ≤ j) (hj' : j < 64) :
    pixel checkerboard i j = cellColor i j := by
  have hjn : j.toNat < 64 := by omega
  have hin : i.toNat < 64 := by omega
  unfold pixel rowAt
  rw [if_pos hj]
  unfold checkerboard
  rw [List.getElem?_map, List.getElem?_range hjn]
  simp only [Option.map_some']
  unfold pixAt
  rw [if_pos hi, List.getElem?_map, List.getElem?_range hin]
  simp only [Option.map_some', Option.getD_some]
  rfl

theorem cellColor_cell (x y i j : Int) (hx : x % 8 = 0) (hy : y % 8 = 0) (h0 : 0 ≤ x)
    (h1 : 0 ≤ y) (hi : x ≤ i) (hi' : i < x + 8) (hj : y ≤ j) (hj' : j < y + 8) :
    cellColor i j = cellColor x y := by
  unfold cellColor
  have e1 : i.toNat / 8 = x.toNat / 8 := by omega
  have e2 : j.toNat / 8 = y.toNat / 8 := by omega
  rw [e1, e2]

/-- Weighted sum over eight consecutive pixels of one cell row. -/
theorem seg8_sum (g : Color → Nat) (x j : Int) (hx : x % 8 = 0) (h0 : 0 ≤ x) (h1 : x + 8 ≤ 64)
    (hj : 0 ≤ j) (hj' : j < 64) :
    (((intRange x (x + 8)).map (fun i => pixel checkerboard i j)).map g).sum =
      8 * g (cellColor x j) := by
  rw [List.map_map]
  have hc : ∀ i ∈ intRange x (x + 8),
      (g ∘ fun i => pixel checkerboard i j) i = g (cellColor x j) := by
    intro i hi
    rw [mem_intRange] at hi
    simp only [Function.comp]
    rw [pixel_checkerboard i j (by omega) (by omega) hj hj']
    unfold cellColor
    have e1 : i.toNat / 8 = x.toNat / 8 := by omega
    rw [e1]
  rw [List.map_congr_left hc, List.map_const', List.sum_replicate, length_intRange]
  have : (x + 8 - x).toNat = 8 := by omega
  rw [this]
  rfl

theorem cellColor_pair (g : Color → Nat) (x j : Int) (hx : x % 16 = 0) (h0 : 0 ≤ x) :
    g (cellColor x j) + g (cellColor (x + 8) j) = g ⟨220, 220, 220⟩ + g ⟨40, 40, 40⟩ := by
  unfold cellColor
  by_cases hp : (x.toNat / 8 + j.toNat / 8) % 2 = 0
  · have hq : ¬ ((x + 8).toNat / 8 + j.toNat / 8) % 2 = 0 := by omega
    rw [if_pos hp, if_neg hq]
  · have hq : ((x + 8).toNat / 8 + j.toNat / 8) % 2 = 0 := by omega
    rw [if_neg hp, if_pos hq, Nat.add_comm]

/-- Weighted sum over a row segment that starts at a multiple of 16 and is `16*m` wide:
    half the pixels are light, half are dark. -/
theorem row_sum_checker (g : Color → Nat) (j : Int) (hj : 0 ≤ j) (hj' : j < 64) (m : Nat) :
    ∀ x : Int, x % 16 = 0 → 0 ≤ x → x + 16 * (m : Int) ≤ 64 →
      (((intRange x (x + 16 * (m : Int))).map (fun i => pixel checkerboard i j)).map g).sum =
        8 * m * (g ⟨220, 220, 220⟩ + g ⟨40, 40, 40⟩) := by
  induction m with
  | zero =>
    intro x _ _ _
    have : intRange x (x + 16 * ((0 : Nat) : Int)) = [] := by
      unfold intRange
      have : (x + 16 * ((0 : Nat) : Int) - x).toNat = 0 := by simp
      rw [this]
      rfl
    rw [this]
    simp
  | succ m ih =>
    intro x hx h0 h1
    push_cast at h1 ⊢
    rw [intRange_append x (x + 8) (x + 16 * ((m : Int) + 1)) (by omega) (by omega),
      intRange_append (x + 8) (x + 16) (x + 16 * ((m : Int) + 1)) (by omega) (by omega)]
    simp only [List.map_append, List.sum_append]
    have e8 : x + 8 + 8 = x + 16 := by ring
    have s1 := seg8_sum g x j (by omega) h0 (by omega) hj hj'
    have s2 := seg8_sum g (x + 8) j (by omega) (by omega) (by omega) hj hj'
    rw [e8] at s2
    have s3 := ih (x + 16) (by omega) (by omega) (by omega)
    have e16 : x + 16 + 16 * (m : Int) = x + 16 * ((m : Int) + 1) := by ring
    rw [e16] at s3
    rw [s1, s2, s3]
    have hp := cellColor_pair g x j hx h0
    rw [← hp]
    ring

/-- Weighted sum over a block of the checkerboard that is `16*m` wide, starts at a column
    that is a multiple of 16, and spans `h` rows. -/
theorem block_sum_checker (g : Color → Nat) (x y h : Int) (m : Nat) (hx : x % 16 = 0)
    (h0 : 0 ≤ x) (h1 : x + 16 * (m : Int) ≤ 64) (hy : 0 ≤ y) (hy' : y + h ≤ 64) :
    ((rectPixels checkerboard x y (16 * (m : Int)) h).map g).sum =
      h.toNat * (8 * m * (g ⟨220, 220, 220⟩ + g ⟨40, 40, 40⟩)) := by
  unfold rectPixels
  rw [List.map_flatMap, List.flatMap, List.sum_flatten, List.map_map]
  have hc : ∀ j ∈ intRange y (y + h),
      (List.sum ∘ fun j =>
        ((intRange x (x + 16 * (m : Int))).map (fun i => pixel checkerboard i j)).map g) j =
      8 * m * (g ⟨220, 220, 220⟩ + g ⟨40, 40, 40⟩) := by
    intro j hj
    rw [mem_intRange] at hj
    simp only [Function.comp]
    exact row_sum_checker g j (by omega) (by omega) m x hx h0 h1
  rw [List.map_congr_left hc, List.map_const', List.sum_replicate, length_intRange]
  have : (y + h - y).toNat = h.toNat := by congr 1; omega
  rw [this]
  rfl

/-- The variance score of every block of the checkerboard whose corner and side are
    multiples of 16 is exactly 90. -/
theorem calcStdDevRGB_checker_block {F : Type} (M : DoubleOps F) (hM : ExactOnInts M)
    (x y : Int) (m : Nat) (hm : 1 ≤ m) (hx : x % 16 = 0) (h0 : 0 ≤ x)
    (h1 : x + 16 * (m : Int) ≤ 64) (hy : 0 ≤ y) (hy' : y + 16 * (m : Int) ≤ 64) :
    calcStdDevRGB M checkerboard x y (16 * (m : Int)) (16 * (m : Int)) = some (M.ofInt 90) := by
  have hmI : (1 : Int) ≤ (m : Int) := by exact_mod_cast hm
  have hm4 : (m : Int) ≤ 4 := by omega
  have harea : 16 * (m : Int) * (16 * (m : Int)) ≤ INT_MAX := by
    have : (m : Int) * (m : Int) ≤ 4 * 4 := Int.mul_le_mul hm4 hm4 (by omega) (by omega)
    unfold INT_MAX
    nlinarith
  have hs : ∀ f : Color → Fin 256, (f ⟨220, 220, 220⟩).val = 220 → (f ⟨40, 40, 40⟩).val = 40 →
      (chanSum f (rectPixels checkerboard x y (16 * (m : Int)) (16 * (m : Int))) : Int) =
        130 * (16 * (m : Int) * (16 * (m : Int))) := by
    intro f hl hd
    unfold chanSum
    rw [block_sum_checker (fun c => (f c).val) x y (16 * (m : Int)) m hx h0 h1 hy hy']
    simp only [hl, hd]
    push_cast
    rw [Int.toNat_of_nonneg (by omega)]
    ring
  have hq : ∀ f : Color → Fin 256, (f ⟨220, 220, 220⟩).val = 220 → (f ⟨40, 40, 40⟩).val = 40 →
      (chanSq f (rectPixels checkerboard x y (16 * (m : Int)) (16 * (m : Int))) : Int) =
        (130 * 130 + 90 * 90) * (16 * (m : Int) * (16 * (m : Int))) := by
    intro f hl hd
    unfold chanSq
    rw [block_sum_checker (fun c => (f c).val * (f c).val) x y (16 * (m : Int)) m hx h0 h1 hy
      hy']
    simp only [hl, hd]
    push_cast
    rw [Int.toNat_of_nonneg (by omega)]
    ring
  exact calcStdDevRGB_exact M hM checkerboard 64 64 x y (16 * (m : Int)) (16 * (m : Int))
    checkerboard_wf ⟨h0, hy, h1, hy'⟩ (by omega) (by omega) harea 130 130 130 90 90 90 90
    (by decide) (by decide) (by decide) (by decide) (by decide) (by decide)
    (hs Color.r rfl rfl) (hs Color.g rfl rfl) (hs Color.b rfl rfl)
    (hq Color.r rfl rfl) (hq Color.g rfl rfl) (hq Color.b rfl rfl) (by decide) (by decide)

/-! ## Claim on the checkerboard -/

theorem checkerTree_rect (k : Nat) (x y s : Int) : (checkerTree k x y s).rect = (x, y, s, s) := by
  cases k <;> rfl

theorem cell_pixels (x y : Int) (hx : x % 8 = 0) (hy : y % 8 = 0) (h0 : 0 ≤ x)
    (h1 : x + 8 ≤ 64) (h2 : 0 ≤ y) (h3 : y + 8 ≤ 64) (i j : Int) (hin : inRect x y 8 8 i j) :
    pixel checkerboard i j = cellColor x y := by
  obtain ⟨a1, a2, a3, a4⟩ := hin
  rw [pixel_checkerboard i j (by omega) (by omega) (by omega) (by omega)]
  exact cellColor_cell x y i j hx hy h0 h2 a1 a2 a3 a4

/-- Every 8x8 checker cell is a leaf of its own colour. -/
theorem built_checker_cell {F : Type} (M : DoubleOps F) (t : F) (x y : Int) (hx : x % 8 = 0)
    (hy : y % 8 = 0) (h0 : 0 ≤ x) (h1 : x + 8 ≤ 64) (h2 : 0 ≤ y) (h3 : y + 8 ≤ 64) :
    Built M checkerboard 8 t (checkerTree 0 x y 8) := by
  apply Built.leaf x y 8 8 (cellColor x y) (Or.inl (le_refl _))
  apply averageRGB_uniform_rect checkerboard 64 64 x y 8 8 (cellColor x y) checkerboard_wf
    ⟨h0, h2, h1, h3⟩ (by decide) (by decide) (by decide)
  intro p hp
  rw [mem_rectPixels] at hp
  obtain ⟨i, j, hin, rfl⟩ := hp
  exact cell_pixels x y hx hy h0 h1 h2 h3 i j hin

/-- A block whose corner and side `16*m` are multiples of 16 is split, given the trees of
    its four quadrants. -/
theorem built_checker_step {F : Type} (M : DoubleOps F) (hM : ExactOnInts M) (k : Nat)
    (x y : Int) (m : Nat) (hm : 1 ≤ m) (hx : x % 16 = 0) (h0 : 0 ≤ x)
    (h1 : x + 16 * (m : Int) ≤ 64) (h2 : 0 ≤ y) (h3 : y + 16 * (m : Int) ≤ 64)
    (b0 : Built M checkerboard 8 (M.ofInt 0) (checkerTree k x y (8 * (m : Int))))
    (b1 : Built M checkerboard 8 (M.ofInt 0)
      (checkerTree k (x + 8 * (m : Int)) y (8 * (m : Int))))
    (b2 : Built M checkerboard 8 (M.ofInt 0)
      (checkerTree k x (y + 8 * (m : Int)) (8 * (m : Int))))
    (b3 : Built M checkerboard 8 (M.ofInt 0)
      (checkerTree k (x + 8 * (m : Int)) (y + 8 * (m : Int)) (8 * (m : Int)))) :
    Built M checkerboard 8 (M.ofInt 0) (checkerTree (k + 1) x y (16 * (m : Int))) := by
  have hmI : (1 : Int) ≤ (m : Int) := by exact_mod_cast hm
  have e2 : 16 * (m : Int) / 2 = 8 * (m : Int) := by omega
  have et : (16 * (m : Int)).tdiv 2 = 8 * (m : Int) := by
    rw [tdiv_two_of_nonneg _ (by omega)]
    exact e2
  have es : 16 * (m : Int) - 8 * (m : Int) = 8 * (m : Int) := by ring
  have hsd := calcStdDevRGB_checker_block M hM x y m hm hx h0 h1 h2 h3
  have hle : M.le (M.ofInt 90) (M.ofInt 0) = false := by
    rw [hM.le_exact 90 0 (by decide) (by decide) (by decide) (by decide)]
    rfl
  simp only [checkerTree, e2]
  apply Built.split x y (16 * (m : Int)) (16 * (m : Int)) _ _ _ _ (by omega) (by omega)
    ⟨M.ofInt 90, hsd, hle⟩ (by rw [et]; omega) (by rw [et]; omega)
  · rw [checkerTree_rect, et]
  · rw [checkerTree_rect, et, es]
  · rw [checkerTree_rect, et, es]
  · rw [checkerTree_rect, et, es]
  · exact b0
  · exact b1
  · exact b2
  · exact b3

theorem built_checker16 {F : Type} (M : DoubleOps F) (hM : ExactOnInts M) (x y : Int)
    (hx : x % 16 = 0) (hy : y % 16 = 0) (h0 : 0 ≤ x) (h1 : x + 16 ≤ 64) (h2 : 0 ≤ y)
    (h3 : y + 16 ≤ 64) : Built M checkerboard 8 (M.ofInt 0) (checkerTree 1 x y 16) :=
  built_checker_step M hM 0 x y 1 (le_refl _) hx h0 (by omega) h2 (by omega)
    (built_checker_cell M _ x y (by omega) (by omega) h0 (by omega) h2 (by omega))
    (built_checker_cell M _ (x + 8) y (by omega) (by omega) (by omega) (by omega) h2 (by omega))
    (built_checker_cell M _ x (y + 8) (by omega) (by omega) h0 (by omega) (by omega) (by omega))
    (built_checker_cell M _ (x + 8) (y + 8) (by omega) (by omega) (by omega) (by omega)
      (by omega) (by omega))

theorem built_checker32 {F : Type} (M : DoubleOps F) (hM : ExactOnInts M) (x y : Int)
    (hx : x % 32 = 0) (hy : y % 32 = 0) (h0 : 0 ≤ x) (h1 : x + 32 ≤ 64) (h2 : 0 ≤ y)
    (h3 : y + 32 ≤ 64) : Built M checkerboard 8 (M.ofInt 0) (checkerTree 2 x y 32) :=
  built_checker_step M hM 1 x y 2 (by decide) (by omega) h0 (by omega) h2 (by omega)
    (built_checker16 M hM x y (by omega) (by omega) h0 (by omega) h2 (by omega))
    (built_checker16 M hM (x + 16) y (by omega) (by omega) (by omega) (by omega) h2 (by omega))
    (built_checker16 M hM x (y + 16) (by omega) (by omega) h0 (by omega) (by omega) (by omega))
    (built_checker16 M hM (x + 16) (y + 16) (by omega) (by omega) (by omega) (by omega)
      (by omega) (by omega))

theorem built_checker64 {F : Type} (M : DoubleOps F) (hM : ExactOnInts M) :
    Built M checkerboard 8 (M.ofInt 0) (checkerTree 3 0 0 64) :=
  built_checker_step M hM 2 0 0 4 (by decide) (by decide) (by decide) (by decide) (by decide)
    (by decide)
    (built_checker32 M hM 0 0 (by decide) (by decide) (by decide) (by decide) (by decide)
      (by decide))
    (built_checker32 M hM 32 0 (by decide) (by decide) (by decide) (by decide) (by decide)
      (by decide))
    (built_checker32 M hM 0 32 (by decide) (by decide) (by decide) (by decide) (by decide)
      (by decide))
    (built_checker32 M hM 32 32 (by decide) (by decide) (by decide) (by decide) (by decide)
      (by decide))

/-- The run of `buildQT` on the checkerboard with `minLeaf = 8` and threshold 0. -/
theorem buildQT_checkerboard_eq {F : Type} (M : DoubleOps F) (hM : ExactOnInts M) :
    buildQT M checkerboard 0 0 64 64 8 (M.ofInt 0) (BuildStats.zero M) =
      some (checkerTree 3 0 0 64, { nodes := 85, leaves := 64, ms := M.ofInt 0 }) := by
  have hrun := buildQT_complete M checkerboard 8 (M.ofInt 0) _ (built_checker64 M hM)
    (BuildStats.zero M)
  rw [checkerTree_rect] at hrun
  have hn : (checkerTree 3 0 0 64).nodes.length = 85 := by decide
  have hl : (checkerTree 3 0 0 64).leaves.length = 64 := by decide
  rw [hrun, hn, hl]
  rfl

/-- C9: on the 64x64 checkerboard of 8x8 cells, `buildQT` with `minLeaf = 8` and
    threshold 0 (for a `double` arithmetic exact on integers up to `2^53`) returns a tree
    with 85 nodes and exactly 64 leaves; every leaf is an 8x8 rectangle whose corner is a
    multiple of 8 in both coordinates, that is one checker cell, the 64 leaf rectangles
    are pairwise different, and each leaf carries the colour of every pixel of its cell. -/
theorem buildQT_checkerboard {F : Type} (M : DoubleOps F) (hM : ExactOnInts M) :
    ∃ r s', buildQT M checkerboard 0 0 64 64 8 (M.ofInt 0) (BuildStats.zero M) = some (r, s') ∧
      s'.nodes = 85 ∧ s'.leaves = 64 ∧ r.leaves.length = 64 ∧
      (r.leaves.map Node.rect).Nodup ∧
      ∀ leaf ∈ r.leaves,
        leaf.rect.2.2.1 = 8 ∧ leaf.rect.2.2.2 = 8 ∧
        leaf.rect.1 % 8 = 0 ∧ leaf.rect.2.1 % 8 = 0 ∧
        0 ≤ leaf.rect.1 ∧ leaf.rect.1 + 8 ≤ 64 ∧ 0 ≤ leaf.rect.2.1 ∧ leaf.rect.2.1 + 8 ≤ 64 ∧
        leaf.color =
          (if (leaf.rect.1 / 8 + leaf.rect.2.1 / 8) % 2 = 0 then ⟨220, 220, 220⟩
           else ⟨40, 40, 40⟩) ∧
        ∀ i j : Int, leaf.covers i j → pixel checkerboard i j = leaf.color := by
  have hrun := buildQT_checkerboard_eq M hM
  have hl : (checkerTree 3 0 0 64).leaves.length = 64 := by decide
  have hnd : ((checkerTree 3 0 0 64).leaves.map Node.rect).Nodup := by decide
  have hleaves : ∀ leaf ∈ (checkerTree 3 0 0 64).leaves,
      leaf.rect.2.2.1 = 8 ∧ leaf.rect.2.2.2 = 8 ∧
      leaf.rect.1 % 8 = 0 ∧ leaf.rect.2.1 % 8 = 0 ∧
      0 ≤ leaf.rect.1 ∧ leaf.rect.1 + 8 ≤ 64 ∧ 0 ≤ leaf.rect.2.1 ∧ leaf.rect.2.1 + 8 ≤ 64 ∧
      leaf.color =
        (if (leaf.rect.1 / 8 + leaf.rect.2.1 / 8) % 2 = 0 then ⟨220, 220, 220⟩
         else ⟨40, 40, 40⟩) ∧
      leaf.color = cellColor leaf.rect.1 leaf.rect.2.1 := by decide
  refine ⟨_, _, hrun, rfl, rfl, hl, hnd, ?_⟩
  · intro leaf hleaf
    obtain ⟨a1, a2, a3, a4, a5, a6, a7, a8, a9, a10⟩ := hleaves leaf hleaf
    refine ⟨a1, a2, a3, a4, a5, a6, a7, a8, a9, ?_⟩
    intro i j hcov
    rw [a10]
    unfold Node.covers at hcov
    rw [a1, a2] at hcov
    exact cell_pixels _ _ a3 a4 a5 a6 a7 a8 i j hcov

/-- Witness of C9: rational arithmetic. -/
theorem buildQT_checkerboard_witness :
    ∃ r s', buildQT ratOps checkerboard 0 0 64 64 8 (ratOps.ofInt 0) (BuildStats.zero ratOps)
        = some (r, s') ∧
      s'.nodes = 85 ∧ s'.leaves = 64 ∧ r.leaves.length = 64 ∧
      (r.leaves.map Node.rect).Nodup ∧
      ∀ leaf ∈ r.leaves,
        leaf.rect.2.2.1 = 8 ∧ leaf.rect.2.2.2 = 8 ∧
        leaf.rect.1 % 8 = 0 ∧ leaf.rect.2.1 % 8 = 0 ∧
        0 ≤ leaf.rect.1 ∧ leaf.rect.1 + 8 ≤ 64 ∧ 0 ≤ leaf.rect.2.1 ∧ leaf.rect.2.1 + 8 ≤ 64 ∧
        leaf.color =
          (if (leaf.rect.1 / 8 + leaf.rect.2.1 / 8) % 2 = 0 then ⟨220, 220, 220⟩
           else ⟨40, 40, 40⟩) ∧
        ∀ i j : Int, leaf.covers i j → pixel checkerboard i j = leaf.color :=
  buildQT_checkerboard ratOps ratOps_exact

/-! ## Witnesses on the checkerboard -/

/-- Witness of C1: the checkerboard with `minLeaf = 8`, threshold 0, rational arithmetic;
    the root of the returned tree is an internal node. -/
theorem buildQT_children_tile_witness :
    buildQT ratOps checkerboard 0 0 64 64 8 (ratOps.ofInt 0) (BuildStats.zero ratOps) =
      some (checkerTree 3 0 0 64, { nodes := 85, leaves := 64, ms := ratOps.ofInt 0 }) ∧
    (checkerTree 3 0 0 64).isLeaf = false ∧
    ∀ m ∈ (checkerTree 3 0 0 64).nodes, m.isLeaf = false →
      ∃ mx my mw mh c0 c1 c2 c3,
        m = Node.node mx my mw mh false Color.zero c0 c1 c2 c3 ∧
        c0.nonNull = true ∧ c1.nonNull = true ∧ c2.nonNull = true ∧ c3.nonNull = true ∧
        c0.rect = (mx, my, mw.tdiv 2, mh.tdiv 2) ∧
        c1.rect = (mx + mw.tdiv 2, my, mw - mw.tdiv 2, mh.tdiv 2) ∧
        c2.rect = (mx, my + mh.tdiv 2, mw.tdiv 2, mh - mh.tdiv 2) ∧
        c3.rect = (mx + mw.tdiv 2, my + mh.tdiv 2, mw - mw.tdiv 2, mh - mh.tdiv 2) ∧
        (∀ i j : Int,
          coverCount [c0, c1, c2, c3] i j = if inRect mx my mw mh i j then 1 else 0) ∧
        c0.area + c1.area + c2.area + c3.area = mw * mh :=
  ⟨buildQT_checkerboard_eq ratOps ratOps_exact, rfl,
    (buildQT_children_tile ratOps checkerboard 0 0 64 64 8 (ratOps.ofInt 0)
      (BuildStats.zero ratOps) (by decide) (by decide)).1 _ _
      (buildQT_checkerboard_eq ratOps ratOps_exact)⟩

/-- Witness of C4: the nodes of the tree of the checkerboard, whose root is internal. -/
theorem buildQT_leaf_iff_witness :
    (checkerTree 3 0 0 64).isLeaf = false ∧
    ∀ m ∈ (checkerTree 3 0 0 64).nodes,
      (m.isLeaf = true ↔
        (m.rect.2.2.1 ≤ 8 ∨ m.rect.2.2.2 ≤ 8 ∨
          (∃ sd, calcStdDevRGB ratOps checkerboard m.rect.1 m.rect.2.1 m.rect.2.2.1 m.rect.2.2.2
              = some sd ∧ ratOps.le sd (ratOps.ofInt 0) = true) ∨
          m.rect.2.2.1.tdiv 2 = 0 ∨ m.rect.2.2.2.tdiv 2 = 0)) ∧
      (m.isLeaf = false →
        m.children.length = 4 ∧ ∀ c ∈ m.children, c.nonNull = true) :=
  ⟨rfl, buildQT_leaf_iff ratOps checkerboard 0 0 64 64 8 (ratOps.ofInt 0)
    (BuildStats.zero ratOps) (checkerTree 3 0 0 64)
    { nodes := 85, leaves := 64, ms := ratOps.ofInt 0 }
    (buildQT_checkerboard_eq ratOps ratOps_exact)⟩

/-! ## Claim on the variance score -/

theorem foldl_sdStep_fields {F : Type} (M : DoubleOps F) (ps : List Color) :
    ∀ a : SdAcc F, ps.foldl (sdStep M) a =
      ⟨ps.foldl (fun s p => M.add s (M.ofInt (p.r.val : Int))) a.sumR,
       ps.foldl (fun s p => M.add s (M.ofInt (p.g.val : Int))) a.sumG,
       ps.foldl (fun s p => M.add s (M.ofInt (p.b.val : Int))) a.sumB,
       ps.foldl (fun s p =>
         M.add s (M.mul (M.ofInt (p.r.val : Int)) (M.ofInt (p.r.val : Int)))) a.sqR,
       ps.foldl (fun s p =>
         M.add s (M.mul (M.ofInt (p.g.val : Int)) (M.ofInt (p.g.val : Int)))) a.sqG,
       ps.foldl (fun s p =>
         M.add s (M.mul (M.ofInt (p.b.val : Int)) (M.ofInt (p.b.val : Int)))) a.sqB⟩ := by
  induction ps with
  | nil => intro a; rfl
  | cons c rest ih =>
    intro a
    rw [List.foldl_cons, ih]
    rfl

theorem foldl_add_exactOps (F : Type) [LinearOrderedField F] (sq : F → F) (g : Color → Nat)
    (ps : List Color) : ∀ a : F,
    ps.foldl (fun s p => (exactOps F sq).add s ((exactOps F sq).ofInt (g p : Int))) a =
      a + (((ps.map g).sum : Nat) : F) := by
  induction ps with
  | nil => intro a; simp
  | cons c rest ih =>
    intro a
    rw [List.foldl_cons, ih]
    simp only [exactOps, List.map_cons, List.sum_cons]
    push_cast
    ring

theorem foldl_addsq_exactOps (F : Type) [LinearOrderedField F] (sq : F → F) (g : Color → Nat)
    (ps : List Color) : ∀ a : F,
    ps.foldl (fun s p => (exactOps F sq).add s
        ((exactOps F sq).mul ((exactOps F sq).ofInt (g p : Int))
          ((exactOps F sq).ofInt (g p : Int)))) a =
      a + (((ps.map (fun c => g c * g c)).sum : Nat) : F) := by
  induction ps with
  | nil => intro a; simp
  | cons c rest ih =>
    intro a
    rw [List.foldl_cons, ih]
    simp only [exactOps, List.map_cons, List.sum_cons]
    push_cast
    ring

theorem clamp0_exactOps (F : Type) [LinearOrderedField F] (sq : F → F) (v : F) :
    clamp0 (exactOps F sq) v = max 0 v := by
  unfold clamp0
  simp only [exactOps, Int.cast_zero, decide_eq_true_eq]
  by_cases hv : v < 0
  · rw [if_pos hv, max_eq_left (le_of_lt hv)]
  · rw [if_neg hv, max_eq_right (not_lt.1 hv)]

/-- Sum of squared deviations from any centre `mu`, expanded. -/
theorem sum_sq_dev (F : Type) [LinearOrderedField F] (f : Color → Fin 256) (mu : F)
    (ps : List Color) :
    (ps.map (fun p => (((f p).val : F) - mu) ^ 2)).sum =
      (chanSq f ps : F) - 2 * mu * (chanSum f ps : F) + (ps.length : F) * mu ^ 2 := by
  induction ps with
  | nil => simp [chanSq, chanSum]
  | cons c rest ih =>
    rw [List.map_cons, List.sum_cons, ih, chanSq_cons, chanSum_cons, List.length_cons]
    push_cast
    ring

/-- The quantity under the clamp is the population variance. -/
theorem var_identity (F : Type) [LinearOrderedField F] (f : Color → Fin 256) (ps : List Color)
    (hne : ps.length ≠ 0) :
    (chanSq f ps : F) / (ps.length : F) - ((chanSum f ps : F) / (ps.length : F)) ^ 2 =
      chanVar F f ps := by
  have hn : (ps.length : F) ≠ 0 := by exact_mod_cast hne
  unfold chanVar chanMean
  rw [sum_sq_dev]
  field_simp
  ring

theorem list_sum_nonneg (F : Type) [LinearOrderedField F] (l : List F) (h : ∀ v ∈ l, 0 ≤ v) :
    0 ≤ l.sum := by
  induction l with
  | nil => simp
  | cons a rest ih =>
    rw [List.sum_cons]
    exact add_nonneg (h a (List.mem_cons_self a rest))
      (ih (fun v hv => h v (List.mem_cons_of_mem a hv)))

theorem list_sum_eq_zero (F : Type) [LinearOrderedField F] (l : List F) (h : ∀ v ∈ l, 0 ≤ v) :
    l.sum = 0 ↔ ∀ v ∈ l, v = 0 := by
  induction l with
  | nil => simp
  | cons a rest ih =>
    have ha := h a (List.mem_cons_self a rest)
    have hrest : ∀ v ∈ rest, 0 ≤ v := fun v hv => h v (List.mem_cons_of_mem a hv)
    have hs := list_sum_nonneg F rest hrest
    rw [List.sum_cons]
    constructor
    · intro hsum v hv
      have h1 : a = 0 := by linarith
      have h2 : rest.sum = 0 := by linarith
      rcases List.mem_cons.1 hv with rfl | hv'
      · exact h1
      · exact (ih hrest).1 h2 v hv'
    · intro hall
      rw [hall a (List.mem_cons_self a rest),
        (ih hrest).2 (fun v hv => hall v (List.mem_cons_of_mem a hv))]
      simp

theorem chanVar_nonneg (F : Type) [LinearOrderedField F] (f : Color → Fin 256)
    (ps : List Color) : 0 ≤ chanVar F f ps := by
  unfold chanVar
  apply div_nonneg
  · apply list_sum_nonneg
    intro v hv
    rw [List.mem_map] at hv
    obtain ⟨p, -, rfl⟩ := hv
    exact sq_nonneg _
  · exact Nat.cast_nonneg _

/-- The variance of a channel vanishes exactly when every pixel has the mean value. -/
theorem chanVar_eq_zero (F : Type) [LinearOrderedField F] (f : Color → Fin 256)
    (ps : List Color) (hne : ps.length ≠ 0) :
    chanVar F f ps = 0 ↔ ∀ p ∈ ps, ((f p).val : F) = chanMean F f ps := by
  have hn : (ps.length : F) ≠ 0 := by exact_mod_cast hne
  unfold chanVar
  rw [div_eq_zero_iff, or_iff_left hn, list_sum_eq_zero]
  · constructor
    · intro hall p hp
      have := hall _ (List.mem_map_of_mem _ hp)
      have h2 : ((f p).val : F) - chanMean F f ps = 0 := by
        simpa using this
      linarith
    · intro hall v hv
      rw [List.mem_map] at hv
      obtain ⟨p, hp, rfl⟩ := hv
      rw [hall p hp]
      simp
  · intro v hv
    rw [List.mem_map] at hv
    obtain ⟨p, -, rfl⟩ := hv
    exact sq_nonneg _

theorem chanMean_uniform (F : Type) [LinearOrderedField F] (f : Color → Fin 256)
    (ps : List Color) (c : Color) (hne : ps.length ≠ 0) (h : ∀ p ∈ ps, p = c) :
    chanMean F f ps = ((f c).val : F) := by
  have hn : (ps.length : F) ≠ 0 := by exact_mod_cast hne
  unfold chanMean
  rw [chanSum_uniform f ps c h]
  push_cast
  field_simp

theorem chanSd_exactOps_real (f : Color → Fin 256) (ps : List Color) (n : Int)
    (hn : (ps.length : Int) = n) :
    chanSd (exactOps ℝ Real.sqrt)
      ((exactOps ℝ Real.sqrt).ofInt 0 + (((ps.map (fun c => (f c).val)).sum : Nat) : ℝ))
      ((exactOps ℝ Real.sqrt).ofInt 0 +
        (((ps.map (fun c => (f c).val * (f c).val)).sum : Nat) : ℝ))
      ((exactOps ℝ Real.sqrt).ofInt n) = clampedSd ℝ Real.sqrt f ps := by
  have hcast : ((n : Int) : ℝ) = (ps.length : ℝ) := by
    rw [← hn]
    simp
  unfold chanSd clampedSd
  rw [clamp0_exactOps]
  simp only [exactOps, Int.cast_zero, zero_add, hcast]
  unfold chanSq chanSum
  rw [pow_two]

/-- C6: on a rectangle with `n = w*h ≥ 1` pixels inside the grid, `calcStdDevRGB` returns
    `(sdR + sdG + sdB) / 3` with `sd = sqrt(clamp0(sq/n - (sum/n)*(sum/n)))` per channel, in
    every arithmetic (`sum`, `sq` are the running sums).  In exact real arithmetic each
    `sd` is `sqrt(max(0, (sum of v^2)/n - ((sum of v)/n)^2))`, the quantity under the clamp
    equals the population variance `(sum of (v - mean)^2)/n` and is never negative, so
    `sd` is the population standard deviation, and the score is 0 exactly when all pixels
    of the rectangle have the same colour. -/
theorem calcStdDevRGB_population_sd (px : Grid) (W H x y w h : Int) (hg : GridWF px W H)
    (hr : RectIn W H x y w h) (hw : 1 ≤ w) (hh : 1 ≤ h) (hWH : W * H ≤ INT_MAX) :
    (∀ (F : Type) (M : DoubleOps F),
      calcStdDevRGB M px x y w h =
        some (M.div (M.add (M.add
          (chanSd M (accF M (fun p => M.ofInt (p.r.val : Int)) (rectPixels px x y w h))
            (accF M (fun p => M.mul (M.ofInt (p.r.val : Int)) (M.ofInt (p.r.val : Int)))
              (rectPixels px x y w h)) (M.ofInt (w * h)))
          (chanSd M (accF M (fun p => M.ofInt (p.g.val : Int)) (rectPixels px x y w h))
            (accF M (fun p => M.mul (M.ofInt (p.g.val : Int)) (M.ofInt (p.g.val : Int)))
              (rectPixels px x y w h)) (M.ofInt (w * h))))
          (chanSd M (accF M (fun p => M.ofInt (p.b.val : Int)) (rectPixels px x y w h))
            (accF M (fun p => M.mul (M.ofInt (p.b.val : Int)) (M.ofInt (p.b.val : Int)))
              (rectPixels px x y w h)) (M.ofInt (w * h)))) (M.ofInt 3))) ∧
    ((rectPixels px x y w h).length : Int) = w * h ∧
    calcStdDevRGB (exactOps ℝ Real.sqrt) px x y w h =
      some ((clampedSd ℝ Real.sqrt Color.r (rectPixels px x y w h) +
             clampedSd ℝ Real.sqrt Color.g (rectPixels px x y w h) +
             clampedSd ℝ Real.sqrt Color.b (rectPixels px x y w h)) / 3) ∧
    (∀ f : Color → Fin 256,
      (chanSq f (rectPixels px x y w h) : ℝ) / ((rectPixels px x y w h).length : ℝ) -
          ((chanSum f (rectPixels px x y w h) : ℝ) / ((rectPixels px x y w h).length : ℝ)) ^ 2
        = chanVar ℝ f (rectPixels px x y w h) ∧
      0 ≤ chanVar ℝ f (rectPixels px x y w h) ∧
      clampedSd ℝ Real.sqrt f (rectPixels px x y w h) =
        Real.sqrt (chanVar ℝ f (rectPixels px x y w h))) ∧
    ((clampedSd ℝ Real.sqrt Color.r (rectPixels px x y w h) +
        clampedSd ℝ Real.sqrt Color.g (rectPixels px x y w h) +
        clampedSd ℝ Real.sqrt Color.b (rectPixels px x y w h)) / 3 = 0 ↔
      ∀ p ∈ rectPixels px x y w h, ∀ q ∈ rectPixels px x y w h, p = q) := by
  have harea : w * h ≤ INT_MAX :=
    le_trans (area_le_of_rectIn W H x y w h hr (by omega) (by omega)) hWH
  have hpos : 1 ≤ w * h := by nlinarith
  have hlen := length_rectPixels px x y w h (by omega) (by omega)
  have hne : (rectPixels px x y w h).length ≠ 0 := by omega
  have hshape : ∀ (F : Type) (M : DoubleOps F),
      calcStdDevRGB M px x y w h =
        some (M.div (M.add (M.add
          (chanSd M (accF M (fun p => M.ofInt (p.r.val : Int)) (rectPixels px x y w h))
            (accF M (fun p => M.mul (M.ofInt (p.r.val : Int)) (M.ofInt (p.r.val : Int)))
              (rectPixels px x y w h)) (M.ofInt (w * h)))
          (chanSd M (accF M (fun p => M.ofInt (p.g.val : Int)) (rectPixels px x y w h))
            (accF M (fun p => M.mul (M.ofInt (p.g.val : Int)) (M.ofInt (p.g.val : Int)))
              (rectPixels px x y w h)) (M.ofInt (w * h))))
          (chanSd M (accF M (fun p => M.ofInt (p.b.val : Int)) (rectPixels px x y w h))
            (accF M (fun p => M.mul (M.ofInt (p.b.val : Int)) (M.ofInt (p.b.val : Int)))
              (rectPixels px x y w h)) (M.ofInt (w * h)))) (M.ofInt 3)) := by
    intro F M
    unfold calcStdDevRGB
    rw [intChecked_of_bounds _ (by omega) harea, regionPixels_eq px W H x y w h hg hr]
    simp only [foldl_sdStep_fields, sdInit, accF]
  have hvar : ∀ f : Color → Fin 256,
      (chanSq f (rectPixels px x y w h) : ℝ) / ((rectPixels px x y w h).length : ℝ) -
          ((chanSum f (rectPixels px x y w h) : ℝ) / ((rectPixels px x y w h).length : ℝ)) ^ 2
        = chanVar ℝ f (rectPixels px x y w h) := fun f => var_identity ℝ f _ hne
  have hsd : ∀ f : Color → Fin 256, clampedSd ℝ Real.sqrt f (rectPixels px x y w h) =
      Real.sqrt (chanVar ℝ f (rectPixels px x y w h)) := by
    intro f
    unfold clampedSd
    rw [hvar f, max_eq_right (chanVar_nonneg ℝ f _)]
  refine ⟨hshape, hlen, ?_, fun f => ⟨hvar f, chanVar_nonneg ℝ f _, hsd f⟩, ?_⟩
  · rw [hshape ℝ (exactOps ℝ Real.sqrt)]
    simp only [accF]
    rw [foldl_add_exactOps ℝ Real.sqrt (fun c => c.r.val),
      foldl_add_exactOps ℝ Real.sqrt (fun c => c.g.val),
      foldl_add_exactOps ℝ Real.sqrt (fun c => c.b.val),
      foldl_addsq_exactOps ℝ Real.sqrt (fun c => c.r.val),
      foldl_addsq_exactOps ℝ Real.sqrt (fun c => c.g.val),
      foldl_addsq_exactOps ℝ Real.sqrt (fun c => c.b.val),
      chanSd_exactOps_real Color.r _ _ hlen, chanSd_exactOps_real Color.g _ _ hlen,
      chanSd_exactOps_real Color.b _ _ hlen]
    simp [exactOps]
  · rw [hsd, hsd, hsd]
    have n1 := Real.sqrt_nonneg (chanVar ℝ Color.r (rectPixels px x y w h))
    have n2 := Real.sqrt_nonneg (chanVar ℝ Color.g (rectPixels px x y w h))
    have n3 := Real.sqrt_nonneg (chanVar ℝ Color.b (rectPixels px x y w h))
    have hz : ∀ f : Color → Fin 256,
        Real.sqrt (chanVar ℝ f (rectPixels px x y w h)) = 0 ↔
          ∀ p ∈ rectPixels px x y w h,
            ((f p).val : ℝ) = chanMean ℝ f (rectPixels px x y w h) := by
      intro f
      rw [Real.sqrt_eq_zero (chanVar_nonneg ℝ f _), chanVar_eq_zero ℝ f _ hne]
    constructor
    · intro hzero p hp q hq
      have e1 : Real.sqrt (chanVar ℝ Color.r (rectPixels px x y w h)) = 0 := by linarith
      have e2 : Real.sqrt (chanVar ℝ Color.g (rectPixels px x y w h)) = 0 := by linarith
      have e3 : Real.sqrt (chanVar ℝ Color.b (rectPixels px x y w h)) = 0 := by linarith
      have hchan : ∀ f : Color → Fin 256,
          Real.sqrt (chanVar ℝ f (rectPixels px x y w h)) = 0 → f p = f q := by
        intro f hf
        have h1 := (hz f).1 hf p hp
        have h2 := (hz f).1 hf q hq
        have h3 : ((f p).val : ℝ) = ((f q).val : ℝ) := by rw [h1, h2]
        exact Fin.ext (by exact_mod_cast h3)
      have hr' := hchan Color.r e1
      have hg' := hchan Color.g e2
      have hb' := hchan Color.b e3
      cases p
      cases q
      simp only [Color.mk.injEq]
      exact ⟨hr', hg', hb'⟩
    · intro hall
      obtain ⟨c, hc⟩ : ∃ c, c ∈ rectPixels px x y w h :=
        List.exists_mem_of_length_pos (Nat.pos_of_ne_zero hne)
      have hu : ∀ p ∈ rectPixels px x y w h, p = c := fun p hp => hall p hp c hc
      have hzero : ∀ f : Color → Fin 256,
          Real.sqrt (chanVar ℝ f (rectPixels px x y w h)) = 0 := by
        intro f
        rw [hz f]
        intro p hp
        rw [chanMean_uniform ℝ f _ c hne hu, hu p hp]
      rw [hzero, hzero, hzero]
      simp

/-- Witness of C6: the whole 3x3 image. -/
theorem calcStdDevRGB_population_sd_witness :
    ((rectPixels grid3 0 0 3 3).length : Int) = 3 * 3 ∧
    calcStdDevRGB (exactOps ℝ Real.sqrt) grid3 0 0 3 3 =
      some ((clampedSd ℝ Real.sqrt Color.r (rectPixels grid3 0 0 3 3) +
             clampedSd ℝ Real.sqrt Color.g (rectPixels grid3 0 0 3 3) +
             clampedSd ℝ Real.sqrt Color.b (rectPixels grid3 0 0 3 3)) / 3) ∧
    ((clampedSd ℝ Real.sqrt Color.r (rectPixels grid3 0 0 3 3) +
        clampedSd ℝ Real.sqrt Color.g (rectPixels grid3 0 0 3 3) +
        clampedSd ℝ Real.sqrt Color.b (rectPixels grid3 0 0 3 3)) / 3 = 0 ↔
      ∀ p ∈ rectPixels grid3 0 0 3 3, ∀ q ∈ rectPixels grid3 0 0 3 3, p = q) :=
  have key := calcStdDevRGB_population_sd grid3 3 3 0 0 3 3 (by decide) (by decide) (by decide)
    (by decide) (by decide)
  ⟨key.2.1, key.2.2.1, key.2.2.2.2⟩

/-! ## Claims on bounds and counters -/

/-- C13: for `W, H ≥ 1` and every `minLeaf` (also `minLeaf ≤ 0`) and threshold, the call
    `buildQT(grid, 0, 0, W, H, ...)` on a grid of `H` rows of `W` pixels returns a tree, and
    every node `(x, y, w, h)` of it has `w ≥ 1`, `h ≥ 1`, `0 ≤ x`, `0 ≤ y`, `x + w ≤ W`,
    `y + h ≤ H`; on it every read `px[j]`, `row[i]` of the loops of `calcStdDevRGB` and
    `averageRGB` is inside the grid, `cnt = w*h` is a representable, non-zero `int` (also
    after conversion to `uint64_t`), and both functions are defined. -/
theorem buildQT_nodes_in_bounds {F : Type} (M : DoubleOps F) (px : Grid) (W H minLeaf : Int)
    (t : F) (s : BuildStats F) (hW : 1 ≤ W) (hH : 1 ≤ H) (hg : GridWF px W H)
    (hWH : W * H ≤ INT_MAX) :
    ∃ r s', buildQT M px 0 0 W H minLeaf t s = some (r, s') ∧
      ∀ m ∈ r.nodes,
        1 ≤ m.rect.2.2.1 ∧ 1 ≤ m.rect.2.2.2 ∧ 0 ≤ m.rect.1 ∧ 0 ≤ m.rect.2.1 ∧
        m.rect.1 + m.rect.2.2.1 ≤ W ∧ m.rect.2.1 + m.rect.2.2.2 ≤ H ∧
        (∀ i j : Int, m.covers i j →
          0 ≤ i ∧ i < W ∧ 0 ≤ j ∧ j < H ∧
          ∃ row, rowAt px j = some row ∧ ∃ c, pixAt row i = some c) ∧
        regionPixels px m.rect.1 m.rect.2.1 m.rect.2.2.1 m.rect.2.2.2 =
          some (rectPixels px m.rect.1 m.rect.2.1 m.rect.2.2.1 m.rect.2.2.2) ∧
        intChecked (m.rect.2.2.1 * m.rect.2.2.2) = some (m.rect.2.2.1 * m.rect.2.2.2) ∧
        m.rect.2.2.1 * m.rect.2.2.2 ≠ 0 ∧
        ((m.rect.2.2.1 * m.rect.2.2.2) % (U64 : Int)).toNat ≠ 0 ∧
        (∃ sd, calcStdDevRGB M px m.rect.1 m.rect.2.1 m.rect.2.2.1 m.rect.2.2.2 = some sd) ∧
        (∃ c, averageRGB px m.rect.1 m.rect.2.1 m.rect.2.2.1 m.rect.2.2.2 = some c) := by
  obtain ⟨r, s', e⟩ := buildQT_total M px W H minLeaf t hg hWH _ 0 0 W H s rfl
    ⟨le_refl _, le_refl _, by omega, by omega⟩ hW hH
  obtain ⟨hB, hrect, -⟩ := buildQT_sound M px minLeaf t _ 0 0 W H s r s' rfl e
  refine ⟨r, s', e, ?_⟩
  intro m hm
  obtain ⟨-, hmw, hmh, a1, a2, a3, a4⟩ := built_nodes hB (by rw [hrect]; exact hW)
    (by rw [hrect]; exact hH) m hm
  rw [hrect] at a1 a2 a3 a4
  dsimp only at a1 a2 a3 a4
  have hin : RectIn W H m.rect.1 m.rect.2.1 m.rect.2.2.1 m.rect.2.2.2 :=
    ⟨by omega, by omega, by omega, by omega⟩
  have harea : m.rect.2.2.1 * m.rect.2.2.2 ≤ INT_MAX :=
    le_trans (area_le_of_rectIn W H _ _ _ _ hin (by omega) (by omega)) hWH
  have hpos : 1 ≤ m.rect.2.2.1 * m.rect.2.2.2 := by nlinarith
  have hI : INT_MAX = 2147483647 := rfl
  have hmod : (m.rect.2.2.1 * m.rect.2.2.2) % (U64 : Int) = m.rect.2.2.1 * m.rect.2.2.2 := by
    apply Int.emod_eq_of_lt (by omega)
    unfold U64
    push_cast
    omega
  refine ⟨hmw, hmh, by omega, by omega, by omega, by omega, ?_,
    regionPixels_eq px W H _ _ _ _ hg hin, intChecked_of_bounds _ (by omega) harea,
    by omega, by rw [hmod]; omega,
    calcStdDevRGB_isSome M px W H _ _ _ _ hg hin (by omega) harea,
    ⟨_, averageRGB_eq px W H _ _ _ _ hg hin hmw hmh harea⟩⟩
  intro i j hc
  obtain ⟨c1, c2, c3, c4⟩ := hc
  have hi0 : 0 ≤ i := by omega
  have hj0 : 0 ≤ j := by omega
  have hiW : i < W := by omega
  have hjH : j < H := by omega
  refine ⟨hi0, hiW, hj0, hjH, ?_⟩
  obtain ⟨hlen, hrows⟩ := hg
  have hjlt : j.toNat < px.length := by omega
  have hrow : rowAt px j = some (px[j.toNat]) := by
    simp [rowAt, hj0, List.getElem?_eq_getElem hjlt]
  have hWr : ((px[j.toNat]).length : Int) = W := hrows _ (List.getElem_mem hjlt)
  have hilt : i.toNat < (px[j.toNat]).length := by omega
  refine ⟨_, hrow, (px[j.toNat])[i.toNat], ?_⟩
  simp [pixAt, hi0, List.getElem?_eq_getElem hilt]

/-- Witness of C13: the 3x3 image with `minLeaf = 0`. -/
theorem buildQT_nodes_in_bounds_witness :
    ∃ r s', buildQT ratOps grid3 0 0 3 3 0 0 (BuildStats.zero ratOps) = some (r, s') ∧
      ∀ m ∈ r.nodes,
        1 ≤ m.rect.2.2.1 ∧ 1 ≤ m.rect.2.2.2 ∧ 0 ≤ m.rect.1 ∧ 0 ≤ m.rect.2.1 ∧
        m.rect.1 + m.rect.2.2.1 ≤ 3 ∧ m.rect.2.1 + m.rect.2.2.2 ≤ 3 ∧
        (∀ i j : Int, m.covers i j →
          0 ≤ i ∧ i < 3 ∧ 0 ≤ j ∧ j < 3 ∧
          ∃ row, rowAt grid3 j = some row ∧ ∃ c, pixAt row i = some c) ∧
        regionPixels grid3 m.rect.1 m.rect.2.1 m.rect.2.2.1 m.rect.2.2.2 =
          some (rectPixels grid3 m.rect.1 m.rect.2.1 m.rect.2.2.1 m.rect.2.2.2) ∧
        intChecked (m.rect.2.2.1 * m.rect.2.2.2) = some (m.rect.2.2.1 * m.rect.2.2.2) ∧
        m.rect.2.2.1 * m.rect.2.2.2 ≠ 0 ∧
        ((m.rect.2.2.1 * m.rect.2.2.2) % (U64 : Int)).toNat ≠ 0 ∧
        (∃ sd, calcStdDevRGB ratOps grid3 m.rect.1 m.rect.2.1 m.rect.2.2.1 m.rect.2.2.2
          = some sd) ∧
        (∃ c, averageRGB grid3 m.rect.1 m.rect.2.1 m.rect.2.2.1 m.rect.2.2.2 = some c) :=
  buildQT_nodes_in_bounds ratOps grid3 3 3 0 0 (BuildStats.zero ratOps) (by decide) (by decide)
    (by decide) (by decide)

theorem built_nodes_leaves {F : Type} {M : DoubleOps F} {px : Grid} {minLeaf : Int} {t : F}
    {r : Node} (hb : Built M px minLeaf t r) :
    3 * r.nodes.length + 1 = 4 * r.leaves.length := by
  induction hb with
  | leaf x y w h avg hstop havg => rw [nodes_leaf, leaves_leaf]; rfl
  | split x y w h c0 c1 c2 c3 hw0 hh0 hsd hw2 hh2 r0 r1 r2 r3 b0 b1 b2 b3 ih0 ih1 ih2 ih3 =>
    rw [nodes_split_length, leaves_split]
    simp only [List.length_append]
    omega

theorem built_leaves_le_area {F : Type} {M : DoubleOps F} {px : Grid} {minLeaf : Int} {t : F}
    {r : Node} (hb : Built M px minLeaf t r) :
    1 ≤ r.rect.2.2.1 → 1 ≤ r.rect.2.2.2 → (r.leaves.length : Int) ≤ r.area := by
  induction hb with
  | leaf x y w h avg hstop havg =>
    intro hw hh
    have e : (Node.node x y w h true avg Node.null Node.null Node.null Node.null).rect =
        (x, y, w, h) := rfl
    rw [leaves_leaf]
    unfold Node.area
    rw [e] at hw hh ⊢
    dsimp only at hw hh ⊢
    simp only [List.length_singleton, Nat.cast_one]
    nlinarith
  | split x y w h c0 c1 c2 c3 hw0 hh0 hsd hw2 hh2 r0 r1 r2 r3 b0 b1 b2 b3 ih0 ih1 ih2 ih3 =>
    intro hw hh
    have e : (Node.node x y w h false Color.zero c0 c1 c2 c3).rect = (x, y, w, h) := rfl
    rw [e] at hw hh
    dsimp only at hw hh
    have ew := tdiv_two_of_nonneg w (by omega)
    have eh := tdiv_two_of_nonneg h (by omega)
    rw [ew] at hw2
    rw [eh] at hh2
    unfold Node.area at ih0 ih1 ih2 ih3 ⊢
    rw [e]
    simp only [r0, r1, r2, r3, ew, eh] at ih0 ih1 ih2 ih3
    have l0 := ih0 (by omega) (by omega)
    have l1 := ih1 (by omega) (by omega)
    have l2 := ih2 (by omega) (by omega)
    have l3 := ih3 (by omega) (by omega)
    rw [leaves_split]
    simp only [List.length_append, Nat.cast_add]
    have hsum : w / 2 * (h / 2) + (w - w / 2) * (h / 2) + w / 2 * (h - h / 2) +
        (w - w / 2) * (h - h / 2) = w * h := by ring
    omega

/-- C14: a call of `buildQT` on a root rectangle with `w, h ≥ 1` inside the grid adds the
    number of nodes of the returned tree to `stats.nodes` and the number of its leaves to
    `stats.leaves` (`size_t` arithmetic, which is ordinary addition as long as the sum is
    below `2^64`) and leaves `stats.ms` unchanged; the tree has fewer than `2^64` nodes, so
    after the reset of `rebuild` the counters are exactly the node and leaf counts. -/
theorem buildQT_stats_count {F : Type} (M : DoubleOps F) (px : Grid)
    (W H x y w h minLeaf : Int) (t : F) (s : BuildStats F)
    (hg : GridWF px W H) (hr : RectIn W H x y w h) (hWH : W * H ≤ INT_MAX)
    (hw : 1 ≤ w) (hh : 1 ≤ h) :
    ∃ r s', buildQT M px x y w h minLeaf t s = some (r, s') ∧
      s'.nodes = (s.nodes + r.nodes.length) % U64 ∧
      s'.leaves = (s.leaves + r.leaves.length) % U64 ∧
      s'.ms = s.ms ∧
      (s.nodes + r.nodes.length < U64 → s'.nodes = s.nodes + r.nodes.length) ∧
      (s.leaves + r.leaves.length < U64 → s'.leaves = s.leaves + r.leaves.length) ∧
      r.leaves.length ≤ r.nodes.length ∧ r.nodes.length < U64 ∧
      buildQT M px x y w h minLeaf t (BuildStats.zero M) =
        some (r, { nodes := r.nodes.length, leaves := r.leaves.length, ms := M.ofInt 0 }) := by
  obtain ⟨r, s', e⟩ := buildQT_total M px W H minLeaf t hg hWH _ x y w h s rfl hr hw hh
  obtain ⟨hB, hrect, hn, hl, hms⟩ := buildQT_sound M px minLeaf t _ x y w h s r s' rfl e
  have hcount := built_nodes_leaves hB
  have harea := built_leaves_le_area hB (by rw [hrect]; exact hw) (by rw [hrect]; exact hh)
  have hbound : r.area ≤ INT_MAX := by
    unfold Node.area
    rw [hrect]
    exact le_trans (area_le_of_rectIn W H x y w h hr (by omega) (by omega)) hWH
  have hI : INT_MAX = 2147483647 := rfl
  have hU : U64 = 18446744073709551616 := by unfold U64; norm_num
  have hleN : r.leaves.length ≤ 2147483647 := by omega
  have hlt : r.nodes.length < U64 := by omega
  have hll : r.leaves.length < U64 := by omega
  refine ⟨r, s', e, hn, hl, hms, fun h1 => by rw [hn, Nat.mod_eq_of_lt h1],
    fun h1 => by rw [hl, Nat.mod_eq_of_lt h1], by omega, hlt, ?_⟩
  have hz := buildQT_complete M px minLeaf t r hB (BuildStats.zero M)
  rw [hrect] at hz
  rw [hz]
  simp only [BuildStats.zero, Nat.zero_add, Nat.mod_eq_of_lt hlt, Nat.mod_eq_of_lt hll]

/-- Witness of C14: the checkerboard with `minLeaf = 8`, threshold 0, counters starting
    at 10 and 20. -/
theorem buildQT_stats_count_witness :
    ∃ r s', buildQT ratOps checkerboard 0 0 64 64 8 (ratOps.ofInt 0)
        { nodes := 10, leaves := 20, ms := 5 } = some (r, s') ∧
      s'.nodes = (10 + r.nodes.length) % U64 ∧
      s'.leaves = (20 + r.leaves.length) % U64 ∧
      s'.ms = 5 ∧
      (10 + r.nodes.length < U64 → s'.nodes = 10 + r.nodes.length) ∧
      (20 + r.leaves.length < U64 → s'.leaves = 20 + r.leaves.length) ∧
      r.leaves.length ≤ r.nodes.length ∧ r.nodes.length < U64 ∧
      buildQT ratOps checkerboard 0 0 64 64 8 (ratOps.ofInt 0) (BuildStats.zero ratOps) =
        some (r, { nodes := r.nodes.length, leaves := r.leaves.length,
                   ms := ratOps.ofInt 0 }) :=
  buildQT_stats_count ratOps checkerboard 64 64 0 0 64 64 8 (ratOps.ofInt 0)
    { nodes := 10, leaves := 20, ms := 5 } checkerboard_wf (by decide) (by decide)
    (by decide) (by decide)

/-! ## Zero-area rectangles -/

theorem averageRGB_zero_area (px : Grid) (x y w h : Int) (hz : w * h = 0) :
    averageRGB px x y w h = none := by
  unfold averageRGB
  rw [hz]
  have h0 : intChecked 0 = some 0 := by decide
  rw [h0]
  cases regionPixels px x y w h with
  | none => rfl
  | some ps => simp

theorem leafNode_zero_area {F : Type} (px : Grid) (x y w h : Int) (s : BuildStats F)
    (hz : w * h = 0) : leafNode px x y w h s = none := by
  unfold leafNode
  rw [averageRGB_zero_area px x y w h hz]

/-- On a rectangle with `w = 0` or `h = 0` every path of `buildQT` ends in the division by
    `cnt = 0` of `averageRGB`. -/
theorem buildQT_zero_area {F : Type} (M : DoubleOps F) (px : Grid) (x y w h minLeaf : Int)
    (t : F) (s : BuildStats F) (hz : w = 0 ∨ h = 0) :
    buildQT M px x y w h minLeaf t s = none := by
  have harea : w * h = 0 := by
    rcases hz with h1 | h1
    · rw [h1, Int.zero_mul]
    · rw [h1, Int.mul_zero]
  have hdiv : w.tdiv 2 = 0 ∨ h.tdiv 2 = 0 := by
    rcases hz with h1 | h1
    · left; rw [h1]; rfl
    · right; rw [h1]; rfl
  by_cases hc : w ≤ minLeaf ∨ h ≤ minLeaf
  · rw [buildQT_small M px x y w h minLeaf t s hc]
    exact leafNode_zero_area px x y w h _ harea
  · cases hsd : calcStdDevRGB M px x y w h with
    | none =>
      rw [buildQT, if_neg hc]
      simp only [hsd]
    | some sd =>
      rw [buildQT_stop M px x y w h minLeaf t s sd hsd (Or.inr hdiv)]
      exact leafNode_zero_area px x y w h _ harea

theorem built_area_ne_zero {F : Type} {M : DoubleOps F} {px : Grid} {minLeaf : Int} {t : F}
    {m : Node} (hb : Built M px minLeaf t m) : m.area ≠ 0 := by
  cases hb with
  | leaf x y w h avg hstop havg =>
    intro hz
    have : averageRGB px x y w h = none := averageRGB_zero_area px x y w h hz
    rw [this] at havg
    exact absurd havg (by simp)
  | split x y w h c0 c1 c2 c3 hw0 hh0 hsd hw2 hh2 r0 r1 r2 r3 b0 b1 b2 b3 =>
    intro hz
    have hz' : w * h = 0 := hz
    rcases Int.mul_eq_zero.1 hz' with h1 | h1
    · exact hw2 (by rw [h1]; rfl)
    · exact hh2 (by rw [h1]; rfl)

/-! ## The second guard of buildQT -/

theorem guard_dead (minLeaf w h : Int) (hmin : 1 ≤ minLeaf)
    (hc : ¬ (w ≤ minLeaf ∨ h ≤ minLeaf)) :
    1 ≤ w.tdiv 2 ∧ 1 ≤ h.tdiv 2 ∧ ¬ (w.tdiv 2 = 0 ∨ h.tdiv 2 = 0) := by
  have hw : 2 ≤ w := by omega
  have hh : 2 ≤ h := by omega
  rw [tdiv_two_of_nonneg w (by omega), tdiv_two_of_nonneg h (by omega)]
  omega

/-- With `minLeaf ≥ 1` and enough fuel the variant without the second guard computes what
    `buildQT` computes. -/
theorem buildQTNoGuard_eq {F : Type} (M : DoubleOps F) (px : Grid) (minLeaf : Int) (t : F)
    (hmin : 1 ≤ minLeaf) (n : Nat) :
    ∀ (fuel : Nat) (x y w h : Int) (s : BuildStats F), w.natAbs = n → n < fuel →
      buildQTNoGuard M px minLeaf t fuel x y w h s = buildQT M px x y w h minLeaf t s := by
  induction n using Nat.strong_induction_on with
  | _ n ih =>
    intro fuel x y w h s hn hfuel
    cases fuel with
    | zero => omega
    | succ f =>
      by_cases hc : w ≤ minLeaf ∨ h ≤ minLeaf
      · rw [buildQT_small M px x y w h minLeaf t s hc]
        simp only [buildQTNoGuard, if_pos hc]
      · cases hsd : calcStdDevRGB M px x y w h with
        | none =>
          rw [buildQT, if_neg hc]
          simp only [buildQTNoGuard, if_neg hc, hsd]
        | some sd =>
          by_cases hle : M.le sd t = true
          · rw [buildQT_stop M px x y w h minLeaf t s sd hsd (Or.inl hle)]
            simp only [buildQTNoGuard, if_neg hc, hsd, if_pos hle]
          · obtain ⟨h1, h2, hz⟩ := guard_dead minLeaf w h hmin hc
            have hw2 : 2 ≤ w := by omega
            have ew := tdiv_two_of_nonneg w (by omega)
            have hlt1 : (w.tdiv 2).natAbs < n := by rw [ew]; omega
            have hlt2 : (w - w.tdiv 2).natAbs < n := by rw [ew]; omega
            rw [buildQT, if_neg hc]
            simp only [buildQTNoGuard, if_neg hc, hsd, if_neg hle, dif_neg hz]
            rw [ih _ hlt1 f x y (w.tdiv 2) (h.tdiv 2) _ rfl (by omega)]
            cases buildQT M px x y (w.tdiv 2) (h.tdiv 2) minLeaf t
                { s with nodes := (s.nodes + 1) % U64 } with
            | none => rfl
            | some p0 =>
              obtain ⟨c0, s0⟩ := p0
              simp only
              rw [ih _ hlt2 f (x + w.tdiv 2) y (w - w.tdiv 2) (h.tdiv 2) s0 rfl (by omega)]
              cases buildQT M px (x + w.tdiv 2) y (w - w.tdiv 2) (h.tdiv 2) minLeaf t s0 with
              | none => rfl
              | some p1 =>
                obtain ⟨c1, s1⟩ := p1
                simp only
                rw [ih _ hlt1 f x (y + h.tdiv 2) (w.tdiv 2) (h - h.tdiv 2) s1 rfl (by omega)]
                cases buildQT M px x (y + h.tdiv 2) (w.tdiv 2) (h - h.tdiv 2) minLeaf t s1 with
                | none => rfl
                | some p2 =>
                  obtain ⟨c2, s2⟩ := p2
                  simp only
                  rw [ih _ hlt2 f (x + w.tdiv 2) (y + h.tdiv 2) (w - w.tdiv 2)
                    (h - h.tdiv 2) s2 rfl (by omega)]

theorem one_le_leafFromIdx (idx : Int) : 1 ≤ leafFromIdx idx := by
  unfold leafFromIdx
  have hpos : (0 : Int) <
      2 ^ (if idx < 0 then (0 : Int) else if 8 < idx then 8 else idx).toNat := by positivity
  omega

/-! ## Exact arithmetic: a score at most 0 means one colour -/

theorem chanSd_exactOps (F : Type) [LinearOrderedField F] (sq : F → F) (f : Color → Fin 256)
    (ps : List Color) (n : Int) (hn : (ps.length : Int) = n) :
    chanSd (exactOps F sq)
      ((exactOps F sq).ofInt 0 + (((ps.map (fun c => (f c).val)).sum : Nat) : F))
      ((exactOps F sq).ofInt 0 +
        (((ps.map (fun c => (f c).val * (f c).val)).sum : Nat) : F))
      ((exactOps F sq).ofInt n) = clampedSd F sq f ps := by
  have hcast : ((n : Int) : F) = (ps.length : F) := by
    rw [← hn]
    simp
  unfold chanSd clampedSd
  rw [clamp0_exactOps]
  simp only [exactOps, Int.cast_zero, zero_add, hcast]
  unfold chanSq chanSum
  rw [pow_two]

/-- The value of `calcStdDevRGB` in the exact arithmetic of an ordered field. -/
theorem calcStdDevRGB_exactOps (F : Type) [LinearOrderedField F] (sq : F → F) (px : Grid)
    (W H x y w h : Int) (hg : GridWF px W H) (hr : RectIn W H x y w h) (hw : 1 ≤ w)
    (hh : 1 ≤ h) (harea : w * h ≤ INT_MAX) :
    calcStdDevRGB (exactOps F sq) px x y w h =
      some ((clampedSd F sq Color.r (rectPixels px x y w h) +
             clampedSd F sq Color.g (rectPixels px x y w h) +
             clampedSd F sq Color.b (rectPixels px x y w h)) / 3) := by
  have hpos : 1 ≤ w * h := by nlinarith
  have hlen := length_rectPixels px x y w h (by omega) (by omega)
  unfold calcStdDevRGB
  rw [intChecked_of_bounds _ (by omega) harea, regionPixels_eq px W H x y w h hg hr]
  simp only [foldl_sdStep_fields, sdInit]
  rw [foldl_add_exactOps F sq (fun c => c.r.val),
    foldl_add_exactOps F sq (fun c => c.g.val),
    foldl_add_exactOps F sq (fun c => c.b.val),
    foldl_addsq_exactOps F sq (fun c => c.r.val),
    foldl_addsq_exactOps F sq (fun c => c.g.val),
    foldl_addsq_exactOps F sq (fun c => c.b.val),
    chanSd_exactOps F sq Color.r _ _ hlen, chanSd_exactOps F sq Color.g _ _ hlen,
    chanSd_exactOps F sq Color.b _ _ hlen]
  simp [exactOps]

theorem clampedSd_eq_zero (F : Type) [LinearOrderedField F] (sq : F → F)
    (hpos : ∀ v : F, 0 < v → 0 < sq v) (f : Color → Fin 256) (ps : List Color)
    (hne : ps.length ≠ 0) (hz : clampedSd F sq f ps = 0) :
    ∀ p ∈ ps, ((f p).val : F) = chanMean F f ps := by
  unfold clampedSd at hz
  rw [var_identity F f ps hne, max_eq_right (chanVar_nonneg F f ps)] at hz
  have hv : chanVar F f ps = 0 := by
    rcases lt_or_eq_of_le (chanVar_nonneg F f ps) with h1 | h1
    · have := hpos _ h1
      rw [hz] at this
      exact absurd this (lt_irrefl _)
    · exact h1.symm
  exact (chanVar_eq_zero F f ps hne).1 hv

/-- In exact arithmetic with a square root that is non-negative and positive on positive
    arguments, a score `≤ 0` is only obtained on a rectangle of one colour. -/
theorem exactOps_zero_score_uniform (F : Type) [LinearOrderedField F] (sq : F → F)
    (hnn : ∀ v : F, 0 ≤ sq v) (hpos : ∀ v : F, 0 < v → 0 < sq v) (px : Grid)
    (W H x y w h : Int) (hg : GridWF px W H) (hr : RectIn W H x y w h) (hw : 1 ≤ w)
    (hh : 1 ≤ h) (harea : w * h ≤ INT_MAX) (sd : F)
    (hsd : calcStdDevRGB (exactOps F sq) px x y w h = some sd)
    (hle : (exactOps F sq).le sd ((exactOps F sq).ofInt 0) = true) :
    ∀ p ∈ rectPixels px x y w h, ∀ q ∈ rectPixels px x y w h, p = q := by
  have hposA : 1 ≤ w * h := by nlinarith
  have hlen := length_rectPixels px x y w h (by omega) (by omega)
  have hne : (rectPixels px x y w h).length ≠ 0 := by omega
  rw [calcStdDevRGB_exactOps F sq px W H x y w h hg hr hw hh harea] at hsd
  simp only [Option.some.injEq] at hsd
  have hle' : sd ≤ 0 := by
    simpa [exactOps] using hle
  have n1 : 0 ≤ clampedSd F sq Color.r (rectPixels px x y w h) := hnn _
  have n2 : 0 ≤ clampedSd F sq Color.g (rectPixels px x y w h) := hnn _
  have n3 : 0 ≤ clampedSd F sq Color.b (rectPixels px x y w h) := hnn _
  have hsum : clampedSd F sq Color.r (rectPixels px x y w h) +
      clampedSd F sq Color.g (rectPixels px x y w h) +
      clampedSd F sq Color.b (rectPixels px x y w h) ≤ 0 := by
    have h3 : (0 : F) < 3 := by norm_num
    have := (div_le_iff₀ h3).1 (hsd ▸ hle')
    simpa using this
  have e1 : clampedSd F sq Color.r (rectPixels px x y w h) = 0 := by linarith
  have e2 : clampedSd F sq Color.g (rectPixels px x y w h) = 0 := by linarith
  have e3 : clampedSd F sq Color.b (rectPixels px x y w h) = 0 := by linarith
  intro p hp q hq
  have hchan : ∀ f : Color → Fin 256,
      clampedSd F sq f (rectPixels px x y w h) = 0 → f p = f q := by
    intro f hf
    have hm := clampedSd_eq_zero F sq hpos f _ hne hf
    have h3 : ((f p).val : F) = ((f q).val : F) := by rw [hm p hp, hm q hq]
    exact Fin.ext (by exact_mod_cast h3)
  have hr' := hchan Color.r e1
  have hg' := hchan Color.g e2
  have hb' := hchan Color.b e3
  cases p
  cases q
  simp only [Color.mk.injEq]
  exact ⟨hr', hg', hb'⟩

theorem ratSqrt_nonneg (q : ℚ) : 0 ≤ ratSqrt q := by
  unfold ratSqrt
  exact div_nonneg (Nat.cast_nonneg _) (Nat.cast_nonneg _)

theorem ratSqrt_pos (q : ℚ) (hq : 0 < q) : 0 < ratSqrt q := by
  unfold ratSqrt
  have hnum : 0 < q.num := Rat.num_pos.2 hq
  have hden : 0 < q.den := q.den_pos
  have h1 : 0 < q.num.toNat * q.den := Nat.mul_pos (by omega) hden
  have h2 : 0 < Nat.sqrt (q.num.toNat * q.den) := Nat.sqrt_pos.2 h1
  exact div_pos (by exact_mod_cast h2) (by exact_mod_cast hden)

/-- In rational arithmetic a rectangle that holds two different colours has a score that
    is not `≤ 0`. -/
theorem ratOps_score_of_two_colours (px : Grid) (W H x y w h : Int) (hg : GridWF px W H)
    (hr : RectIn W H x y w h) (hw : 1 ≤ w) (hh : 1 ≤ h) (harea : w * h ≤ INT_MAX)
    (p q : Color) (hp : p ∈ rectPixels px x y w h) (hq : q ∈ rectPixels px x y w h)
    (hpq : p ≠ q) :
    ∃ sd, calcStdDevRGB ratOps px x y w h = some sd ∧ ratOps.le sd (ratOps.ofInt 0) = false := by
  obtain ⟨sd, hsd⟩ := calcStdDevRGB_isSome ratOps px W H x y w h hg hr (by nlinarith) harea
  refine ⟨sd, hsd, ?_⟩
  cases hle : ratOps.le sd (ratOps.ofInt 0) with
  | false => rfl
  | true =>
    exact absurd (exactOps_zero_score_uniform ℚ ratSqrt ratSqrt_nonneg ratSqrt_pos px W H x y w h
      hg hr hw hh harea sd hsd hle p hp q hq) hpq

/-! ## Depth of the tree -/

theorem depths_map_snd (r : Node) : r.depths.map Prod.snd = r.nodes := by
  induction r with
  | null => rfl
  | node x y w h leaf avg c0 c1 c2 c3 ih0 ih1 ih2 ih3 =>
    simp only [Node.depths, Node.nodes, List.map_cons, List.map_map, List.map_append]
    have e : (Prod.snd ∘ fun p : Nat × Node => (p.1 + 1, p.2)) = Prod.snd := by
      funext p; rfl
    rw [e, ih0, ih1, ih2, ih3]

theorem depths_leaf (x y w h : Int) (avg : Color) :
    (Node.node x y w h true avg Node.null Node.null Node.null Node.null).depths =
      [(0, Node.node x y w h true avg Node.null Node.null Node.null Node.null)] := by
  simp [Node.depths]

theorem mem_depths_succ (x y w h : Int) (leaf : Bool) (avg : Color) (c0 c1 c2 c3 m : Node)
    (d : Nat) (hm : (d + 1, m) ∈ (Node.node x y w h leaf avg c0 c1 c2 c3).depths) :
    (d, m) ∈ c0.depths ∨ (d, m) ∈ c1.depths ∨ (d, m) ∈ c2.depths ∨ (d, m) ∈ c3.depths := by
  simp only [Node.depths, List.mem_cons, Prod.mk.injEq, List.mem_map, List.mem_append,
    Prod.exists] at hm
  rcases hm with ⟨h0, -⟩ | ⟨d', m', hmem, hd, hm'⟩
  · omega
  · have hd' : d' = d := by omega
    subst hd' hm'
    rcases hmem with ((h1 | h1) | h1) | h1
    · exact Or.inl h1
    · exact Or.inr (Or.inl h1)
    · exact Or.inr (Or.inr (Or.inl h1))
    · exact Or.inr (Or.inr (Or.inr h1))

/-- Below the root, `2^(depth-1) * minLeaf` stays under both sides of the root rectangle:
    a node at depth `d + 1` has a parent chain of `d + 1` nodes that all passed the test
    `w > minLeaf && h > minLeaf`, and each split at least halves (rounding up). -/
theorem built_depth_bound {F : Type} {M : DoubleOps F} {px : Grid} {minLeaf : Int} {t : F}
    {r : Node} (hb : Built M px minLeaf t r) :
    1 ≤ r.rect.2.2.1 → 1 ≤ r.rect.2.2.2 → ∀ (d : Nat) (m : Node), (d + 1, m) ∈ r.depths →
      2 ^ d * minLeaf < r.rect.2.2.1 ∧ 2 ^ d * minLeaf < r.rect.2.2.2 := by
  induction hb with
  | leaf x y w h avg hstop havg =>
    intro _ _ d m hm
    rw [depths_leaf] at hm
    simp at hm
  | split x y w h c0 c1 c2 c3 hw0 hh0 hsd hw2 hh2 r0 r1 r2 r3 b0 b1 b2 b3 ih0 ih1 ih2 ih3 =>
    intro hw hh d m hm
    have e : (Node.node x y w h false Color.zero c0 c1 c2 c3).rect = (x, y, w, h) := rfl
    rw [e] at hw hh ⊢
    dsimp only at hw hh ⊢
    have ew := tdiv_two_of_nonneg w (by omega)
    have eh := tdiv_two_of_nonneg h (by omega)
    rw [ew] at hw2
    rw [eh] at hh2
    simp only [r0, r1, r2, r3, ew, eh] at ih0 ih1 ih2 ih3
    cases d with
    | zero =>
      simp only [pow_zero, one_mul]
      exact ⟨hw0, hh0⟩
    | succ d' =>
      have hpow : (2 : Int) ^ (d' + 1) * minLeaf = 2 * (2 ^ d' * minLeaf) := by ring
      rw [hpow]
      rcases mem_depths_succ x y w h false Color.zero c0 c1 c2 c3 m (d' + 1) hm with
        h1 | h1 | h1 | h1
      · have := ih0 (by omega) (by omega) d' m h1
        omega
      · have := ih1 (by omega) (by omega) d' m h1
        omega
      · have := ih2 (by omega) (by omega) d' m h1
        omega
      · have := ih3 (by omega) (by omega) d' m h1
        omega

theorem grid3_wf : GridWF grid3 3 3 := by decide

theorem built_tree3 : Built ratOps grid3 1 (ratOps.ofInt 0) tree3 := by
  unfold tree3 mkLeaf
  refine Built.split 0 0 3 3 _ _ _ _ (by decide) (by decide)
    (ratOps_score_of_two_colours grid3 3 3 0 0 3 3 grid3_wf (by decide) (by decide) (by decide)
      (by decide) ⟨1, 2, 3⟩ ⟨5, 6, 7⟩ (by decide) (by decide) (by decide))
    (by decide) (by decide) ?_ ?_ ?_ ?_ ?_ ?_ ?_ ?_
  · rfl
  · rfl
  · rfl
  · rfl
  · exact Built.leaf 0 0 1 1 _ (Or.inl (by decide)) (by decide)
  · exact Built.leaf 1 0 2 1 _ (Or.inr (Or.inl (by decide))) (by decide)
  · exact Built.leaf 0 1 1 2 _ (Or.inl (by decide)) (by decide)
  · refine Built.split 1 1 2 2 _ _ _ _ (by decide) (by decide)
      (ratOps_score_of_two_colours grid3 3 3 1 1 2 2 grid3_wf (by decide) (by decide)
        (by decide) (by decide) ⟨50, 60, 70⟩ ⟨9, 9, 9⟩ (by decide) (by decide) (by decide))
      (by decide) (by decide) ?_ ?_ ?_ ?_ ?_ ?_ ?_ ?_
    · rfl
    · rfl
    · rfl
    · rfl
    · exact Built.leaf 1 1 1 1 _ (Or.inl (by decide)) (by decide)
    · exact Built.leaf 2 1 1 1 _ (Or.inl (by decide)) (by decide)
    · exact Built.leaf 1 2 1 1 _ (Or.inl (by decide)) (by decide)
    · exact Built.leaf 2 2 1 1 _ (Or.inl (by decide)) (by decide)

/-- The run of `buildQT` on the 3x3 image with `minLeaf = 1`, threshold 0. -/
theorem buildQT_grid3_eq (s : BuildStats ℚ) :
    buildQT ratOps grid3 0 0 3 3 1 (ratOps.ofInt 0) s =
      some (tree3, { nodes := (s.nodes + 9) % U64, leaves := (s.leaves + 7) % U64,
                     ms := s.ms }) := by
  have hrun := buildQT_complete ratOps grid3 1 (ratOps.ofInt 0) tree3 built_tree3 s
  have hn : tree3.nodes.length = 9 := by decide
  have hl : tree3.leaves.length = 7 := by decide
  rw [hn, hl] at hrun
  exact hrun

/-- Counterexample to C11: in the tree of the 3x3 image for `minLeaf = 1` and threshold 0
    the single-pixel leaf at `(1, 1)` lies at depth 2, and `2^2 * 1 = 4` exceeds
    `max(3, 3) = 3`. -/
theorem buildQT_depth_exceeds_log :
    buildQT ratOps grid3 0 0 3 3 1 (ratOps.ofInt 0) (BuildStats.zero ratOps) =
      some (tree3, { nodes := 9, leaves := 7, ms := ratOps.ofInt 0 }) ∧
    (2, mkLeaf 1 1 1 1 ⟨50, 60, 70⟩) ∈ tree3.depths ∧
    ¬ ((2 : Int) ^ 2 * 1 ≤ max 3 3) := by
  refine ⟨?_, by decide, by decide⟩
  rw [buildQT_grid3_eq]
  rfl

/-- C11 (amended): for a grid of `width` by `height` pixels (both `≥ 1`), every `minLeaf`
    and every threshold, the call `buildQT(grid, 0, 0, width, height, ...)` returns a tree
    in which every node at a depth `d + 1` below the root satisfies
    `2^d * minLeaf < min(width, height)`, hence `2^(d+1) * minLeaf < 2 * max(width, height)`;
    the root itself (depth 0) exists whatever `minLeaf` is.  The list `depths` pairs every
    node of the tree with its depth. -/
theorem buildQT_depth_bound {F : Type} (M : DoubleOps F) (px : Grid) (W H minLeaf : Int)
    (t : F) (s : BuildStats F) (hW : 1 ≤ W) (hH : 1 ≤ H) (hg : GridWF px W H)
    (hWH : W * H ≤ INT_MAX) :
    ∃ r s', buildQT M px 0 0 W H minLeaf t s = some (r, s') ∧
      r.depths.map Prod.snd = r.nodes ∧
      (0, r) ∈ r.depths ∧
      ∀ (d : Nat) (m : Node), (d + 1, m) ∈ r.depths →
        2 ^ d * minLeaf < min W H ∧ 2 ^ (d + 1) * minLeaf < 2 * max W H := by
  obtain ⟨r, s', e⟩ := buildQT_total M px W H minLeaf t hg hWH _ 0 0 W H s rfl
    ⟨le_refl _, le_refl _, by omega, by omega⟩ hW hH
  obtain ⟨hB, hrect, -⟩ := buildQT_sound M px minLeaf t _ 0 0 W H s r s' rfl e
  refine ⟨r, s', e, depths_map_snd r, ?_, ?_⟩
  · cases hB <;> simp [Node.depths]
  · intro d m hm
    have hb := built_depth_bound hB (by rw [hrect]; exact hW) (by rw [hrect]; exact hH) d m hm
    rw [hrect] at hb
    dsimp only at hb
    have hpow : (2 : Int) ^ (d + 1) * minLeaf = 2 * (2 ^ d * minLeaf) := by ring
    rw [hpow]
    constructor
    · exact lt_min hb.1 hb.2
    · have : W ≤ max W H := le_max_left W H
      omega

/-- Witness of C11 (amended): the 3x3 image, `minLeaf = 1`, threshold 0. -/
theorem buildQT_depth_bound_witness :
    ∃ r s', buildQT ratOps grid3 0 0 3 3 1 (ratOps.ofInt 0) (BuildStats.zero ratOps)
        = some (r, s') ∧
      r.depths.map Prod.snd = r.nodes ∧
      (0, r) ∈ r.depths ∧
      ∀ (d : Nat) (m : Node), (d + 1, m) ∈ r.depths →
        2 ^ d * (1 : Int) < min 3 3 ∧ 2 ^ (d + 1) * (1 : Int) < 2 * max 3 3 :=
  buildQT_depth_bound ratOps grid3 3 3 1 (ratOps.ofInt 0) (BuildStats.zero ratOps) (by decide)
    (by decide) grid3_wf (by decide)

/-! ## Zero-area rectangles on a machine whose division by zero delivers a quotient -/

theorem averageRGBDz_eq_of_pos (dz : Nat → Nat) (px : Grid) (x y w h : Int) (hw : 1 ≤ w)
    (hh : 1 ≤ h) : averageRGBDz dz px x y w h = averageRGB px x y w h := by
  unfold averageRGBDz averageRGB
  cases hc : intChecked (w * h) with
  | none => rfl
  | some cnt =>
    simp only []
    cases hp : regionPixels px x y w h with
    | none => rfl
    | some ps =>
      simp only []
      have hcnt : cnt = w * h ∧ w * h ≤ INT_MAX := by
        unfold intChecked at hc
        split at hc
        · rename_i hb
          simp only [Option.some.injEq] at hc
          exact ⟨hc.symm, hb.2⟩
        · exact absurd hc (by simp)
      have hpos : 1 ≤ w * h := by nlinarith
      have hI : INT_MAX = 2147483647 := rfl
      have hd : (cnt % (U64 : Int)).toNat ≠ 0 := by
        have hmod : cnt % (U64 : Int) = cnt := by
          apply Int.emod_eq_of_lt (by omega)
          unfold U64
          push_cast
          omega
        rw [hmod]
        omega
      rw [if_neg hd, if_neg hd]

theorem leafNodeDz_eq_of_pos {F : Type} (dz : Nat → Nat) (px : Grid) (x y w h : Int)
    (s : BuildStats F) (hw : 1 ≤ w) (hh : 1 ≤ h) :
    leafNodeDz dz px x y w h s = leafNode px x y w h s := by
  have e := averageRGBDz_eq_of_pos dz px x y w h hw hh
  unfold leafNodeDz leafNode
  cases ha : averageRGB px x y w h with
  | none => rw [e, ha]
  | some c => rw [e, ha]

/-- On every rectangle with `w, h ≥ 1` the machine reading of `buildQT` is `buildQT`: no
    division by zero is reached. -/
theorem buildQTDz_eq_of_pos {F : Type} (dz : Nat → Nat) (M : DoubleOps F) (px : Grid)
    (minLeaf : Int) (t : F) (n : Nat) :
    ∀ (x y w h : Int) (s : BuildStats F), w.natAbs = n → 1 ≤ w → 1 ≤ h →
      buildQTDz dz M px x y w h minLeaf t s = buildQT M px x y w h minLeaf t s := by
  induction n using Nat.strong_induction_on with
  | _ n ih =>
    intro x y w h s hn hw hh
    by_cases hc : w ≤ minLeaf ∨ h ≤ minLeaf
    · rw [buildQT_small M px x y w h minLeaf t s hc, buildQTDz, if_pos hc]
      exact leafNodeDz_eq_of_pos dz px x y w h _ hw hh
    · cases hsd : calcStdDevRGB M px x y w h with
      | none =>
        rw [buildQT, if_neg hc, buildQTDz, if_neg hc]
        simp only [hsd]
      | some sd =>
        by_cases hle : M.le sd t = true
        · rw [buildQT_stop M px x y w h minLeaf t s sd hsd (Or.inl hle), buildQTDz, if_neg hc]
          simp only [hsd, if_pos hle]
          exact leafNodeDz_eq_of_pos dz px x y w h _ hw hh
        · by_cases hz : w.tdiv 2 = 0 ∨ h.tdiv 2 = 0
          · rw [buildQT_stop M px x y w h minLeaf t s sd hsd (Or.inr hz), buildQTDz, if_neg hc]
            simp only [hsd, if_neg hle, dif_pos hz]
            exact leafNodeDz_eq_of_pos dz px x y w h _ hw hh
          · have ew := tdiv_two_of_nonneg w (by omega)
            have eh := tdiv_two_of_nonneg h (by omega)
            have hw2 : 1 ≤ w.tdiv 2 := by
              have : w.tdiv 2 ≠ 0 := fun e => hz (Or.inl e)
              rw [ew] at this ⊢
              omega
            have hh2 : 1 ≤ h.tdiv 2 := by
              have : h.tdiv 2 ≠ 0 := fun e => hz (Or.inr e)
              rw [eh] at this ⊢
              omega
            have hw3 : 1 ≤ w - w.tdiv 2 := by rw [ew] at hw2 ⊢; omega
            have hh3 : 1 ≤ h - h.tdiv 2 := by rw [eh] at hh2 ⊢; omega
            have hlt1 : (w.tdiv 2).natAbs < n := by rw [ew] at hw2 ⊢; omega
            have hlt2 : (w - w.tdiv 2).natAbs < n := by rw [ew] at hw2 ⊢; omega
            rw [buildQT, if_neg hc, buildQTDz, if_neg hc]
            simp only [hsd, if_neg hle, dif_neg hz]
            rw [ih _ hlt1 x y (w.tdiv 2) (h.tdiv 2) _ rfl hw2 hh2]
            cases buildQT M px x y (w.tdiv 2) (h.tdiv 2) minLeaf t
                { s with nodes := (s.nodes + 1) % U64 } with
            | none => rfl
            | some p0 =>
              obtain ⟨c0, s0⟩ := p0
              simp only
              rw [ih _ hlt2 (x + w.tdiv 2) y (w - w.tdiv 2) (h.tdiv 2) s0 rfl hw3 hh2]
              cases buildQT M px (x + w.tdiv 2) y (w - w.tdiv 2) (h.tdiv 2) minLeaf t s0 with
              | none => rfl
              | some p1 =>
                obtain ⟨c1, s1⟩ := p1
                simp only
                rw [ih _ hlt1 x (y + h.tdiv 2) (w.tdiv 2) (h - h.tdiv 2) s1 rfl hw2 hh3]
                cases buildQT M px x (y + h.tdiv 2) (w.tdiv 2) (h - h.tdiv 2) minLeaf t s1 with
                | none => rfl
                | some p2 =>
                  obtain ⟨c2, s2⟩ := p2
                  simp only
                  have e3 := ih _ hlt2 (x + w.tdiv 2) (y + h.tdiv 2) (w - w.tdiv 2)
                    (h - h.tdiv 2) s2 rfl hw3 hh3
                  cases h3 : buildQT M px (x + w.tdiv 2) (y + h.tdiv 2) (w - w.tdiv 2)
                      (h - h.tdiv 2) minLeaf t s2 with
                  | none => rw [e3, h3]
                  | some p3 => rw [e3, h3]

theorem averageRGBDz_zero_area (dz : Nat → Nat) (px : Grid) (W H x y w h : Int)
    (hg : GridWF px W H) (hr : RectIn W H x y w h) (hw : 0 ≤ w) (hh : 0 ≤ h)
    (hz : w = 0 ∨ h = 0) :
    averageRGBDz dz px x y w h = some ⟨toU8 (dz 0), toU8 (dz 0), toU8 (dz 0)⟩ := by
  have harea : w * h = 0 := by
    rcases hz with h1 | h1
    · rw [h1, Int.zero_mul]
    · rw [h1, Int.mul_zero]
  have hlen := length_rectPixels px x y w h hw hh
  rw [harea] at hlen
  have hnil : rectPixels px x y w h = [] := List.length_eq_zero.1 (by omega)
  unfold averageRGBDz
  rw [harea, regionPixels_eq px W H x y w h hg hr, hnil]
  rfl

/-- On a zero-area rectangle inside the grid the machine reading of `buildQT` returns the
    rectangle itself as a leaf, coloured with the quotient the division by zero delivers. -/
theorem buildQTDz_zero_area {F : Type} (dz : Nat → Nat) (M : DoubleOps F) (px : Grid)
    (W H x y w h minLeaf : Int) (t : F) (s : BuildStats F) (hg : GridWF px W H)
    (hr : RectIn W H x y w h) (hw : 0 ≤ w) (hh : 0 ≤ h) (hz : w = 0 ∨ h = 0) :
    buildQTDz dz M px x y w h minLeaf t s =
      some (Node.node x y w h true ⟨toU8 (dz 0), toU8 (dz 0), toU8 (dz 0)⟩
              Node.null Node.null Node.null Node.null,
            { nodes := (s.nodes + 1) % U64, leaves := (s.leaves + 1) % U64, ms := s.ms }) := by
  have hleaf : leafNodeDz dz px x y w h { s with nodes := (s.nodes + 1) % U64 } =
      some (Node.node x y w h true ⟨toU8 (dz 0), toU8 (dz 0), toU8 (dz 0)⟩
              Node.null Node.null Node.null Node.null,
            { nodes := (s.nodes + 1) % U64, leaves := (s.leaves + 1) % U64, ms := s.ms }) := by
    unfold leafNodeDz
    rw [averageRGBDz_zero_area dz px W H x y w h hg hr hw hh hz]
  have harea : w * h = 0 := by
    rcases hz with h1 | h1
    · rw [h1, Int.zero_mul]
    · rw [h1, Int.mul_zero]
  have hdiv : w.tdiv 2 = 0 ∨ h.tdiv 2 = 0 := by
    rcases hz with h1 | h1
    · left; rw [h1]; rfl
    · right; rw [h1]; rfl
  by_cases hc : w ≤ minLeaf ∨ h ≤ minLeaf
  · rw [buildQTDz, if_pos hc]
    exact hleaf
  · obtain ⟨sd, hsd⟩ := calcStdDevRGB_isSome M px W H x y w h hg hr (by omega)
      (by rw [harea]; decide)
    rw [buildQTDz, if_neg hc]
    simp only [hsd]
    by_cases hle : M.le sd t = true
    · rw [if_pos hle]
      exact hleaf
    · rw [if_neg hle, dif_pos hdiv]
      exact hleaf

/-- Counterexample to C12: on the empty rectangle `(0, 0, 3, 0)` of the 3x3 image, with
    `minLeaf = 1`, the call reports no error and, where the division by zero delivers the
    quotient 0, returns a node: the degenerate leaf `(0, 0, 3, 0)` of area 0, counted as one
    node and one leaf. -/
theorem zero_area_root_returns_leaf :
    buildQTDz (fun _ => 0) ratOps grid3 0 0 3 0 1 (ratOps.ofInt 0) (BuildStats.zero ratOps) =
      some (mkLeaf 0 0 3 0 ⟨0, 0, 0⟩, { nodes := 1, leaves := 1, ms := ratOps.ofInt 0 }) ∧
    (mkLeaf 0 0 3 0 ⟨0, 0, 0⟩).isLeaf = true ∧
    (mkLeaf 0 0 3 0 ⟨0, 0, 0⟩).area = 0 := by
  refine ⟨?_, rfl, by decide⟩
  rw [buildQTDz_zero_area (fun _ => 0) ratOps grid3 3 3 0 0 3 0 1 (ratOps.ofInt 0)
    (BuildStats.zero ratOps) grid3_wf (by decide) (by decide) (by decide) (Or.inr rfl)]
  rfl

/-- C12 (amended): `buildQT` does not check `w` and `h` and has no error path.  On a
    zero-area root region inside the grid (`w = 0` or `h = 0`) it reaches the division by
    `cnt = w*h = 0` of `averageRGB`, which C++ leaves undefined (`none`); where the
    machine's division delivers a quotient `dz 0` for it, the call returns the root
    rectangle itself as a degenerate leaf of that colour and counts it as one node and one
    leaf.  On rectangles with `w, h ≥ 1` no division by zero is reached (the machine
    reading is `buildQT`), and every node of a tree returned for such a root has
    `w ≥ 1` and `h ≥ 1`. -/
theorem zero_area_root_degenerate_leaf {F : Type} (M : DoubleOps F) (px : Grid)
    (W H x y w h minLeaf : Int) (t : F) (s : BuildStats F) (dz : Nat → Nat)
    (hg : GridWF px W H) (hr : RectIn W H x y w h) (hw : 0 ≤ w) (hh : 0 ≤ h)
    (hz : w = 0 ∨ h = 0) :
    averageRGB px x y w h = none ∧
    buildQT M px x y w h minLeaf t s = none ∧
    buildQTDz dz M px x y w h minLeaf t s =
      some (Node.node x y w h true ⟨toU8 (dz 0), toU8 (dz 0), toU8 (dz 0)⟩
              Node.null Node.null Node.null Node.null,
            { nodes := (s.nodes + 1) % U64, leaves := (s.leaves + 1) % U64, ms := s.ms }) ∧
    (∀ (x1 y1 w1 h1 : Int) (s1 : BuildStats F), 1 ≤ w1 → 1 ≤ h1 →
      buildQTDz dz M px x1 y1 w1 h1 minLeaf t s1 = buildQT M px x1 y1 w1 h1 minLeaf t s1) ∧
    (∀ (x1 y1 w1 h1 : Int) (s1 : BuildStats F) (r : Node) (s' : BuildStats F),
      1 ≤ w1 → 1 ≤ h1 → buildQT M px x1 y1 w1 h1 minLeaf t s1 = some (r, s') →
      ∀ m ∈ r.nodes, 1 ≤ m.rect.2.2.1 ∧ 1 ≤ m.rect.2.2.2) := by
  have harea : w * h = 0 := by
    rcases hz with h1 | h1
    · rw [h1, Int.zero_mul]
    · rw [h1, Int.mul_zero]
  refine ⟨averageRGB_zero_area px x y w h harea, buildQT_zero_area M px x y w h minLeaf t s hz,
    buildQTDz_zero_area dz M px W H x y w h minLeaf t s hg hr hw hh hz,
    fun x1 y1 w1 h1 s1 hw1 hh1 =>
      buildQTDz_eq_of_pos dz M px minLeaf t _ x1 y1 w1 h1 s1 rfl hw1 hh1, ?_⟩
  intro x1 y1 w1 h1 s1 r s' hw1 hh1 hb m hm
  obtain ⟨hB, hrect, -⟩ := buildQT_sound M px minLeaf t _ x1 y1 w1 h1 s1 r s' rfl hb
  obtain ⟨-, hmw, hmh, -⟩ := built_nodes hB (by rw [hrect]; exact hw1)
    (by rw [hrect]; exact hh1) m hm
  exact ⟨hmw, hmh⟩

/-- Witness of C12 (amended): the rectangle `(0, 0, 0, 3)` of the 3x3 image, quotient 7. -/
theorem zero_area_root_degenerate_leaf_witness :
    averageRGB grid3 0 0 0 3 = none ∧
    buildQT ratOps grid3 0 0 0 3 1 (ratOps.ofInt 0) (BuildStats.zero ratOps) = none ∧
    buildQTDz (fun _ => 7) ratOps grid3 0 0 0 3 1 (ratOps.ofInt 0) (BuildStats.zero ratOps) =
      some (Node.node 0 0 0 3 true ⟨toU8 7, toU8 7, toU8 7⟩
              Node.null Node.null Node.null Node.null,
            { nodes := ((BuildStats.zero ratOps).nodes + 1) % U64,
              leaves := ((BuildStats.zero ratOps).leaves + 1) % U64,
              ms := (BuildStats.zero ratOps).ms }) ∧
    (∀ (x1 y1 w1 h1 : Int) (s1 : BuildStats ℚ), 1 ≤ w1 → 1 ≤ h1 →
      buildQTDz (fun _ => 7) ratOps grid3 x1 y1 w1 h1 1 (ratOps.ofInt 0) s1 =
        buildQT ratOps grid3 x1 y1 w1 h1 1 (ratOps.ofInt 0) s1) ∧
    (∀ (x1 y1 w1 h1 : Int) (s1 : BuildStats ℚ) (r : Node) (s' : BuildStats ℚ),
      1 ≤ w1 → 1 ≤ h1 → buildQT ratOps grid3 x1 y1 w1 h1 1 (ratOps.ofInt 0) s1 = some (r, s') →
      ∀ m ∈ r.nodes, 1 ≤ m.rect.2.2.1 ∧ 1 ≤ m.rect.2.2.2) :=
  zero_area_root_degenerate_leaf ratOps grid3 3 3 0 0 0 3 1 (ratOps.ofInt 0)
    (BuildStats.zero ratOps) (fun _ => 7) grid3_wf (by decide) (by decide) (by decide)
    (Or.inl rfl)

/-- C16: whenever `minLeaf ≥ 1`, a rectangle that passes the first test of `buildQT`
    (`w > minLeaf` and `h > minLeaf`) has `w/2 ≥ 1` and `h/2 ≥ 1`, so the second guard
    `w2 == 0 || h2 == 0` is never taken: every leaf of a returned tree stopped at the first
    test, and `buildQT` with the guard removed (run with enough fuel) returns the same tree
    and statistics as `buildQT` on every input; on a rectangle inside the grid both return
    a tree.  In the program `minLeaf = leafFromIdx(idx) ≥ 1` always. -/
theorem buildQT_guard_redundant {F : Type} (M : DoubleOps F) (px : Grid)
    (x y w h minLeaf : Int) (t : F) (s : BuildStats F) (hmin : 1 ≤ minLeaf) :
    (¬ (w ≤ minLeaf ∨ h ≤ minLeaf) →
      1 ≤ w.tdiv 2 ∧ 1 ≤ h.tdiv 2 ∧ ¬ (w.tdiv 2 = 0 ∨ h.tdiv 2 = 0)) ∧
    (∀ fuel : Nat, w.natAbs < fuel →
      buildQTNoGuard M px minLeaf t fuel x y w h s = buildQT M px x y w h minLeaf t s) ∧
    (∀ r s', buildQT M px x y w h minLeaf t s = some (r, s') →
      ∀ m ∈ r.leaves,
        m.rect.2.2.1 ≤ minLeaf ∨ m.rect.2.2.2 ≤ minLeaf ∨
          ∃ sd, calcStdDevRGB M px m.rect.1 m.rect.2.1 m.rect.2.2.1 m.rect.2.2.2 = some sd ∧
            M.le sd t = true) ∧
    (∀ W H : Int, GridWF px W H → RectIn W H x y w h → W * H ≤ INT_MAX → 1 ≤ w → 1 ≤ h →
      ∃ r s', buildQT M px x y w h minLeaf t s = some (r, s') ∧
        buildQTNoGuard M px minLeaf t (w.natAbs + 1) x y w h s = some (r, s')) ∧
    (∀ idx : Int, 1 ≤ leafFromIdx idx) := by
  refine ⟨guard_dead minLeaf w h hmin,
    fun fuel hf => buildQTNoGuard_eq M px minLeaf t hmin _ fuel x y w h s rfl hf,
    ?_, ?_, one_le_leafFromIdx⟩
  · intro r s' hb m hm
    obtain ⟨hB, -⟩ := buildQT_sound M px minLeaf t _ x y w h s r s' rfl hb
    rw [mem_leaves] at hm
    have hBm := built_mem hB m hm.1
    cases hBm with
    | leaf mx my mw mh avg hstop havg =>
      have e : (Node.node mx my mw mh true avg Node.null Node.null Node.null Node.null).rect =
          (mx, my, mw, mh) := rfl
      rw [e]
      dsimp only
      rcases hstop with h1 | h1 | ⟨sd, hsd, h1⟩
      · exact Or.inl h1
      · exact Or.inr (Or.inl h1)
      · by_cases hc : mw ≤ minLeaf ∨ mh ≤ minLeaf
        · rcases hc with h2 | h2
          · exact Or.inl h2
          · exact Or.inr (Or.inl h2)
        · have hdead := (guard_dead minLeaf mw mh hmin hc).2.2
          rcases h1 with h1 | h1 | h1
          · exact Or.inr (Or.inr ⟨sd, hsd, h1⟩)
          · exact absurd (Or.inl h1) hdead
          · exact absurd (Or.inr h1) hdead
    | split mx my mw mh c0 c1 c2 c3 hw0 hh0 hsd hw2 hh2 r0 r1 r2 r3 b0 b1 b2 b3 =>
      have := hm.2
      simp [Node.isLeaf] at this
  · intro W H hg hr hWH hw hh
    obtain ⟨r, s', e⟩ := buildQT_total M px W H minLeaf t hg hWH _ x y w h s rfl hr hw hh
    refine ⟨r, s', e, ?_⟩
    rw [buildQTNoGuard_eq M px minLeaf t hmin _ (w.natAbs + 1) x y w h s rfl (by omega)]
    exact e

/-- Witness of C16: the checkerboard with `minLeaf = 8`. -/
theorem buildQT_guard_redundant_witness :
    (¬ ((64 : Int) ≤ 8 ∨ (64 : Int) ≤ 8) →
      1 ≤ (64 : Int).tdiv 2 ∧ 1 ≤ (64 : Int).tdiv 2 ∧
        ¬ ((64 : Int).tdiv 2 = 0 ∨ (64 : Int).tdiv 2 = 0)) ∧
    (∀ fuel : Nat, (64 : Int).natAbs < fuel →
      buildQTNoGuard ratOps checkerboard 8 (ratOps.ofInt 0) fuel 0 0 64 64
          (BuildStats.zero ratOps) =
        buildQT ratOps checkerboard 0 0 64 64 8 (ratOps.ofInt 0) (BuildStats.zero ratOps)) ∧
    buildQTNoGuard ratOps checkerboard 8 (ratOps.ofInt 0) 65 0 0 64 64 (BuildStats.zero ratOps) =
      some (checkerTree 3 0 0 64, { nodes := 85, leaves := 64, ms := ratOps.ofInt 0 }) := by
  have key := buildQT_guard_redundant ratOps checkerboard 0 0 64 64 8 (ratOps.ofInt 0)
    (BuildStats.zero ratOps) (by decide)
  refine ⟨key.1, key.2.1, ?_⟩
  rw [key.2.1 65 (by decide)]
  exact buildQT_checkerboard_eq ratOps ratOps_exact

/-- With `minLeaf = 0` the guard does matter: on a one-pixel-wide image of two colours
    `buildQT` returns the root as a leaf, while the variant without the guard recurses into
    an empty quadrant and ends in the undefined division of `averageRGB`. -/
theorem guard_needed_minLeaf_zero :
    buildQT ratOps [[⟨1, 2, 3⟩], [⟨5, 6, 7⟩]] 0 0 1 2 0 (ratOps.ofInt 0) (BuildStats.zero ratOps) =
      some (mkLeaf 0 0 1 2 ⟨3, 4, 5⟩, { nodes := 1, leaves := 1, ms := ratOps.ofInt 0 }) ∧
    ∀ fuel : Nat,
      buildQTNoGuard ratOps [[⟨1, 2, 3⟩], [⟨5, 6, 7⟩]] 0 (ratOps.ofInt 0) fuel 0 0 1 2
        (BuildStats.zero ratOps) = none := by
  have hg : GridWF [[(⟨1, 2, 3⟩ : Color)], [⟨5, 6, 7⟩]] 1 2 := by decide
  obtain ⟨sd, hsd, hle⟩ := ratOps_score_of_two_colours [[⟨1, 2, 3⟩], [⟨5, 6, 7⟩]] 1 2 0 0 1 2 hg
    (by decide) (by decide) (by decide) (by decide) ⟨1, 2, 3⟩ ⟨5, 6, 7⟩ (by decide) (by decide)
    (by decide)
  have hc : ¬ ((1 : Int) ≤ 0 ∨ (2 : Int) ≤ 0) := by decide
  constructor
  · rw [buildQT_stop ratOps _ 0 0 1 2 0 (ratOps.ofInt 0) _ sd hsd (Or.inr (Or.inl (by decide)))]
    have havg : averageRGB [[(⟨1, 2, 3⟩ : Color)], [⟨5, 6, 7⟩]] 0 0 1 2 = some ⟨3, 4, 5⟩ := by
      decide
    simp only [leafNode, havg, BuildStats.zero, mkLeaf]
    rfl
  · intro fuel
    cases fuel with
    | zero => rfl
    | succ f =>
      have hle' : ¬ ratOps.le sd (ratOps.ofInt 0) = true := by rw [hle]; decide
      simp only [buildQTNoGuard, if_neg hc, hsd, if_neg hle']
      cases f with
      | zero => rfl
      | succ f' =>
        have h0 : ((1 : Int).tdiv 2 ≤ 0 ∨ (2 : Int).tdiv 2 ≤ 0) := by decide
        simp only [buildQTNoGuard, if_pos h0]
        rw [leafNode_zero_area _ _ _ _ _ _ (by decide)]

/-! ## Rounded arithmetic: the score of a square of two colours is positive -/

theorem dyadic53_nat_div (a e : Nat) (ha : (a : Int) ≤ DBL_EXACT) (he : e ≤ 1022) :
    Dyadic53 ((a : ℝ) / 2 ^ e) :=
  ⟨(a : Int), e, by rw [abs_of_nonneg (by omega)]; exact ha, he, by push_cast; rfl⟩

theorem dyadic53_nat (a : Nat) (ha : (a : Int) ≤ DBL_EXACT) : Dyadic53 (a : ℝ) := by
  have := dyadic53_nat_div a 0 ha (by omega)
  simpa using this

theorem dyadic53_zero : Dyadic53 0 := by
  have := dyadic53_nat 0 (by decide)
  simpa using this

theorem dyadic53_inv_pow (e : Nat) (he : e ≤ 1022) : Dyadic53 (1 / 2 ^ e) := by
  have := dyadic53_nat_div 1 e (by decide) he
  simpa using this

theorem dyadic53_neg {q : ℝ} (h : Dyadic53 q) : Dyadic53 (-q) := by
  obtain ⟨a, e, ha, he, rfl⟩ := h
  exact ⟨-a, e, by rw [abs_neg]; exact ha, he, by push_cast; ring⟩

/-- An operation whose exact result is a `double` returns it. -/
theorem between_eq {F : Type} {val : F → Option ℝ} {z : F} {r : ℝ}
    (h : ∃ w, val z = some w ∧ r ≤ w ∧ w ≤ r) : val z = some r := by
  obtain ⟨w, hw, h1, h2⟩ := h
  rw [hw, le_antisymm h2 h1]

/-- The running sums of `calcStdDevRGB` are exact as long as they stay below `2^53`. -/
theorem foldl_add_val {F : Type} {M : DoubleOps F} {val : F → Option ℝ}
    (hR : RoundedOps M val) (g : Color → Nat) (term : Color → F)
    (hterm : ∀ p, val (term p) = some ((g p : Nat) : ℝ)) (ps : List Color) :
    ∀ (acc : F) (a0 : Nat), val acc = some ((a0 : Nat) : ℝ) →
      ((a0 + (ps.map g).sum : Nat) : Int) ≤ DBL_EXACT →
      val (ps.foldl (fun s p => M.add s (term p)) acc) =
        some (((a0 + (ps.map g).sum : Nat)) : ℝ) := by
  induction ps with
  | nil => intro acc a0 hacc _; simpa using hacc
  | cons c rest ih =>
    intro acc a0 hacc hb
    rw [List.map_cons, List.sum_cons] at hb
    rw [List.foldl_cons, List.map_cons, List.sum_cons]
    have hd : Dyadic53 (((a0 + g c : Nat)) : ℝ) := dyadic53_nat _ (by omega)
    have hstep : val (M.add acc (term c)) = some (((a0 + g c : Nat)) : ℝ) :=
      between_eq (hR.add_between acc (term c) _ _ _ _ hacc (hterm c) hd hd
        (by push_cast; exact le_refl _) (by push_cast; exact le_refl _))
    have := ih (M.add acc (term c)) (a0 + g c) hstep (by omega)
    rw [this]
    congr 2
    omega

theorem val_ofInt_zero {F : Type} {M : DoubleOps F} {val : F → Option ℝ}
    (hR : RoundedOps M val) : val (M.ofInt 0) = some 0 := by
  have := hR.val_ofInt 0 (by decide)
  simpa using this

/-- The value of `clamp0(v)` for a finite `v`. -/
theorem clamp0_val {F : Type} {M : DoubleOps F} {val : F → Option ℝ}
    (hR : RoundedOps M val) (v : F) (vv : ℝ) (hv : val v = some vv) :
    ∃ cv, val (clamp0 M v) = some cv ∧ 0 ≤ cv ∧ (0 ≤ vv → cv = vv) ∧ cv ≤ max 0 vv := by
  have hlt := hR.lt_iff v (M.ofInt 0) vv 0 hv (val_ofInt_zero hR)
  unfold clamp0
  by_cases hneg : vv < 0
  · rw [if_pos (hlt.2 hneg)]
    exact ⟨0, val_ofInt_zero hR, le_refl _, fun h => absurd hneg (not_lt.2 h), le_max_left _ _⟩
  · have hb : ¬ (M.lt v (M.ofInt 0) = true) := fun h => hneg (hlt.1 h)
    rw [if_neg hb]
    exact ⟨vv, hv, not_lt.1 hneg, fun _ => rfl, le_max_right _ _⟩

/-- One channel of `calcStdDevRGB` over `2^e` pixels (`e ≤ 30`) with channel sum `s` and
    sum of squares `S2`: the result is a finite number in `[0, 255]`, and it is at least
    `2^-19` when the exact variance is at least `2^-37`. -/
theorem chanSd_val {F : Type} {M : DoubleOps F} {val : F → Option ℝ}
    (hR : RoundedOps M val) (sum sq nF : F) (s S2 e : Nat)
    (hsum : val sum = some ((s : Nat) : ℝ)) (hsq : val sq = some ((S2 : Nat) : ℝ))
    (hn : val nF = some ((2 : ℝ) ^ e)) (he : e ≤ 30)
    (hs : s ≤ 255 * 2 ^ e) (hS : S2 ≤ 65025 * 2 ^ e) :
    ∃ w, val (chanSd M sum sq nF) = some w ∧ 0 ≤ w ∧ w ≤ 255 ∧
      ((s : ℝ) / 2 ^ e * ((s : ℝ) / 2 ^ e) + 1 / 2 ^ 37 ≤ (S2 : ℝ) / 2 ^ e → 1 / 2 ^ 19 ≤ w) := by
  have hnpos : (0 : ℝ) < 2 ^ e := by positivity
  have hpow : 2 ^ e ≤ 2 ^ 30 := Nat.pow_le_pow_right (by decide) he
  have hE : DBL_EXACT = 9007199254740992 := rfl
  have hsE : ((s : Nat) : Int) ≤ DBL_EXACT := by
    have : s ≤ 255 * 2 ^ 30 := le_trans hs (Nat.mul_le_mul_left _ hpow)
    norm_num at this
    omega
  have hSE : ((S2 : Nat) : Int) ≤ DBL_EXACT := by
    have : S2 ≤ 65025 * 2 ^ 30 := le_trans hS (Nat.mul_le_mul_left _ hpow)
    norm_num at this
    omega
  -- the mean and the mean of the squares are exact
  have dm := dyadic53_nat_div s e hsE (by omega)
  have dq := dyadic53_nat_div S2 e hSE (by omega)
  have hm : val (M.div sum nF) = some ((s : ℝ) / 2 ^ e) :=
    between_eq (hR.div_between sum nF _ _ _ _ hsum hn (ne_of_gt hnpos) dm dm (le_refl _)
      (le_refl _))
  have hq : val (M.div sq nF) = some ((S2 : ℝ) / 2 ^ e) :=
    between_eq (hR.div_between sq nF _ _ _ _ hsq hn (ne_of_gt hnpos) dq dq (le_refl _)
      (le_refl _))
  have hm0 : 0 ≤ (s : ℝ) / 2 ^ e := div_nonneg (Nat.cast_nonneg _) (le_of_lt hnpos)
  have hm1 : (s : ℝ) / 2 ^ e ≤ 255 := by
    rw [div_le_iff₀ hnpos]
    exact_mod_cast hs
  have hq0 : 0 ≤ (S2 : ℝ) / 2 ^ e := div_nonneg (Nat.cast_nonneg _) (le_of_lt hnpos)
  have hq1 : (S2 : ℝ) / 2 ^ e ≤ 65025 := by
    rw [div_le_iff₀ hnpos]
    exact_mod_cast hS
  have d65025 : Dyadic53 (65025 : ℝ) := by
    have := dyadic53_nat 65025 (by decide)
    simpa using this
  have d255 : Dyadic53 (255 : ℝ) := by
    have := dyadic53_nat 255 (by decide)
    simpa using this
  -- the square of the mean is rounded
  obtain ⟨pv, hp, hp0, hp1⟩ := hR.mul_between (M.div sum nF) (M.div sum nF) _ _ 0 65025 hm hm
    dyadic53_zero d65025 (mul_nonneg hm0 hm0) (by nlinarith)
  obtain ⟨vv, hv, hv0, hv1⟩ := hR.sub_between (M.div sq nF) (M.mul (M.div sum nF) (M.div sum nF))
    _ _ (-65025) 65025 hq hp (dyadic53_neg d65025) d65025 (by linarith) (by linarith)
  obtain ⟨cv, hc, hc0, hceq, hcmax⟩ := clamp0_val hR _ vv hv
  have hc1 : cv ≤ 65025 := le_trans hcmax (max_le (by norm_num) hv1)
  obtain ⟨w, hw, hw0, hw1⟩ := hR.sqrt_between _ cv 0 255 hc dyadic53_zero d255 (le_refl _)
    (by norm_num) (by simpa using hc0) (by norm_num; exact hc1)
  refine ⟨w, hw, hw0, hw1, ?_⟩
  intro hgap
  -- a double between the square of the mean and the mean of the squares
  have hz : Dyadic53 ((S2 : ℝ) / 2 ^ e - 1 / 2 ^ 37) := by
    have h2n : 2 ^ e * 2 ^ (37 - e) = 2 ^ 37 := by
      rw [← pow_add]
      congr 1
      omega
    have h2r : (2 : ℝ) ^ e * 2 ^ (37 - e) = 2 ^ 37 := by exact_mod_cast h2n
    refine ⟨(S2 : Int) * 2 ^ (37 - e) - 1, 37, ?_, by omega, ?_⟩
    · have hle : S2 * 2 ^ (37 - e) ≤ 65025 * 2 ^ 37 := by
        calc S2 * 2 ^ (37 - e) ≤ 65025 * 2 ^ e * 2 ^ (37 - e) := Nat.mul_le_mul_right _ hS
          _ = 65025 * 2 ^ 37 := by rw [Nat.mul_assoc, h2n]
      have hle' : ((S2 : Int)) * 2 ^ (37 - e) ≤ 65025 * 2 ^ 37 := by exact_mod_cast hle
      have h0 : (0 : Int) ≤ (S2 : Int) * 2 ^ (37 - e) := by positivity
      rw [abs_le]
      norm_num at hle'
      constructor <;> omega
    · push_cast
      rw [← h2r]
      field_simp
      ring
  obtain ⟨pv', hp', -, hpz⟩ := hR.mul_between (M.div sum nF) (M.div sum nF) _ _ 0 _ hm hm
    dyadic53_zero hz (mul_nonneg hm0 hm0) (by linarith)
  rw [hp] at hp'
  simp only [Option.some.injEq] at hp'
  subst hp'
  obtain ⟨vv', hv', hvlo, -⟩ := hR.sub_between (M.div sq nF) (M.mul (M.div sum nF) (M.div sum nF))
    _ _ (1 / 2 ^ 37) 65025 hq hp (dyadic53_inv_pow 37 (by omega)) d65025 (by linarith)
    (by linarith)
  rw [hv] at hv'
  simp only [Option.some.injEq] at hv'
  subst hv'
  have hvpos : (0 : ℝ) ≤ vv := le_trans (by positivity) hvlo
  have hcv : cv = vv := hceq hvpos
  obtain ⟨w', hw', hwlo, -⟩ := hR.sqrt_between _ cv (1 / 2 ^ 19) 255 hc
    (dyadic53_inv_pow 19 (by omega)) d255 (by positivity) (by norm_num)
    (by rw [hcv]; refine le_trans ?_ hvlo; norm_num) (by norm_num; exact hc1)
  rw [hw] at hw'
  simp only [Option.some.injEq] at hw'
  subst hw'
  exact hwlo

theorem one_le_sq_diff (a b : Fin 256) (hab : a ≠ b) :
    (1 : ℝ) ≤ ((a.val : ℝ) - (b.val : ℝ)) ^ 2 := by
  have hne : (a.val : Int) - (b.val : Int) ≠ 0 := by
    intro h
    apply hab
    apply Fin.ext
    omega
  have hpos : 0 < ((a.val : Int) - (b.val : Int)) ^ 2 := by positivity
  have h1 : (1 : Int) ≤ ((a.val : Int) - (b.val : Int)) ^ 2 := by omega
  exact_mod_cast h1

theorem length_le_sum_of_one_le (l : List ℝ) (h : ∀ v ∈ l, 1 ≤ v) : (l.length : ℝ) ≤ l.sum := by
  induction l with
  | nil => simp
  | cons a rest ih =>
    rw [List.length_cons, List.sum_cons]
    push_cast
    have h1 := h a (List.mem_cons_self a rest)
    have h2 := ih (fun v hv => h v (List.mem_cons_of_mem a hv))
    linarith

theorem le_sum_of_mem_nonneg (l : List ℝ) (h : ∀ v ∈ l, 0 ≤ v) (a : ℝ) (ha : a ∈ l) :
    a ≤ l.sum := by
  induction l with
  | nil => simp at ha
  | cons b rest ih =>
    rw [List.sum_cons]
    have hb := h b (List.mem_cons_self b rest)
    have hrest : ∀ v ∈ rest, 0 ≤ v := fun v hv => h v (List.mem_cons_of_mem b hv)
    rcases List.mem_cons.1 ha with rfl | ha'
    · have := list_sum_nonneg ℝ rest hrest
      linarith
    · have := ih hrest ha'
      linarith

/-- The spread `n * (sum of squares) - (sum)^2` of one channel over `n` pixels: it is never
    negative, and it is at least `n - 1` as soon as two pixels differ in the channel. -/
theorem chan_spread (f : Color → Fin 256) (ps : List Color) :
    0 ≤ (ps.length : ℝ) * (chanSq f ps : ℝ) - (chanSum f ps : ℝ) ^ 2 ∧
    ((∃ p ∈ ps, ∃ q ∈ ps, f p ≠ f q) →
      (ps.length : ℝ) - 1 ≤ (ps.length : ℝ) * (chanSq f ps : ℝ) - (chanSum f ps : ℝ) ^ 2) := by
  induction ps with
  | nil =>
    refine ⟨by simp [chanSq, chanSum], ?_⟩
    rintro ⟨p, hp, -⟩
    simp at hp
  | cons c rest ih =>
    obtain ⟨ih0, ih1⟩ := ih
    have hT := sum_sq_dev ℝ f ((f c).val : ℝ) rest
    have hterm0 : ∀ v ∈ rest.map (fun p => (((f p).val : ℝ) - ((f c).val : ℝ)) ^ 2), 0 ≤ v := by
      intro v hv
      rw [List.mem_map] at hv
      obtain ⟨p, -, rfl⟩ := hv
      exact sq_nonneg _
    have hT0 := list_sum_nonneg ℝ _ hterm0
    have hstep : ((c :: rest).length : ℝ) * (chanSq f (c :: rest) : ℝ) -
        (chanSum f (c :: rest) : ℝ) ^ 2 =
        ((rest.length : ℝ) * (chanSq f rest : ℝ) - (chanSum f rest : ℝ) ^ 2) +
          (rest.map (fun p => (((f p).val : ℝ) - ((f c).val : ℝ)) ^ 2)).sum := by
      rw [hT, chanSq_cons, chanSum_cons, List.length_cons]
      push_cast
      ring
    rw [hstep]
    refine ⟨by linarith, ?_⟩
    intro hdiff
    rw [List.length_cons]
    push_cast
    by_cases hr : ∃ p ∈ rest, ∃ q ∈ rest, f p ≠ f q
    · have h1 := ih1 hr
      obtain ⟨p, hp, q, hq, hpq⟩ := hr
      have hex : ∃ p0 ∈ rest, f p0 ≠ f c := by
        by_cases hpc : f p = f c
        · exact ⟨q, hq, fun h => hpq (hpc.trans h.symm)⟩
        · exact ⟨p, hp, hpc⟩
      obtain ⟨p0, hp0, hne⟩ := hex
      have hmem : (((f p0).val : ℝ) - ((f c).val : ℝ)) ^ 2 ∈
          rest.map (fun p => (((f p).val : ℝ) - ((f c).val : ℝ)) ^ 2) :=
        List.mem_map_of_mem (fun p => (((f p).val : ℝ) - ((f c).val : ℝ)) ^ 2) hp0
      have h2 := le_sum_of_mem_nonneg _ hterm0 _ hmem
      have h3 := one_le_sq_diff (f p0) (f c) hne
      linarith
    · have hall : ∀ p ∈ rest, ∀ q ∈ rest, f p = f q := by
        intro p hp q hq
        by_contra hne
        exact hr ⟨p, hp, q, hq, hne⟩
      have hex : ∃ p0 ∈ rest, f p0 ≠ f c := by
        obtain ⟨p, hp, q, hq, hpq⟩ := hdiff
        rcases List.mem_cons.1 hp with rfl | hp'
        · rcases List.mem_cons.1 hq with rfl | hq'
          · exact absurd rfl hpq
          · exact ⟨q, hq', fun h => hpq h.symm⟩
        · rcases List.mem_cons.1 hq with rfl | hq'
          · exact ⟨p, hp', hpq⟩
          · exact absurd (hall p hp' q hq') hpq
      obtain ⟨p0, hp0, hne⟩ := hex
      have hge : ∀ v ∈ rest.map (fun p => (((f p).val : ℝ) - ((f c).val : ℝ)) ^ 2), 1 ≤ v := by
        intro v hv
        rw [List.mem_map] at hv
        obtain ⟨p, hp, rfl⟩ := hv
        apply one_le_sq_diff
        rw [hall p hp p0 hp0]
        exact hne
      have h2 := length_le_sum_of_one_le _ hge
      rw [List.length_map] at h2
      linarith

/-- For `n = 2^e` pixels with `1 ≤ e ≤ 30`, a spread of at least `n - 1` puts the exact
    variance at least `2^-37` above zero. -/
theorem gap_of_spread (s S2 e : Nat) (he1 : 1 ≤ e) (he : e ≤ 30)
    (hD : (2 : ℝ) ^ e - 1 ≤ (2 : ℝ) ^ e * (S2 : ℝ) - (s : ℝ) ^ 2) :
    (s : ℝ) / 2 ^ e * ((s : ℝ) / 2 ^ e) + 1 / 2 ^ 37 ≤ (S2 : ℝ) / 2 ^ e := by
  have hN2 : (2 : ℝ) ≤ 2 ^ e := by
    calc (2 : ℝ) = 2 ^ 1 := by norm_num
      _ ≤ 2 ^ e := pow_le_pow_right₀ (by norm_num) he1
  have hN30 : (2 : ℝ) ^ e ≤ 2 ^ 30 := pow_le_pow_right₀ (by norm_num) he
  have hNpos : (0 : ℝ) < 2 ^ e := by positivity
  have key : (s : ℝ) * s + 2 ^ e * 2 ^ e / 2 ^ 37 ≤ 2 ^ e * (S2 : ℝ) := by
    have h1 : (2 : ℝ) ^ e * 2 ^ e / 2 ^ 37 ≤ 2 ^ e - 1 := by
      rw [div_le_iff₀ (by positivity)]
      nlinarith
    nlinarith
  have hN : (2 : ℝ) ^ e ≠ 0 := ne_of_gt hNpos
  have hNN : (2 : ℝ) ^ e * 2 ^ e ≠ 0 := mul_ne_zero hN hN
  have e1 : (s : ℝ) / 2 ^ e * ((s : ℝ) / 2 ^ e) + 1 / 2 ^ 37 =
      ((s : ℝ) * s + 2 ^ e * 2 ^ e / 2 ^ 37) / (2 ^ e * 2 ^ e) := by
    rw [add_div, div_mul_div_comm, div_right_comm (2 ^ e * 2 ^ e : ℝ), div_self hNN]
  have e2 : (S2 : ℝ) / 2 ^ e = (2 ^ e * (S2 : ℝ)) / (2 ^ e * 2 ^ e) := by
    rw [mul_div_mul_left _ _ hN]
  rw [e1, e2]
  exact div_le_div_of_nonneg_right key (le_of_lt (mul_pos hNpos hNpos))

/-- The score `(sdR + sdG + sdB) / 3.0` of three finite channel values in `[0, 255]`, one
    of them at least `2^-19`, is positive: the test `score <= 0` fails. -/
theorem score_not_le_zero {F : Type} {M : DoubleOps F} {val : F → Option ℝ}
    (hR : RoundedOps M val) (a b c : F) (va vb vc : ℝ)
    (ha : val a = some va) (hb : val b = some vb) (hc : val c = some vc)
    (ha0 : 0 ≤ va) (ha1 : va ≤ 255) (hb0 : 0 ≤ vb) (hb1 : vb ≤ 255) (hc0 : 0 ≤ vc)
    (hc1 : vc ≤ 255) (hgap : 1 / 2 ^ 19 ≤ va ∨ 1 / 2 ^ 19 ≤ vb ∨ 1 / 2 ^ 19 ≤ vc) :
    M.le (M.div (M.add (M.add a b) c) (M.ofInt 3)) (M.ofInt 0) = false := by
  have d510 : Dyadic53 (510 : ℝ) := by
    have := dyadic53_nat 510 (by decide)
    simpa using this
  have d765 : Dyadic53 (765 : ℝ) := by
    have := dyadic53_nat 765 (by decide)
    simpa using this
  have d255 : Dyadic53 (255 : ℝ) := by
    have := dyadic53_nat 255 (by decide)
    simpa using this
  have d19 : Dyadic53 (1 / 2 ^ 19) := dyadic53_inv_pow 19 (by omega)
  have d21 : Dyadic53 (1 / 2 ^ 21) := dyadic53_inv_pow 21 (by omega)
  have hsum : ∃ s2, val (M.add (M.add a b) c) = some s2 ∧ 1 / 2 ^ 19 ≤ s2 ∧ s2 ≤ 765 := by
    by_cases h1 : (1 : ℝ) / 2 ^ 19 ≤ va + vb
    · obtain ⟨s1, hs1, l1, u1⟩ := hR.add_between a b va vb _ 510 ha hb d19 d510 h1
        (by linarith)
      exact hR.add_between _ c s1 vc _ 765 hs1 hc d19 d765 (by linarith) (by linarith)
    · have hvc : (1 : ℝ) / 2 ^ 19 ≤ vc := by
        rcases hgap with h | h | h
        · exact absurd (by linarith) h1
        · exact absurd (by linarith) h1
        · exact h
      obtain ⟨s1, hs1, l1, u1⟩ := hR.add_between a b va vb 0 510 ha hb dyadic53_zero d510
        (by linarith) (by linarith)
      exact hR.add_between _ c s1 vc _ 765 hs1 hc d19 d765 (by linarith) (by linarith)
  obtain ⟨s2, hs2, l2, u2⟩ := hsum
  have h3 : val (M.ofInt 3) = some (3 : ℝ) := by
    have := hR.val_ofInt 3 (by decide)
    simpa using this
  have hlo : (1 : ℝ) / 2 ^ 21 ≤ s2 / 3 := by
    rw [le_div_iff₀ (by norm_num)]
    refine le_trans ?_ l2
    norm_num
  obtain ⟨sv, hsv, l3, -⟩ := hR.div_between _ (M.ofInt 3) s2 3 _ 255 hs2 h3 (by norm_num) d21
    d255 hlo (by linarith)
  have hle := hR.le_iff _ (M.ofInt 0) sv 0 hsv (val_ofInt_zero hR)
  have hpos : (0 : ℝ) < sv := lt_of_lt_of_le (by positivity) l3
  cases hq : M.le (M.div (M.add (M.add a b) c) (M.ofInt 3)) (M.ofInt 0) with
  | false => rfl
  | true => exact absurd (hle.1 hq) (not_le.2 hpos)

/-- One channel of `calcStdDevRGB` over a list of `2^e` pixels, `1 ≤ e ≤ 30`: a finite
    value in `[0, 255]`, at least `2^-19` when two pixels differ in the channel. -/
theorem chanSd_of_pixels {F : Type} {M : DoubleOps F} {val : F → Option ℝ}
    (hR : RoundedOps M val) (f : Color → Fin 256) (ps : List Color) (e : Nat) (nF : F)
    (he1 : 1 ≤ e) (he : e ≤ 30) (hlen : ps.length = 2 ^ e)
    (hn : val nF = some ((2 : ℝ) ^ e)) :
    ∃ w, val (chanSd M
        (ps.foldl (fun s p => M.add s (M.ofInt ((f p).val : Int))) (M.ofInt 0))
        (ps.foldl (fun s p =>
          M.add s (M.mul (M.ofInt ((f p).val : Int)) (M.ofInt ((f p).val : Int)))) (M.ofInt 0))
        nF) = some w ∧ 0 ≤ w ∧ w ≤ 255 ∧
      ((∃ p ∈ ps, ∃ q ∈ ps, f p ≠ f q) → 1 / 2 ^ 19 ≤ w) := by
  have hpow : 2 ^ e ≤ 2 ^ 30 := Nat.pow_le_pow_right (by decide) he
  have hE : DBL_EXACT = 9007199254740992 := rfl
  have hs : chanSum f ps ≤ 255 * 2 ^ e := by
    have := chanSum_le_255 f ps
    rw [hlen] at this
    exact this
  have hS : chanSq f ps ≤ 65025 * 2 ^ e := by
    have := chanSq_le f ps
    rw [hlen] at this
    exact this
  have hterm1 : ∀ p : Color, val (M.ofInt ((f p).val : Int)) = some (((f p).val : Nat) : ℝ) := by
    intro p
    have h255 : (f p).val ≤ 255 := by have := (f p).isLt; omega
    have := hR.val_ofInt ((f p).val : Int) (by rw [abs_of_nonneg (by omega)]; omega)
    simpa using this
  have hterm2 : ∀ p : Color,
      val (M.mul (M.ofInt ((f p).val : Int)) (M.ofInt ((f p).val : Int))) =
        some ((((f p).val * (f p).val : Nat)) : ℝ) := by
    intro p
    have h255 : (f p).val ≤ 255 := by have := (f p).isLt; omega
    have hsq : (f p).val * (f p).val ≤ 255 * 255 := Nat.mul_le_mul h255 h255
    have d := dyadic53_nat ((f p).val * (f p).val) (by omega)
    apply between_eq
    exact hR.mul_between _ _ _ _ _ _ (hterm1 p) (hterm1 p) d d
      (by push_cast; exact le_refl _) (by push_cast; exact le_refl _)
  have h0 : val (M.ofInt 0) = some (((0 : Nat)) : ℝ) := by
    simpa using val_ofInt_zero hR
  have hsum := foldl_add_val hR (fun p => (f p).val) (fun p => M.ofInt ((f p).val : Int))
    hterm1 ps (M.ofInt 0) 0 h0 (by
      have h1 : (ps.map (fun p => (f p).val)).sum = chanSum f ps := rfl
      have h2 : chanSum f ps ≤ 255 * 2 ^ 30 := le_trans hs (Nat.mul_le_mul_left _ hpow)
      norm_num at h2
      rw [h1]
      omega)
  have hsq := foldl_add_val hR (fun p => (f p).val * (f p).val)
    (fun p => M.mul (M.ofInt ((f p).val : Int)) (M.ofInt ((f p).val : Int)))
    hterm2 ps (M.ofInt 0) 0 h0 (by
      have h1 : (ps.map (fun p => (f p).val * (f p).val)).sum = chanSq f ps := rfl
      have h2 : chanSq f ps ≤ 65025 * 2 ^ 30 := le_trans hS (Nat.mul_le_mul_left _ hpow)
      norm_num at h2
      rw [h1]
      omega)
  have hsum' : val (ps.foldl (fun s p => M.add s (M.ofInt ((f p).val : Int))) (M.ofInt 0)) =
      some ((chanSum f ps : Nat) : ℝ) := by
    rw [hsum, Nat.zero_add]
    rfl
  have hsq' : val (ps.foldl (fun s p =>
      M.add s (M.mul (M.ofInt ((f p).val : Int)) (M.ofInt ((f p).val : Int)))) (M.ofInt 0)) =
      some ((chanSq f ps : Nat) : ℝ) := by
    rw [hsq, Nat.zero_add]
    rfl
  obtain ⟨w, hw, hw0, hw1, hgap⟩ := chanSd_val hR _ _ nF (chanSum f ps) (chanSq f ps) e
    hsum' hsq' hn he hs hS
  refine ⟨w, hw, hw0, hw1, ?_⟩
  intro hdiff
  apply hgap
  apply gap_of_spread _ _ e he1 he
  have := (chan_spread f ps).2 hdiff
  rw [hlen] at this
  push_cast at this
  exact this

/-- In rounded arithmetic a square of side `2^j` (`j ≥ 1`, area within `int`) inside the
    grid that holds two different colours has a score for which `score <= 0` fails. -/
theorem rounded_score_of_two_colours {F : Type} {M : DoubleOps F} {val : F → Option ℝ}
    (hR : RoundedOps M val) (px : Grid) (W H x y : Int) (j : Nat) (hg : GridWF px W H)
    (hr : RectIn W H x y (2 ^ j) (2 ^ j)) (hj : 1 ≤ j)
    (harea : (2 : Int) ^ j * 2 ^ j ≤ INT_MAX) (p q : Color)
    (hp : p ∈ rectPixels px x y (2 ^ j) (2 ^ j)) (hq : q ∈ rectPixels px x y (2 ^ j) (2 ^ j))
    (hpq : p ≠ q) :
    ∃ sd, calcStdDevRGB M px x y (2 ^ j) (2 ^ j) = some sd ∧
      M.le sd (M.ofInt 0) = false := by
  have hI : INT_MAX = 2147483647 := rfl
  have hE : DBL_EXACT = 9007199254740992 := rfl
  have hpos : (0 : Int) < 2 ^ j := by positivity
  have hsq : (2 : Int) ^ j * 2 ^ j = 2 ^ (2 * j) := by rw [← pow_add]; congr 1; omega
  have he : 2 * j ≤ 30 := by
    by_contra hcon
    have h31 : (2 : Int) ^ 31 ≤ 2 ^ (2 * j) := pow_le_pow_right₀ (by norm_num) (by omega)
    rw [hsq] at harea
    norm_num at h31
    omega
  have hlenI := length_rectPixels px x y (2 ^ j) (2 ^ j) (by omega) (by omega)
  have hlen : (rectPixels px x y (2 ^ j) (2 ^ j)).length = 2 ^ (2 * j) := by
    rw [hsq] at hlenI
    exact_mod_cast hlenI
  have hn : val (M.ofInt ((2 : Int) ^ j * 2 ^ j)) = some ((2 : ℝ) ^ (2 * j)) := by
    have hb : |(2 : Int) ^ j * 2 ^ j| ≤ DBL_EXACT := by
      rw [abs_of_nonneg (by positivity)]
      omega
    have := hR.val_ofInt _ hb
    rw [this, hsq]
    push_cast
    rfl
  obtain ⟨wr, hwr, r0, r1, rgap⟩ := chanSd_of_pixels hR Color.r _ (2 * j) _ (by omega) he hlen hn
  obtain ⟨wg, hwg, g0, g1, ggap⟩ := chanSd_of_pixels hR Color.g _ (2 * j) _ (by omega) he hlen hn
  obtain ⟨wb, hwb, b0, b1, bgap⟩ := chanSd_of_pixels hR Color.b _ (2 * j) _ (by omega) he hlen hn
  have hchan : p.r ≠ q.r ∨ p.g ≠ q.g ∨ p.b ≠ q.b := by
    by_contra hcon
    push_neg at hcon
    apply hpq
    cases p
    cases q
    simp only [Color.mk.injEq]
    exact hcon
  unfold calcStdDevRGB
  rw [intChecked_of_bounds _ (by positivity) harea, regionPixels_eq px W H x y _ _ hg hr]
  simp only [foldl_sdStep_fields, sdInit]
  refine ⟨_, rfl, ?_⟩
  apply score_not_le_zero hR _ _ _ wr wg wb hwr hwg hwb r0 r1 g0 g1 b0 b1
  rcases hchan with h | h | h
  · exact Or.inl (rgap ⟨p, hp, q, hq, h⟩)
  · exact Or.inr (Or.inl (ggap ⟨p, hp, q, hq, h⟩))
  · exact Or.inr (Or.inr (bgap ⟨p, hp, q, hq, h⟩))

/-! ## Lossless reconstruction at the finest settings -/

theorem built_pow2_nodes {F : Type} {M : DoubleOps F} {px : Grid} {minLeaf : Int} {t : F}
    {r : Node} (hb : Built M px minLeaf t r) :
    ∀ k : Nat, r.rect.2.2.1 = 2 ^ k → r.rect.2.2.2 = 2 ^ k →
      ∀ m ∈ r.nodes, ∃ j : Nat, m.rect.2.2.1 = 2 ^ j ∧ m.rect.2.2.2 = 2 ^ j := by
  induction hb with
  | leaf x y w h avg hstop havg =>
    intro k hw hh m hm
    rw [nodes_leaf, List.mem_singleton] at hm
    subst hm
    exact ⟨k, hw, hh⟩
  | split x y w h c0 c1 c2 c3 hw0 hh0 hsd hw2 hh2 r0 r1 r2 r3 b0 b1 b2 b3 ih0 ih1 ih2 ih3 =>
    intro k hw hh m hm
    have e : (Node.node x y w h false Color.zero c0 c1 c2 c3).rect = (x, y, w, h) := rfl
    rw [e] at hw hh
    dsimp only at hw hh
    cases k with
    | zero =>
      exfalso
      rw [pow_zero] at hw
      apply hw2
      rw [hw]
      rfl
    | succ k' =>
      have hpos : (0 : Int) < 2 ^ k' := by positivity
      have hw' : w = 2 * 2 ^ k' := by rw [hw]; ring
      have hh' : h = 2 * 2 ^ k' := by rw [hh]; ring
      have ew : w.tdiv 2 = 2 ^ k' := by rw [tdiv_two_of_nonneg w (by omega)]; omega
      have eh : h.tdiv 2 = 2 ^ k' := by rw [tdiv_two_of_nonneg h (by omega)]; omega
      have ew' : w - w.tdiv 2 = 2 ^ k' := by omega
      have eh' : h - h.tdiv 2 = 2 ^ k' := by omega
      rw [ew, eh] at r0
      rw [ew', ew, eh] at r1
      rw [eh', ew, eh] at r2
      rw [ew', eh', ew, eh] at r3
      simp only [Node.nodes, List.mem_cons, List.mem_append] at hm
      rcases hm with hm | ((hm | hm) | hm) | hm
      · subst hm
        rw [e]
        exact ⟨k' + 1, hw, hh⟩
      · exact ih0 k' (by rw [r0]) (by rw [r0]) m hm
      · exact ih1 k' (by rw [r1]) (by rw [r1]) m hm
      · exact ih2 k' (by rw [r2]) (by rw [r2]) m hm
      · exact ih3 k' (by rw [r3]) (by rw [r3]) m hm

/-- A leaf built with `minLeaf = 1` and threshold 0 on a square of side `2^j` inside the
    grid holds one colour, its own, provided a score `≤ 0` only occurs on such squares when
    they hold one colour. -/
theorem built_leaf_exact {F : Type} {M : DoubleOps F} {px : Grid} {m : Node} (W H : Int)
    (hg : GridWF px W H) (hWH : W * H ≤ INT_MAX)
    (hsep : ∀ (x y : Int) (j : Nat) (sd : F), 1 ≤ j → RectIn W H x y (2 ^ j) (2 ^ j) →
      calcStdDevRGB M px x y (2 ^ j) (2 ^ j) = some sd → M.le sd (M.ofInt 0) = true →
      ∀ p ∈ rectPixels px x y (2 ^ j) (2 ^ j), ∀ q ∈ rectPixels px x y (2 ^ j) (2 ^ j), p = q)
    (hb : Built M px 1 (M.ofInt 0) m) (hl : m.isLeaf = true)
    (hin : RectIn W H m.rect.1 m.rect.2.1 m.rect.2.2.1 m.rect.2.2.2)
    (j : Nat) (hwj : m.rect.2.2.1 = 2 ^ j) (hhj : m.rect.2.2.2 = 2 ^ j) :
    ∀ p ∈ rectPixels px m.rect.1 m.rect.2.1 m.rect.2.2.1 m.rect.2.2.2, p = m.color := by
  cases hb with
  | split x y w h c0 c1 c2 c3 hw0 hh0 hsd hw2 hh2 r0 r1 r2 r3 b0 b1 b2 b3 =>
    simp [Node.isLeaf] at hl
  | leaf x y w h avg hstop havg =>
    have e : (Node.node x y w h true avg Node.null Node.null Node.null Node.null).rect =
        (x, y, w, h) := rfl
    rw [e] at hin hwj hhj ⊢
    dsimp only at hin hwj hhj ⊢
    subst hwj
    subst hhj
    have hpos : (0 : Int) < 2 ^ j := by positivity
    have harea : (2 : Int) ^ j * 2 ^ j ≤ INT_MAX :=
      le_trans (area_le_of_rectIn W H x y _ _ hin (by omega) (by omega)) hWH
    have huni : ∀ p ∈ rectPixels px x y (2 ^ j) (2 ^ j),
        ∀ q ∈ rectPixels px x y (2 ^ j) (2 ^ j), p = q := by
      cases j with
      | zero =>
        intro p hp q hq
        rw [mem_rectPixels] at hp hq
        obtain ⟨i, j, ⟨a1, a2, a3, a4⟩, rfl⟩ := hp
        obtain ⟨i', j', ⟨b1, b2, b3, b4⟩, rfl⟩ := hq
        rw [pow_zero] at a2 a4 b2 b4
        have ei : i = i' := by omega
        have ej : j = j' := by omega
        rw [ei, ej]
      | succ j' =>
        have hpos' : (0 : Int) < 2 ^ j' := by positivity
        have h2 : (2 : Int) ^ (j' + 1) = 2 * 2 ^ j' := by ring
        have ew := tdiv_two_of_nonneg ((2 : Int) ^ (j' + 1)) (by omega)
        rcases hstop with h1 | h1 | ⟨sd, hsd, h1 | h1 | h1⟩
        · omega
        · omega
        · exact hsep x y (j' + 1) sd (by omega) hin hsd h1
        · rw [ew] at h1; omega
        · rw [ew] at h1; omega
    have hlen := length_rectPixels px x y (2 ^ j) (2 ^ j) (by omega) (by omega)
    have hposA : (1 : Int) ≤ 2 ^ j * 2 ^ j := by nlinarith
    obtain ⟨c, hc⟩ : ∃ c, c ∈ rectPixels px x y (2 ^ j) (2 ^ j) :=
      List.exists_mem_of_length_pos (by omega)
    have hu : ∀ p ∈ rectPixels px x y (2 ^ j) (2 ^ j), p = c := fun p hp => huni p hp c hc
    have hav := averageRGB_uniform_rect px W H x y (2 ^ j) (2 ^ j) c hg hin (by omega)
      (by omega) harea hu
    rw [hav] at havg
    simp only [Option.some.injEq] at havg
    intro p hp
    rw [hu p hp]
    simp only [Node.color]
    exact havg

/-- The output of `rasterizeQT` on a tree built over the whole grid: at the index of
    `(i, j)` it holds the colour of a leaf that covers `(i, j)`. -/
theorem raster_get_of_built {F : Type} {M : DoubleOps F} {px : Grid} {minLeaf : Int} {t : F}
    {r : Node} (W H : Int) (hb : Built M px minLeaf t r) (hrect : r.rect = (0, 0, W, H))
    (hW : 1 ≤ W) (hH : 1 ≤ H) (i j : Int) (hi : 0 ≤ i) (hiW : i < W) (hj : 0 ≤ j)
    (hjH : j < H) :
    ∃ leaf, leaf ∈ r.leaves ∧ leaf.covers i j ∧
      ∀ out0 : List Color, (out0.length : Int) = W * H →
        ∃ out, rasterizeQT r W H out0 = some out ∧ out.length = out0.length ∧
          out[(j * W + i).toNat]? = some leaf.color := by
  obtain ⟨h1, h2, h3⟩ := raster_of_built W H hb hrect hW hH
  obtain ⟨hcount, hcov⟩ := h1 i j hi hiW hj hjH
  obtain ⟨leaf, hmem, hcovers, -⟩ := unique_of_coverCount_one r.leaves i j hcov
  refine ⟨leaf, hmem, hcovers, ?_⟩
  intro out0 hlen
  obtain ⟨out, hout, hlen'⟩ := h3 out0 hlen
  refine ⟨out, hout, hlen', ?_⟩
  rw [rasterizeQT_eq_storeAll] at hout
  apply storeAll_get_of_count_one _ _ _ _ _ hout _ hcount
  rw [rasterWrites_eq_leaves hb]
  simp only [List.mem_flatMap, List.mem_map, Prod.mk.injEq]
  refine ⟨leaf, hmem, j * W + i, ?_, rfl, rfl⟩
  rw [mem_blitIdx]
  exact ⟨i, j, hcovers, hi, hiW, hj, hjH, rfl⟩

/-- Lossless reconstruction for any arithmetic in which a score `≤ 0` on a square of side
    `2^j`, `j ≥ 1`, only occurs when the square holds one colour. -/
theorem rasterize_lossless_of_sep {F : Type} (M : DoubleOps F) (px : Grid) (k : Nat)
    (s : BuildStats F) (hg : GridWF px (2 ^ k) (2 ^ k))
    (hWH : (2 : Int) ^ k * 2 ^ k ≤ INT_MAX)
    (hsep : ∀ (x y : Int) (j : Nat) (sd : F), 1 ≤ j →
      RectIn (2 ^ k) (2 ^ k) x y (2 ^ j) (2 ^ j) →
      calcStdDevRGB M px x y (2 ^ j) (2 ^ j) = some sd → M.le sd (M.ofInt 0) = true →
      ∀ p ∈ rectPixels px x y (2 ^ j) (2 ^ j), ∀ q ∈ rectPixels px x y (2 ^ j) (2 ^ j), p = q) :
    ∃ r s', buildQT M px 0 0 (2 ^ k) (2 ^ k) 1 (M.ofInt 0) s = some (r, s') ∧
      (∀ leaf ∈ r.leaves,
        ∀ p ∈ rectPixels px leaf.rect.1 leaf.rect.2.1 leaf.rect.2.2.1 leaf.rect.2.2.2,
          p = leaf.color) ∧
      ∀ out0 : List Color, (out0.length : Int) = 2 ^ k * 2 ^ k →
        ∃ out, rasterizeQT r (2 ^ k) (2 ^ k) out0 = some out ∧ out.length = out0.length ∧
          ∀ i j : Int, 0 ≤ i → i < 2 ^ k → 0 ≤ j → j < 2 ^ k →
            out[(j * 2 ^ k + i).toNat]? = some (pixel px i j) := by
  have hpos : (0 : Int) < 2 ^ k := by positivity
  have hW : (1 : Int) ≤ 2 ^ k := by omega
  obtain ⟨r, s', e⟩ := buildQT_total M px (2 ^ k) (2 ^ k) 1 (M.ofInt 0) hg hWH _ 0 0 (2 ^ k)
    (2 ^ k) s rfl ⟨le_refl _, le_refl _, by omega, by omega⟩ hW hW
  obtain ⟨hB, hrect, -⟩ := buildQT_sound M px 1 (M.ofInt 0) _ 0 0 (2 ^ k) (2 ^ k) s r s' rfl e
  have hleaf : ∀ leaf ∈ r.leaves,
      ∀ p ∈ rectPixels px leaf.rect.1 leaf.rect.2.1 leaf.rect.2.2.1 leaf.rect.2.2.2,
        p = leaf.color := by
    intro leaf hleaf
    rw [mem_leaves] at hleaf
    obtain ⟨hBm, hmw, hmh, a1, a2, a3, a4⟩ := built_nodes hB (by rw [hrect]; exact hW)
      (by rw [hrect]; exact hW) leaf hleaf.1
    rw [hrect] at a1 a2 a3 a4
    dsimp only at a1 a2 a3 a4
    obtain ⟨j, hwj, hhj⟩ := built_pow2_nodes hB k (by rw [hrect]) (by rw [hrect]) leaf hleaf.1
    exact built_leaf_exact (2 ^ k) (2 ^ k) hg hWH hsep hBm hleaf.2
      ⟨by omega, by omega, by omega, by omega⟩ j hwj hhj
  refine ⟨r, s', e, hleaf, ?_⟩
  intro out0 hlen
  obtain ⟨-, -, h3⟩ := raster_of_built (2 ^ k) (2 ^ k) hB hrect hW hW
  obtain ⟨out, hout, hlen'⟩ := h3 out0 hlen
  refine ⟨out, hout, hlen', ?_⟩
  intro i j hi hiW hj hjH
  obtain ⟨leaf, hmem, hcov, hget⟩ := raster_get_of_built (2 ^ k) (2 ^ k) hB hrect hW hW i j
    hi hiW hj hjH
  obtain ⟨out', hout', -, hval⟩ := hget out0 hlen
  rw [hout] at hout'
  simp only [Option.some.injEq] at hout'
  subst hout'
  rw [hval]
  have hp : pixel px i j ∈
      rectPixels px leaf.rect.1 leaf.rect.2.1 leaf.rect.2.2.1 leaf.rect.2.2.2 := by
    rw [mem_rectPixels]
    exact ⟨i, j, hcov, rfl⟩
  rw [hleaf leaf hmem _ hp]

theorem real_rounded : RoundedOps (exactOps ℝ Real.sqrt) (fun x => some x) where
  val_ofInt := fun a _ => rfl
  add_between := by
    intro x y u v lo hi hx hy _ _ h1 h2
    simp only [Option.some.injEq] at hx hy
    subst hx
    subst hy
    exact ⟨x + y, rfl, h1, h2⟩
  sub_between := by
    intro x y u v lo hi hx hy _ _ h1 h2
    simp only [Option.some.injEq] at hx hy
    subst hx
    subst hy
    exact ⟨x - y, rfl, h1, h2⟩
  mul_between := by
    intro x y u v lo hi hx hy _ _ h1 h2
    simp only [Option.some.injEq] at hx hy
    subst hx
    subst hy
    exact ⟨x * y, rfl, h1, h2⟩
  div_between := by
    intro x y u v lo hi hx hy _ _ _ h1 h2
    simp only [Option.some.injEq] at hx hy
    subst hx
    subst hy
    exact ⟨x / y, rfl, h1, h2⟩
  sqrt_between := by
    intro x u lo hi hx _ _ hlo hhi h1 h2
    simp only [Option.some.injEq] at hx
    subst hx
    refine ⟨Real.sqrt x, rfl, ?_, ?_⟩
    · exact Real.le_sqrt_of_sq_le (by rw [pow_two]; exact h1)
    · rw [Real.sqrt_le_left hhi, pow_two]
      exact h2
  lt_iff := by
    intro x y u v hx hy
    simp only [Option.some.injEq] at hx hy
    subst hx
    subst hy
    simp [exactOps]
  le_iff := by
    intro x y u v hx hy
    simp only [Option.some.injEq] at hx hy
    subst hx
    subst hy
    simp [exactOps]

/-- C15: for every `k` with `2^k * 2^k` within `int` and every grid of `2^k` by `2^k`
    pixels, the tree `buildQT(grid, 0, 0, 2^k, 2^k, minLeaf = 1, threshold = 0)` exists,
    each of its leaves holds only pixels of the leaf's own colour (it is a single pixel
    or a square of one colour), and rasterising it into any buffer of `2^k * 2^k` pixels
    reproduces the grid: output pixel `j*W + i` is `grid[j][i]`.  The arithmetic is
    IEEE-754 `double` as described by `RoundedOps`: correctly rounded operations. -/
theorem rasterize_lossless_pow2 {F : Type} (M : DoubleOps F) (val : F → Option ℝ)
    (px : Grid) (k : Nat) (s : BuildStats F) (hR : RoundedOps M val)
    (hg : GridWF px (2 ^ k) (2 ^ k)) (hWH : (2 : Int) ^ k * 2 ^ k ≤ INT_MAX) :
    ∃ r s', buildQT M px 0 0 (2 ^ k) (2 ^ k) 1 (M.ofInt 0) s = some (r, s') ∧
      (∀ leaf ∈ r.leaves,
        ∀ p ∈ rectPixels px leaf.rect.1 leaf.rect.2.1 leaf.rect.2.2.1 leaf.rect.2.2.2,
          p = leaf.color) ∧
      ∀ out0 : List Color, (out0.length : Int) = 2 ^ k * 2 ^ k →
        ∃ out, rasterizeQT r (2 ^ k) (2 ^ k) out0 = some out ∧ out.length = out0.length ∧
          ∀ i j : Int, 0 ≤ i → i < 2 ^ k → 0 ≤ j → j < 2 ^ k →
            out[(j * 2 ^ k + i).toNat]? = some (pixel px i j) := by
  apply rasterize_lossless_of_sep M px k s hg hWH
  intro x y j sd hj hin hsd hle p hp q hq
  by_contra hpq
  have hpos : (0 : Int) < 2 ^ j := by positivity
  have harea : (2 : Int) ^ j * 2 ^ j ≤ INT_MAX :=
    le_trans (area_le_of_rectIn (2 ^ k) (2 ^ k) x y _ _ hin (by omega) (by omega)) hWH
  obtain ⟨sd', hsd', hfalse⟩ := rounded_score_of_two_colours hR px (2 ^ k) (2 ^ k) x y j hg
    hin hj harea p q hp hq hpq
  rw [hsd] at hsd'
  simp only [Option.some.injEq] at hsd'
  subst hsd'
  rw [hle] at hfalse
  exact absurd hfalse (by simp)

theorem grid2_wf : GridWF grid2 (2 ^ 1) (2 ^ 1) := by decide

/-- Witness of C15: the 2x2 image (`k = 1`) in exact real arithmetic, which satisfies
    `RoundedOps`. -/
theorem rasterize_lossless_pow2_witness :
    ∃ r s', buildQT (exactOps ℝ Real.sqrt) grid2 0 0 (2 ^ 1) (2 ^ 1) 1
        ((exactOps ℝ Real.sqrt).ofInt 0) (BuildStats.zero (exactOps ℝ Real.sqrt))
        = some (r, s') ∧
      (∀ leaf ∈ r.leaves,
        ∀ p ∈ rectPixels grid2 leaf.rect.1 leaf.rect.2.1 leaf.rect.2.2.1 leaf.rect.2.2.2,
          p = leaf.color) ∧
      ∀ out0 : List Color, (out0.length : Int) = 2 ^ 1 * 2 ^ 1 →
        ∃ out, rasterizeQT r (2 ^ 1) (2 ^ 1) out0 = some out ∧ out.length = out0.length ∧
          ∀ i j : Int, 0 ≤ i → i < 2 ^ 1 → 0 ≤ j → j < 2 ^ 1 →
            out[(j * 2 ^ 1 + i).toNat]? = some (pixel grid2 i j) :=
  rasterize_lossless_pow2 (exactOps ℝ Real.sqrt) (fun x => some x) grid2 1
    (BuildStats.zero (exactOps ℝ Real.sqrt)) real_rounded grid2_wf (by decide)

end QuadTree
